import Mathlib

/-!
Verification of the ALICE-VCS core (AST tree, diff/apply, varint patch
codec, three-way merge, snapshot store, mark-sweep GC, commit layer).

The Rust sources are shallowly embedded: each Rust function becomes a Lean
function of the same name.  Machine integers are modelled as `Nat`/`Int`
with explicit wrapping (`% 2^32`, `% 2^64`) exactly where the source casts
or can wrap; Rust `String` values are modelled by their UTF-8 byte lists
(`List Nat`); `HashMap`/`BTreeMap` are modelled by association lists with
insert-replaces-key semantics (observationally equal to the map API used by
the source); the borrow-splitting mutation through `get_node_mut` becomes
`modifyNode`; recursion that structurally descends through child links in
the source carries explicit fuel (the source recursion terminates exactly
on the acyclic trees the API constructs; fuel is chosen so that it never
runs out on such trees).  Decoders consume a suffix of the byte list
instead of carrying a read position; this is observationally identical
because the source decoders only ever read at the position and advance it.
-/

namespace AliceVCS

/-! ### Association-list maps (model of HashMap / BTreeMap) -/

def lookupA {κ α : Type} [DecidableEq κ] (m : List (κ × α)) (k : κ) : Option α :=
  (m.find? (fun p => decide (p.1 = k))).map (·.2)

def eraseA {κ α : Type} [DecidableEq κ] (m : List (κ × α)) (k : κ) : List (κ × α) :=
  m.filter (fun p => decide (p.1 ≠ k))

def insertA {κ α : Type} [DecidableEq κ] (m : List (κ × α)) (k : κ) (v : α) : List (κ × α) :=
  (k, v) :: eraseA m k

def modifyIdx {α : Type} : List α → Nat → (α → α) → List α
  | [], _, _ => []
  | a :: l, 0, f => f a :: l
  | a :: l, n + 1, f => a :: modifyIdx l n f

def listFlatMap {α β : Type} (f : α → List β) : List α → List β
  | [] => []
  | a :: l => f a ++ listFlatMap f l

/-! ### ast.rs : node kinds, values, nodes, trees -/

inductive AstNodeKind : Type
  | Root
  | CsgOp
  | Primitive
  | Transform
  | Parameter
  | Group
  | Material
  | Keyframe
  | Custom
deriving DecidableEq, Repr

/-- Discriminant of the `repr(u8)` enum (`kind as u8` in the source). -/
def AstNodeKind.toByte : AstNodeKind → Nat
  | .Root => 0
  | .CsgOp => 1
  | .Primitive => 2
  | .Transform => 3
  | .Parameter => 4
  | .Group => 5
  | .Material => 6
  | .Keyframe => 7
  | .Custom => 255

/-- `AstNodeKind::from_u8` : unknown bytes map to `Custom`. -/
def AstNodeKind.from_u8 (v : Nat) : AstNodeKind :=
  match v with
  | 0 => .Root
  | 1 => .CsgOp
  | 2 => .Primitive
  | 3 => .Transform
  | 4 => .Parameter
  | 5 => .Group
  | 6 => .Material
  | 7 => .Keyframe
  | _ => .Custom

/-- `NodeValue`.  `float b` carries the 64-bit IEEE-754 bit pattern of the
`f64` (so structural equality of this type is bit-pattern equality, which is
what the codec round-trip obligation uses); `text`/`ident`/`bytes` carry the
UTF-8/raw byte lists of the Rust `String` / `Vec<u8>`. -/
inductive NodeValue : Type
  | none
  | int (v : Int)
  | float (bits : Nat)
  | text (s : List Nat)
  | ident (s : List Nat)
  | bytes (b : List Nat)
deriving DecidableEq, Repr

/-- Bit pattern of an IEEE-754 binary64 NaN: exponent all ones, nonzero mantissa. -/
def f64IsNaN (b : Nat) : Bool :=
  decide ((b >>> 52) &&& 2047 = 2047) && decide (b &&& 4503599627370495 ≠ 0)

/-- Bit pattern of an IEEE-754 binary64 zero (positive or negative). -/
def f64IsZero (b : Nat) : Bool :=
  decide (b = 0) || decide (b = 9223372036854775808)

/-- IEEE-754 `==` on two binary64 bit patterns: never true on NaN, the two
zeros are equal, and otherwise binary64 values are equal exactly when their
bit patterns are. -/
def f64Eq (a b : Nat) : Bool :=
  !f64IsNaN a && !f64IsNaN b && (decide (a = b) || (f64IsZero a && f64IsZero b))

/-- The derived `PartialEq` of `NodeValue`: structural except that the
`Float` arms compare with IEEE-754 `f64` equality. -/
def nvEq : NodeValue → NodeValue → Bool
  | .none, .none => true
  | .int a, .int b => decide (a = b)
  | .float a, .float b => f64Eq a b
  | .text a, .text b => decide (a = b)
  | .ident a, .ident b => decide (a = b)
  | .bytes a, .bytes b => decide (a = b)
  | _, _ => false

structure AstNode : Type where
  id : Nat
  kind : AstNodeKind
  label : List Nat
  value : NodeValue
  children : List Nat
deriving DecidableEq, Repr

/-- The `"root"` label of the root node, as UTF-8 bytes. -/
def rootLabel : List Nat := [114, 111, 111, 116]

structure AstTree : Type where
  nodes : List AstNode
  index : List (Nat × Nat)
  parent_index : List (Nat × Nat)
  root_id : Nat
  next_id : Nat
deriving DecidableEq, Repr

def AstTree.new : AstTree :=
  { nodes := [⟨0, .Root, rootLabel, .none, []⟩]
    index := [(0, 0)]
    parent_index := []
    root_id := 0
    next_id := 1 }

/-- `AstTree::get_node` : position lookup through the id index. -/
def AstTree.get_node (t : AstTree) (id : Nat) : Option AstNode :=
  match lookupA t.index id with
  | Option.none => Option.none
  | some idx => t.nodes[idx]?

/-- All uses of `get_node_mut` in the source mutate the node in place; this
is that mutation: apply `f` to the node `id` resolves to, or leave the tree
unchanged when the id is unknown. -/
def AstTree.modifyNode (t : AstTree) (id : Nat) (f : AstNode → AstNode) : AstTree :=
  match lookupA t.index id with
  | Option.none => t
  | some idx => { t with nodes := modifyIdx t.nodes idx f }

/-- `AstTree::add_node`, returning the fresh id together with the new tree. -/
def AstTree.add_node (t : AstTree) (kind : AstNodeKind) (label : List Nat)
    (parent_id : Nat) : Nat × AstTree :=
  let id := t.next_id
  let node : AstNode := ⟨id, kind, label, .none, []⟩
  let idx := t.nodes.length
  let t1 : AstTree :=
    { nodes := t.nodes ++ [node]
      index := insertA t.index id idx
      parent_index := insertA t.parent_index id parent_id
      root_id := t.root_id
      next_id := id + 1 }
  (id, t1.modifyNode parent_id (fun n => { n with children := n.children ++ [id] }))

/-- `AstTree::add_node_with_value`. -/
def AstTree.add_node_with_value (t : AstTree) (kind : AstNodeKind) (label : List Nat)
    (value : NodeValue) (parent_id : Nat) : Nat × AstTree :=
  let (id, t1) := t.add_node kind label parent_id
  (id, t1.modifyNode id (fun n => { n with value := value }))

/-- `AstTree::parent_of`. -/
def AstTree.parent_of (t : AstTree) (id : Nat) : Option Nat :=
  lookupA t.parent_index id

/-- `AstTree::collect_subtree` (preorder id collection), with fuel bounding
the descent depth; `remove_subtree` passes fuel `t.nodes.length`, which is
at least the depth of any tree satisfying the representation invariants. -/
def AstTree.collect_subtree (t : AstTree) : Nat → Nat → List Nat
  | 0, id => [id]
  | fuel + 1, id =>
    id :: (match t.get_node id with
      | Option.none => []
      | some n => listFlatMap (t.collect_subtree fuel) n.children)

def rebuildIndexFrom : Nat → List AstNode → List (Nat × Nat) → List (Nat × Nat)
  | _, [], m => m
  | i, n :: ns, m => rebuildIndexFrom (i + 1) ns (insertA m n.id i)

/-- `AstTree::remove_subtree`: collect the subtree closure, detach from the
parent, drop the collected ids from both indices, and rebuild the id index. -/
def AstTree.remove_subtree (t : AstTree) (id : Nat) : AstTree :=
  let to_remove := t.collect_subtree t.nodes.length id
  let t1 :=
    match t.parent_of id with
    | some pid => t.modifyNode pid (fun n => { n with children := n.children.filter (fun c => decide (c ≠ id)) })
    | Option.none => t
  let parent_index1 := to_remove.foldl (fun m rid => eraseA m rid) t1.parent_index
  let nodes1 := t1.nodes.filter (fun n => !(to_remove.contains n.id))
  { nodes := nodes1
    index := rebuildIndexFrom 0 nodes1 []
    parent_index := parent_index1
    root_id := t1.root_id
    next_id := t1.next_id }

/-- One FNV-1a 64-bit step: xor the byte in, multiply by the prime, wrap. -/
def hashStep (h b : Nat) : Nat :=
  ((h ^^^ b) * 1099511628211) % 18446744073709551616

/-- `AstTree::hash_node` : fold kind byte, label bytes, then children
recursively into the running hash; missing nodes contribute nothing. -/
def AstTree.hash_node (t : AstTree) : Nat → Nat → Nat → Nat
  | 0, _, h => h
  | fuel + 1, id, h =>
    match t.get_node id with
    | Option.none => h
    | some n =>
      let h1 := hashStep h n.kind.toByte
      let h2 := n.label.foldl hashStep h1
      n.children.foldl (fun acc c => t.hash_node fuel c acc) h2

/-- `AstTree::subtree_hash` with the FNV-1a offset basis. -/
def AstTree.subtree_hash (t : AstTree) (id : Nat) : Nat :=
  t.hash_node (t.nodes.length + 1) id 14695981039346656037

/-! ### diff.rs : operations, diff, apply -/

inductive DiffOp : Type
  | insert (parent_id : Nat) (index : Nat) (kind : AstNodeKind) (label : List Nat) (value : NodeValue)
  | delete (node_id : Nat)
  | update (node_id : Nat) (old_value : NodeValue) (new_value : NodeValue)
  | relabel (node_id : Nat) (old_label : List Nat) (new_label : List Nat)
  | move (node_id : Nat) (new_parent_id : Nat) (new_index : Nat)
deriving DecidableEq, Repr

/-- The derived `PartialEq` of `DiffOp` (value fields compare with the
IEEE-754-aware `NodeValue` equality). -/
def opEq : DiffOp → DiffOp → Bool
  | .insert p i k l v, .insert p' i' k' l' v' =>
    decide (p = p') && decide (i = i') && decide (k = k') && decide (l = l') && nvEq v v'
  | .delete n, .delete n' => decide (n = n')
  | .update n o v, .update n' o' v' => decide (n = n') && nvEq o o' && nvEq v v'
  | .relabel n o l, .relabel n' o' l' => decide (n = n') && decide (o = o') && decide (l = l')
  | .move n p i, .move n' p' i' => decide (n = n') && decide (p = p') && decide (i = i')
  | _, _ => false

def opListEq : List DiffOp → List DiffOp → Bool
  | [], [] => true
  | a :: as_, b :: bs => opEq a b && opListEq as_ bs
  | _, _ => false

/-- The `(kind, label)` matching key of a node, when it resolves. -/
def keyOf (t : AstTree) (id : Nat) : Option (AstNodeKind × List Nat) :=
  (t.get_node id).map (fun n => (n.kind, n.label))

/-- First unmatched new-child position whose node resolves to key `k`.
This is exactly the candidate search of the source: the per-key candidate
lists of `new_key_to_indices` hold precisely the resolvable new positions
with that key in increasing order, so popping the first unmatched candidate
for `k` is the first unmatched position with key `k`. -/
def firstUnmatched (new : AstTree) : List Nat → List Bool → (AstNodeKind × List Nat) → Option Nat
  | c :: cs, m :: ms, k =>
    if !m && decide (keyOf new c = some k) then some 0
    else (firstUnmatched new cs ms k).map (· + 1)
  | _, _, _ => Option.none

def setTrue : List Bool → Nat → List Bool
  | l, n => modifyIdx l n (fun _ => true)

/-- The first pass of `diff_subtree` over the old children: thread the
matched flags, record per-old-child matched status in order, and emit the
recursive diff of each matched pair in iteration order.  `rec` is the
recursive call `diff_subtree old new fuel`. -/
def matchLoop (old new : AstTree) (rec : Nat → Nat → List DiffOp) (newCh : List Nat) :
    List Nat → List Bool → List Bool × List Bool × List DiffOp
  | [], matchedNew => ([], matchedNew, [])
  | oc :: ocs, matchedNew =>
    match keyOf old oc with
    | Option.none =>
      let r := matchLoop old new rec newCh ocs matchedNew
      (false :: r.1, r.2.1, r.2.2)
    | some k =>
      match firstUnmatched new newCh matchedNew k with
      | Option.none =>
        let r := matchLoop old new rec newCh ocs matchedNew
        (false :: r.1, r.2.1, r.2.2)
      | some ni =>
        let childOps := rec oc (newCh.getD ni 0)
        let r := matchLoop old new rec newCh ocs (setTrue matchedNew ni)
        (true :: r.1, r.2.1, childOps ++ r.2.2)

/-- Third pass: unmatched new children (whose node resolves) become
`Insert` ops carrying the old parent id and the new-child position. -/
def insertsOf (new : AstTree) (parent : Nat) : List Nat → List Bool → Nat → List DiffOp
  | c :: cs, m :: ms, i =>
    (if !m then
        match new.get_node c with
        | some n => [DiffOp.insert parent i n.kind n.label n.value]
        | Option.none => []
      else []) ++ insertsOf new parent cs ms (i + 1)
  | _, _, _ => []

/-- `diff_subtree` : relabel/update of the matched pair, recursive diffs of
key-matched children, deletes of unmatched old children, inserts of
unmatched new children. -/
def diff_subtree (old new : AstTree) : Nat → Nat → Nat → List DiffOp
  | 0, _, _ => []
  | fuel + 1, old_id, new_id =>
    match old.get_node old_id, new.get_node new_id with
    | some onode, some nnode =>
      let relabelOps :=
        if onode.label ≠ nnode.label then [DiffOp.relabel old_id onode.label nnode.label] else []
      let updateOps :=
        if !nvEq onode.value nnode.value then [DiffOp.update old_id onode.value nnode.value] else []
      let r := matchLoop old new (fun a b => diff_subtree old new fuel a b) nnode.children
        onode.children (List.replicate nnode.children.length false)
      let deleteOps :=
        (onode.children.zip r.1).filterMap (fun cm => if cm.2 then Option.none else some (DiffOp.delete cm.1))
      let insertOps := insertsOf new old_id nnode.children r.2.1 0
      relabelOps ++ updateOps ++ r.2.2 ++ deleteOps ++ insertOps
    | _, _ => []

/-- `diff_trees` : diff from the two roots.  The fuel `old.nodes.length + 1`
exceeds the child-descent depth of every tree satisfying the representation
invariants, so it models the unbounded source recursion faithfully. -/
def diff_trees (old new : AstTree) : List DiffOp :=
  diff_subtree old new (old.nodes.length + 1) old.root_id new.root_id

/-- One step of `apply_patch`. -/
def applyOne (t : AstTree) : DiffOp → AstTree
  | .insert parent_id _index kind label value =>
    (t.add_node_with_value kind label value parent_id).2
  | .delete node_id => t.remove_subtree node_id
  | .update node_id _old new_value =>
    t.modifyNode node_id (fun n => { n with value := new_value })
  | .relabel node_id _old new_label =>
    t.modifyNode node_id (fun n => { n with label := new_label })
  | .move node_id new_parent_id _new_index =>
    let t1 :=
      match t.parent_of node_id with
      | some old_parent_id =>
        t.modifyNode old_parent_id (fun n => { n with children := n.children.filter (fun c => decide (c ≠ node_id)) })
      | Option.none => t
    t1.modifyNode new_parent_id (fun n => { n with children := n.children ++ [node_id] })

/-- `apply_patch` : fold the operations over the tree in order. -/
def apply_patch (t : AstTree) (ops : List DiffOp) : AstTree :=
  ops.foldl applyOne t

/-! ### codec.rs : LEB128 varints and the patch wire format -/

/-- `encode_varint_u32` : emit 7-bit groups, least significant first, with
the continuation bit on every byte except the last. -/
def encode_varint_u32 (value : Nat) : List Nat :=
  if h : value >>> 7 = 0 then [value &&& 127]
  else (value &&& 127 ||| 128) :: encode_varint_u32 (value >>> 7)
termination_by value
decreasing_by
  rw [Nat.shiftRight_eq_div_pow]
  exact Nat.div_lt_self
    (Nat.pos_of_ne_zero fun h0 => h (by simp [h0, Nat.shiftRight_eq_div_pow]))
    (by norm_num)

/-- The loop of `decode_varint_u32`.  `value` and `shift` are the running
accumulator and shift of the source; the fuel counts the remaining
continuations allowed before the `shift >= 35` guard fires (4 at shift 0).
The `% 2^32` wraps the `u32` accumulation. -/
def decode_varint_go (value shift : Nat) : Nat → List Nat → Option (Nat × List Nat)
  | _, [] => Option.none
  | fuel, byte :: rest =>
    let value1 := (value ||| ((byte &&& 127) <<< shift)) % 4294967296
    if byte &&& 128 = 0 then some (value1, rest)
    else
      match fuel with
      | 0 => Option.none
      | fuel + 1 => decode_varint_go value1 (shift + 7) fuel rest

/-- `decode_varint_u32`, consuming a prefix of the byte list. -/
def decode_varint_u32 (data : List Nat) : Option (Nat × List Nat) :=
  decode_varint_go 0 0 4 data

/-- `encode_usize` : the source truncates with `value as u32`. -/
def encode_usize (value : Nat) : List Nat :=
  encode_varint_u32 (value % 4294967296)

/-- `decode_usize` (`v as usize` widens losslessly). -/
def decode_usize (data : List Nat) : Option (Nat × List Nat) :=
  decode_varint_u32 data

/-- `u64::to_le_bytes` / `f64::to_le_bytes` on the bit pattern. -/
def u64_le_bytes (n : Nat) : List Nat :=
  [n % 256, n / 256 % 256, n / 65536 % 256, n / 16777216 % 256,
   n / 4294967296 % 256, n / 1099511627776 % 256, n / 281474976710656 % 256,
   n / 72057594037927936 % 256]

def u64_from_le (b0 b1 b2 b3 b4 b5 b6 b7 : Nat) : Nat :=
  b0 + 256 * b1 + 65536 * b2 + 16777216 * b3 + 4294967296 * b4 +
    1099511627776 * b5 + 281474976710656 * b6 + 72057594037927936 * b7

/-- `i64::to_le_bytes` : two᾿s-complement little-endian. -/
def i64_le_bytes (v : Int) : List Nat :=
  u64_le_bytes (v % 18446744073709551616).toNat

/-- `i64::from_le_bytes`. -/
def i64_from_le (b0 b1 b2 b3 b4 b5 b6 b7 : Nat) : Int :=
  let n := u64_from_le b0 b1 b2 b3 b4 b5 b6 b7
  if n < 9223372036854775808 then (n : Int) else (n : Int) - 18446744073709551616

/-- The UTF-8 validity check performed by `String::from_utf8`, as the
standard byte-level automaton: `k` continuation bytes are still expected,
the next of which must lie in `lo..=hi` (RFC 3629 restricts the first
continuation byte after the lead bytes `0xE0`, `0xED`, `0xF0` and `0xF4`;
every later continuation byte must lie in `0x80..=0xBF`). -/
def utf8ValidFrom : Nat → Nat → Nat → List Nat → Bool
  | k, _, _, [] => decide (k = 0)
  | k, lo, hi, b :: rest =>
    if k = 0 then
      if b < 128 then utf8ValidFrom 0 0 0 rest
      else if 194 ≤ b ∧ b ≤ 223 then utf8ValidFrom 1 128 191 rest
      else if b = 224 then utf8ValidFrom 2 160 191 rest
      else if 225 ≤ b ∧ b ≤ 236 then utf8ValidFrom 2 128 191 rest
      else if b = 237 then utf8ValidFrom 2 128 159 rest
      else if 238 ≤ b ∧ b ≤ 239 then utf8ValidFrom 2 128 191 rest
      else if b = 240 then utf8ValidFrom 3 144 191 rest
      else if 241 ≤ b ∧ b ≤ 243 then utf8ValidFrom 3 128 191 rest
      else if b = 244 then utf8ValidFrom 3 128 143 rest
      else false
    else if lo ≤ b ∧ b ≤ hi then utf8ValidFrom (k - 1) 128 191 rest
    else false

/-- UTF-8 validity of a whole byte list (`String::from_utf8` succeeds). -/
def utf8Valid (l : List Nat) : Bool :=
  utf8ValidFrom 0 0 0 l

/-- `encode_value`. -/
def encode_value (value : NodeValue) : List Nat :=
  match value with
  | .none => [0]
  | .int v => 1 :: i64_le_bytes v
  | .float bits => 2 :: u64_le_bytes bits
  | .text s => 3 :: (encode_usize s.length ++ s)
  | .ident s => 4 :: (encode_usize s.length ++ s)
  | .bytes b => 5 :: (encode_usize b.length ++ b)

/-- Decode a length-prefixed byte payload (shared shape of the Text, Ident
and Bytes arms of `decode_value` and of `decode_string`). -/
def decode_len_payload (data : List Nat) : Option (List Nat × List Nat) :=
  match decode_usize data with
  | Option.none => Option.none
  | some (len, rest) =>
    if rest.length < len then Option.none
    else some (rest.take len, rest.drop len)

/-- `decode_value`. -/
def decode_value (data : List Nat) : Option (NodeValue × List Nat) :=
  match data with
  | [] => Option.none
  | tag :: rest =>
    if tag = 0 then some (.none, rest)
    else if tag = 1 then
      match rest with
      | b0 :: b1 :: b2 :: b3 :: b4 :: b5 :: b6 :: b7 :: r =>
        some (.int (i64_from_le b0 b1 b2 b3 b4 b5 b6 b7), r)
      | _ => Option.none
    else if tag = 2 then
      match rest with
      | b0 :: b1 :: b2 :: b3 :: b4 :: b5 :: b6 :: b7 :: r =>
        some (.float (u64_from_le b0 b1 b2 b3 b4 b5 b6 b7), r)
      | _ => Option.none
    else if tag = 3 then
      match decode_len_payload rest with
      | some (s, r) => if utf8Valid s then some (.text s, r) else Option.none
      | Option.none => Option.none
    else if tag = 4 then
      match decode_len_payload rest with
      | some (s, r) => if utf8Valid s then some (.ident s, r) else Option.none
      | Option.none => Option.none
    else if tag = 5 then
      match decode_len_payload rest with
      | some (b, r) => some (.bytes b, r)
      | Option.none => Option.none
    else Option.none

/-- `encode_string`. -/
def encode_string (s : List Nat) : List Nat :=
  encode_usize s.length ++ s

/-- `decode_string`. -/
def decode_string (data : List Nat) : Option (List Nat × List Nat) :=
  match decode_len_payload data with
  | some (s, r) => if utf8Valid s then some (s, r) else Option.none
  | Option.none => Option.none

/-- `encode_op`. -/
def encode_op (op : DiffOp) : List Nat :=
  match op with
  | .insert parent_id index kind label value =>
    0 :: (encode_varint_u32 parent_id ++ encode_usize index ++ [kind.toByte] ++
      encode_string label ++ encode_value value)
  | .delete node_id => 1 :: encode_varint_u32 node_id
  | .update node_id old_value new_value =>
    2 :: (encode_varint_u32 node_id ++ encode_value old_value ++ encode_value new_value)
  | .relabel node_id old_label new_label =>
    3 :: (encode_varint_u32 node_id ++ encode_string old_label ++ encode_string new_label)
  | .move node_id new_parent_id new_index =>
    4 :: (encode_varint_u32 node_id ++ encode_varint_u32 new_parent_id ++ encode_usize new_index)

/-- `decode_op`. -/
def decode_op (data : List Nat) : Option (DiffOp × List Nat) :=
  match data with
  | [] => Option.none
  | tag :: rest =>
    if tag = 0 then
      match decode_varint_u32 rest with
      | Option.none => Option.none
      | some (parent_id, r1) =>
        match decode_usize r1 with
        | Option.none => Option.none
        | some (index, r2) =>
          match r2 with
          | [] => Option.none
          | kind_byte :: r3 =>
            match decode_string r3 with
            | Option.none => Option.none
            | some (label, r4) =>
              match decode_value r4 with
              | Option.none => Option.none
              | some (value, r5) =>
                some (.insert parent_id index (AstNodeKind.from_u8 kind_byte) label value, r5)
    else if tag = 1 then
      match decode_varint_u32 rest with
      | Option.none => Option.none
      | some (node_id, r1) => some (.delete node_id, r1)
    else if tag = 2 then
      match decode_varint_u32 rest with
      | Option.none => Option.none
      | some (node_id, r1) =>
        match decode_value r1 with
        | Option.none => Option.none
        | some (old_value, r2) =>
          match decode_value r2 with
          | Option.none => Option.none
          | some (new_value, r3) => some (.update node_id old_value new_value, r3)
    else if tag = 3 then
      match decode_varint_u32 rest with
      | Option.none => Option.none
      | some (node_id, r1) =>
        match decode_string r1 with
        | Option.none => Option.none
        | some (old_label, r2) =>
          match decode_string r2 with
          | Option.none => Option.none
          | some (new_label, r3) => some (.relabel node_id old_label new_label, r3)
    else if tag = 4 then
      match decode_varint_u32 rest with
      | Option.none => Option.none
      | some (node_id, r1) =>
        match decode_varint_u32 r1 with
        | Option.none => Option.none
        | some (new_parent_id, r2) =>
          match decode_usize r2 with
          | Option.none => Option.none
          | some (new_index, r3) => some (.move node_id new_parent_id new_index, r3)
    else Option.none

/-- `encode_patch` : count varint followed by the encoded operations. -/
def encode_patch (ops : List DiffOp) : List Nat :=
  encode_usize ops.length ++ listFlatMap encode_op ops

/-- The decode loop of `decode_patch`. -/
def decode_ops : Nat → List Nat → Option (List DiffOp × List Nat)
  | 0, data => some ([], data)
  | n + 1, data =>
    match decode_op data with
    | Option.none => Option.none
    | some (op, rest) =>
      match decode_ops n rest with
      | Option.none => Option.none
      | some (ops, rest1) => some (op :: ops, rest1)

/-- `decode_patch` (trailing bytes are ignored, as in the source). -/
def decode_patch (data : List Nat) : Option (List DiffOp) :=
  match decode_usize data with
  | Option.none => Option.none
  | some (count, rest) =>
    match decode_ops count rest with
    | Option.none => Option.none
    | some (ops, _) => some ops

/-! ### merge.rs : three-way merge of two edit scripts -/

/-- The bytes of the string `conflicting edits on same node`. -/
def conflictDescr : List Nat :=
  [99, 111, 110, 102, 108, 105, 99, 116, 105, 110, 103, 32, 101, 100, 105, 116, 115,
   32, 111, 110, 32, 115, 97, 109, 101, 32, 110, 111, 100, 101]

structure Conflict : Type where
  node_id : Nat
  description : List Nat
  ops_a : List DiffOp
  ops_b : List DiffOp
deriving DecidableEq, Repr

structure MergeResult : Type where
  merged_ops : List DiffOp
  conflicts : List Conflict
deriving DecidableEq, Repr

/-- `MergeResult::is_clean`. -/
def MergeResult.is_clean (r : MergeResult) : Bool :=
  r.conflicts.isEmpty

/-- `op_target_node` : the single target node of an operation. -/
def op_target_node : DiffOp → Nat
  | .insert parent_id _ _ _ _ => parent_id
  | .delete node_id => node_id
  | .update node_id _ _ => node_id
  | .relabel node_id _ _ => node_id
  | .move node_id _ _ => node_id

/-- `affected_nodes` : target ids in first-occurrence order, deduplicated. -/
def affected_nodes (ops : List DiffOp) : List Nat :=
  ops.foldl (fun ns op => if op_target_node op ∈ ns then ns else ns ++ [op_target_node op]) []

/-- The conflict-detection pass of `merge_patches` over one shared id. -/
def conflictStep (patch_a patch_b : List DiffOp) (affected_b : List Nat)
    (acc : List DiffOp × List Conflict) (node_id : Nat) : List DiffOp × List Conflict :=
  if node_id ∈ affected_b then
    let ops_a := patch_a.filter (fun o => decide (op_target_node o = node_id))
    let ops_b := patch_b.filter (fun o => decide (op_target_node o = node_id))
    if opListEq ops_a ops_b then (acc.1 ++ ops_a, acc.2)
    else (acc.1, acc.2 ++ [⟨node_id, conflictDescr, ops_a, ops_b⟩])
  else acc

/-- `merge_patches`. -/
def merge_patches (patch_a patch_b : List DiffOp) : MergeResult :=
  let affected_a := affected_nodes patch_a
  let affected_b := affected_nodes patch_b
  let mergedA := patch_a.filter (fun op => !(affected_b.contains (op_target_node op)))
  let mergedB := patch_b.filter (fun op => !(affected_a.contains (op_target_node op)))
  let r := affected_a.foldl (conflictStep patch_a patch_b affected_b) (mergedA ++ mergedB, [])
  ⟨r.1, r.2⟩

/-! ### store.rs : content-addressed snapshot store -/

structure Snapshot : Type where
  tree : AstTree
  parents : List Nat
deriving DecidableEq, Repr

structure SnapshotStore : Type where
  snapshots : List (Nat × Snapshot)
deriving DecidableEq, Repr

def SnapshotStore.new : SnapshotStore := ⟨[]⟩

/-- `SnapshotStore::store` : commit hash is the root subtree hash folded
with each parent by xor-multiply, wrapping at 64 bits. -/
def SnapshotStore.store (s : SnapshotStore) (tree : AstTree) (parents : List Nat) :
    Nat × SnapshotStore :=
  let hash := tree.subtree_hash tree.root_id
  let commit_hash :=
    parents.foldl (fun c p => ((c ^^^ p) * 1099511628211) % 18446744073709551616) hash
  (commit_hash, ⟨insertA s.snapshots commit_hash ⟨tree, parents⟩⟩)

def SnapshotStore.get (s : SnapshotStore) (hash : Nat) : Option AstTree :=
  (lookupA s.snapshots hash).map (·.tree)

/-- `SnapshotStore::parents`. -/
def SnapshotStore.parentsOf (s : SnapshotStore) (hash : Nat) : Option (List Nat) :=
  (lookupA s.snapshots hash).map (·.parents)

/-- `SnapshotStore::contains`. -/
def SnapshotStore.containsH (s : SnapshotStore) (hash : Nat) : Bool :=
  (lookupA s.snapshots hash).isSome

def SnapshotStore.len (s : SnapshotStore) : Nat :=
  s.snapshots.length

def SnapshotStore.all_hashes (s : SnapshotStore) : List Nat :=
  s.snapshots.map (·.1)

/-- `SnapshotStore::remove` (the source also reports whether the hash was
present; the callers in scope ignore that report). -/
def SnapshotStore.remove (s : SnapshotStore) (hash : Nat) : SnapshotStore :=
  ⟨eraseA s.snapshots hash⟩

/-! ### gc.rs : mark-sweep garbage collection -/

structure GcResult : Type where
  retained : Nat
  collected : Nat
  total_before : Nat
deriving DecidableEq, Repr

/-- One mark insertion: a parent (or root) hash enters the reachable set and
the work list when it is present in the store and not yet marked.  The work
list is kept reversed with respect to the source `Vec`: `queue.push` is a
cons at the head, so that `queue.pop`, which removes the LAST pushed element,
is taking the head. -/
def markStep (store : SnapshotStore) (rq : List Nat × List Nat) (p : Nat) :
    List Nat × List Nat :=
  if store.containsH p ∧ p ∉ rq.1 then (rq.1 ++ [p], p :: rq.2) else rq

/-- Number of store hashes not yet marked; the termination measure of the
mark loop. -/
def unmarkedCount (store : SnapshotStore) (r : List Nat) : Nat :=
  (store.all_hashes.filter (fun h => decide (h ∉ r))).length

theorem length_filter_le_of_imp {l : List Nat} {p q : Nat → Bool}
    (h : ∀ x, q x = true → p x = true) :
    (l.filter q).length ≤ (l.filter p).length := by
  induction l with
  | nil => simp
  | cons a l ih =>
    rw [List.filter_cons, List.filter_cons]
    cases hq : q a with
    | true => rw [h a hq]; simpa using ih
    | false =>
      cases hp : p a with
      | true => simp; omega
      | false => simpa using ih

theorem length_filter_lt_of_mem {l : List Nat} {p q : Nat → Bool} (x : Nat)
    (h : ∀ y, q y = true → p y = true) (hx : x ∈ l) (hpx : p x = true) (hqx : q x = false) :
    (l.filter q).length < (l.filter p).length := by
  induction l with
  | nil => cases hx
  | cons a l ih =>
    rw [List.filter_cons, List.filter_cons]
    rcases List.mem_cons.mp hx with rfl | hmem
    · rw [hpx, hqx]
      simpa using Nat.lt_succ_of_le (length_filter_le_of_imp (l := l) h)
    · cases hq : q a with
      | true => rw [h a hq]; simpa using ih hmem
      | false =>
        cases hp : p a with
        | true => simpa using Nat.lt_succ_of_lt (ih hmem)
        | false => simpa using ih hmem

theorem markStep_cases (store : SnapshotStore) (rq : List Nat × List Nat) (p : Nat) :
    markStep store rq p = rq ∨
      (store.containsH p = true ∧ p ∉ rq.1 ∧
        markStep store rq p = (rq.1 ++ [p], p :: rq.2)) := by
  unfold markStep
  split
  · next h => exact Or.inr ⟨h.1, h.2, rfl⟩
  · exact Or.inl rfl

theorem contains_mem_all_hashes {store : SnapshotStore} {p : Nat}
    (h : store.containsH p = true) : p ∈ store.all_hashes := by
  unfold SnapshotStore.containsH lookupA at h
  rw [Option.isSome_map'] at h
  rcases List.find?_isSome.mp h with ⟨e, hmem, hpred⟩
  have he : e.1 = p := by simpa using hpred
  exact he ▸ List.mem_map_of_mem _ hmem

theorem markStep_unmarked (store : SnapshotStore) (rq : List Nat × List Nat) (p : Nat) :
    (markStep store rq p = rq) ∨
      unmarkedCount store (markStep store rq p).1 < unmarkedCount store rq.1 := by
  rcases markStep_cases store rq p with h | ⟨hc, hnm, h⟩
  · exact Or.inl h
  · right
    rw [h]
    unfold unmarkedCount
    refine length_filter_lt_of_mem p (fun y hy => ?_) (contains_mem_all_hashes hc)
      (by simpa using hnm) (by simp)
    simp at hy ⊢
    exact hy.1

theorem markStep_unmarked_le (store : SnapshotStore) (rq : List Nat × List Nat) (p : Nat) :
    unmarkedCount store (markStep store rq p).1 ≤ unmarkedCount store rq.1 := by
  rcases markStep_unmarked store rq p with h | h
  · rw [h]
  · exact Nat.le_of_lt h

theorem foldl_markStep_unmarked_le (store : SnapshotStore) (ps : List Nat)
    (rq : List Nat × List Nat) :
    unmarkedCount store (ps.foldl (markStep store) rq).1 ≤ unmarkedCount store rq.1 := by
  induction ps generalizing rq with
  | nil => simp
  | cons p ps ih =>
    simp only [List.foldl]
    exact Nat.le_trans (ih (markStep store rq p)) (markStep_unmarked_le store rq p)

theorem foldl_markStep_progress (store : SnapshotStore) (ps : List Nat)
    (rq : List Nat × List Nat) :
    ps.foldl (markStep store) rq = rq ∨
      unmarkedCount store (ps.foldl (markStep store) rq).1 < unmarkedCount store rq.1 := by
  induction ps generalizing rq with
  | nil => exact Or.inl rfl
  | cons p ps ih =>
    simp only [List.foldl]
    rcases markStep_unmarked store rq p with h | h
    · rw [h]; exact ih rq
    · right
      exact Nat.lt_of_le_of_lt (foldl_markStep_unmarked_le store ps (markStep store rq p)) h

/-- The traversal loop of `mark` : pop the most recently pushed hash, fold
its parents through `markStep`, repeat until the work list is empty. -/
def markLoop (store : SnapshotStore) : List Nat → List Nat → List Nat
  | reachable, [] => reachable
  | reachable, h :: rest =>
    match store.parentsOf h with
    | Option.none => markLoop store reachable rest
    | some ps =>
      let rq := ps.foldl (markStep store) (reachable, rest)
      markLoop store rq.1 rq.2
termination_by r q => (unmarkedCount store r, q.length)
decreasing_by
  · exact Prod.Lex.right _ (by simp)
  · rcases foldl_markStep_progress store ps (reachable, rest) with heq | hlt
    · rw [heq]
      exact Prod.Lex.right _ (by simp)
    · exact Prod.Lex.left _ _ hlt

/-- `mark` : seed the reachable set and queue with the present roots, then
run the BFS. -/
def mark (store : SnapshotStore) (root_hashes : List Nat) : List Nat :=
  let seeded := root_hashes.foldl (markStep store) ([], [])
  markLoop store seeded.1 seeded.2

/-- `collect_garbage` : mark, then sweep every unreachable hash. -/
def collect_garbage (store : SnapshotStore) (root_hashes : List Nat) :
    GcResult × SnapshotStore :=
  let all_hashes := store.all_hashes
  let total_before := all_hashes.length
  let reachable := mark store root_hashes
  let r := all_hashes.foldl
    (fun (acc : SnapshotStore × Nat) hash =>
      if hash ∈ reachable then acc else (acc.1.remove hash, acc.2 + 1)) (store, 0)
  (⟨total_before - r.2, r.2, total_before⟩, r.1)

/-! ### commit.rs : commits, branches, repository -/

structure Commit : Type where
  hash : Nat
  parents : List Nat
  message : List Nat
  author : List Nat
  patch : List DiffOp
deriving DecidableEq, Repr

structure Branch : Type where
  name : List Nat
  head : Nat
deriving DecidableEq, Repr

structure Repository : Type where
  store : SnapshotStore
  commits : List (Nat × Commit)
  branches : List (List Nat × Branch)
  current_branch : List Nat
deriving DecidableEq, Repr

/-- The bytes of `main`. -/
def mainName : List Nat := [109, 97, 105, 110]

/-- The bytes of `initial commit`. -/
def initialCommitMsg : List Nat :=
  [105, 110, 105, 116, 105, 97, 108, 32, 99, 111, 109, 109, 105, 116]

/-- The bytes of `system`. -/
def systemAuthor : List Nat := [115, 121, 115, 116, 101, 109]

def Repository.new : Repository :=
  let sr := SnapshotStore.new.store AstTree.new []
  { store := sr.2
    commits := insertA [] sr.1 ⟨sr.1, [], initialCommitMsg, systemAuthor, []⟩
    branches := insertA [] mainName ⟨mainName, sr.1⟩
    current_branch := mainName }

/-- `Repository::head_hash` (`unwrap_or(0)`). -/
def Repository.head_hash (r : Repository) : Nat :=
  match lookupA r.branches r.current_branch with
  | some b => b.head
  | Option.none => 0

/-- `Repository::commit`. -/
def Repository.commit (r : Repository) (tree : AstTree) (message author : List Nat) :
    Nat × Repository :=
  let parent_hash := r.head_hash
  let patch :=
    match r.store.get parent_hash with
    | some parent => diff_trees parent tree
    | Option.none => []
  let hs := r.store.store tree [parent_hash]
  let c : Commit := ⟨hs.1, [parent_hash], message, author, patch⟩
  let branches1 :=
    match lookupA r.branches r.current_branch with
    | some b => insertA r.branches r.current_branch { b with head := hs.1 }
    | Option.none => r.branches
  (hs.1,
    { store := hs.2
      commits := insertA r.commits hs.1 c
      branches := branches1
      current_branch := r.current_branch })

/-- `Repository::create_branch`. -/
def Repository.create_branch (r : Repository) (name : List Nat) : Repository :=
  { r with branches := insertA r.branches name ⟨name, r.head_hash⟩ }

/-- `Repository::checkout`. -/
def Repository.checkout (r : Repository) (name : List Nat) : Bool × Repository :=
  if (lookupA r.branches name).isSome then (true, { r with current_branch := name })
  else (false, r)

/-- `Repository::get_commit`. -/
def Repository.get_commit (r : Repository) (hash : Nat) : Option Commit :=
  lookupA r.commits hash

/-- `str::find` of a pattern, as a byte position. -/
def findSub (pat : List Nat) : List Nat → Option Nat
  | [] => if pat = [] then some 0 else Option.none
  | b :: rest =>
    if pat.isPrefixOf (b :: rest) then some 0
    else (findSub pat rest).map (· + 1)

/-- The four bytes of the search pattern of `alloc_format`: a single quote,
an opening brace, a closing brace, a single quote. -/
def quotedBracesPat : List Nat := [39, 123, 125, 39]

/-- The bytes of the merge message template (`merge branch` followed by the
quoted-braces placeholder). -/
def mergeTemplate : List Nat :=
  [109, 101, 114, 103, 101, 32, 98, 114, 97, 110, 99, 104, 32, 39, 123, 125, 39]

/-- `alloc_format` : find the quoted-braces pattern and splice the argument
over all four pattern bytes (`replace_range(pos..pos + 4, arg)`). -/
def alloc_format (template : List Nat) (arg : List Nat) : List Nat :=
  match findSub quotedBracesPat template with
  | some pos => template.take pos ++ arg ++ template.drop (pos + 4)
  | Option.none => template

/-- `Repository::merge`, returning the repository (mutated only on a clean
merge) together with the optional merge result. -/
def Repository.merge (r : Repository) (other_branch : List Nat) :
    Repository × Option MergeResult :=
  let current_hash := r.head_hash
  match lookupA r.branches other_branch with
  | Option.none => (r, Option.none)
  | some ob =>
    match lookupA r.commits current_hash with
    | Option.none => (r, Option.none)
    | some current_commit =>
      match current_commit.parents.head? with
      | Option.none => (r, Option.none)
      | some ancestor_hash =>
        match r.store.get ancestor_hash, r.store.get current_hash, r.store.get ob.head with
        | some ancestor_tree, some current_tree, some other_tree =>
          let patch_a := diff_trees ancestor_tree current_tree
          let patch_b := diff_trees ancestor_tree other_tree
          let merge_result := merge_patches patch_a patch_b
          if merge_result.is_clean then
            let cr := r.commit (apply_patch ancestor_tree merge_result.merged_ops)
              (alloc_format mergeTemplate other_branch) systemAuthor
            (cr.2, some merge_result)
          else (r, some merge_result)
        | _, _, _ => (r, Option.none)

/-- `Repository::head_tree`. -/
def Repository.head_tree (r : Repository) : Option AstTree :=
  r.store.get r.head_hash

/-! ## Verification layer -/

/-! ### Association-list map lemmas -/

theorem lookupA_cons {κ α : Type} [DecidableEq κ] (a : κ) (b : α) (m : List (κ × α)) (k : κ) :
    lookupA ((a, b) :: m) k = if a = k then some b else lookupA m k := by
  by_cases hak : a = k
  · simp [lookupA, List.find?, hak]
  · simp [lookupA, List.find?, hak]

theorem lookupA_eraseA_self {κ α : Type} [DecidableEq κ] (m : List (κ × α)) (k : κ) :
    lookupA (eraseA m k) k = Option.none := by
  induction m with
  | nil => rfl
  | cons p m ih =>
    obtain ⟨a, b⟩ := p
    by_cases hak : a = k
    · simpa [eraseA, List.filter_cons, hak] using ih
    · simpa [eraseA, List.filter_cons, hak, lookupA_cons, hak] using ih

theorem lookupA_eraseA_ne {κ α : Type} [DecidableEq κ] (m : List (κ × α)) (k k1 : κ)
    (h : k1 ≠ k) : lookupA (eraseA m k) k1 = lookupA m k1 := by
  induction m with
  | nil => rfl
  | cons p m ih =>
    obtain ⟨a, b⟩ := p
    by_cases hak : a = k
    · subst hak
      rw [show eraseA ((a, b) :: m) a = eraseA m a by simp [eraseA, List.filter_cons]]
      rw [ih, lookupA_cons, if_neg (fun he => h he.symm)]
    · rw [show eraseA ((a, b) :: m) k = (a, b) :: eraseA m k by simp [eraseA, List.filter_cons, hak]]
      rw [lookupA_cons, lookupA_cons, ih]

theorem lookupA_insertA_self {κ α : Type} [DecidableEq κ] (m : List (κ × α)) (k : κ) (v : α) :
    lookupA (insertA m k v) k = some v := by
  simp [insertA, lookupA_cons]

theorem lookupA_insertA_ne {κ α : Type} [DecidableEq κ] (m : List (κ × α)) (k k1 : κ) (v : α)
    (h : k1 ≠ k) : lookupA (insertA m k v) k1 = lookupA m k1 := by
  rw [insertA, lookupA_cons, if_neg (fun he => h he.symm)]
  exact lookupA_eraseA_ne m k k1 h

theorem lookupA_mem {κ α : Type} [DecidableEq κ] {m : List (κ × α)} {k : κ} {v : α}
    (h : lookupA m k = some v) : (k, v) ∈ m := by
  simp only [lookupA, Option.map_eq_some'] at h
  rcases h with ⟨p, hp, hv⟩
  have hmem := List.mem_of_find?_eq_some hp
  have hk := List.find?_some hp
  simp at hk
  cases p
  simp at hv
  subst hv hk
  exact hmem

theorem lookupA_isSome_iff {κ α : Type} [DecidableEq κ] {m : List (κ × α)} {k : κ} :
    (lookupA m k).isSome = true ↔ ∃ p ∈ m, p.1 = k := by
  simp only [lookupA, Option.isSome_map']
  rw [List.find?_isSome]
  simp

theorem lookupA_eq_none_iff {κ α : Type} [DecidableEq κ] {m : List (κ × α)} {k : κ} :
    lookupA m k = Option.none ↔ ∀ p ∈ m, p.1 ≠ k := by
  constructor
  · intro h p hp hk
    have : (lookupA m k).isSome = true := lookupA_isSome_iff.mpr ⟨p, hp, hk⟩
    rw [h] at this
    cases this
  · intro h
    cases hl : lookupA m k with
    | none => rfl
    | some v => exact absurd (lookupA_mem hl) (fun hmem => h _ hmem rfl)

/-! ### modifyIdx lemmas -/

theorem modifyIdx_length {α : Type} (l : List α) (i : Nat) (f : α → α) :
    (modifyIdx l i f).length = l.length := by
  induction l generalizing i with
  | nil => rfl
  | cons a l ih =>
    cases i with
    | zero => rfl
    | succ j => simpa [modifyIdx] using ih j

theorem modifyIdx_getElem?_self {α : Type} (l : List α) (i : Nat) (f : α → α) :
    (modifyIdx l i f)[i]? = l[i]?.map f := by
  induction l generalizing i with
  | nil => simp [modifyIdx]
  | cons a l ih =>
    cases i with
    | zero => simp [modifyIdx]
    | succ j => simpa [modifyIdx] using ih j

theorem modifyIdx_getElem?_ne {α : Type} (l : List α) (i j : Nat) (f : α → α) (h : j ≠ i) :
    (modifyIdx l i f)[j]? = l[j]? := by
  induction l generalizing i j with
  | nil => simp [modifyIdx]
  | cons a l ih =>
    cases i with
    | zero =>
      cases j with
      | zero => exact absurd rfl h
      | succ j1 => simp [modifyIdx]
    | succ i1 =>
      cases j with
      | zero => simp [modifyIdx]
      | succ j1 => simpa [modifyIdx] using ih i1 j1 (fun he => h (by omega))

theorem listFlatMap_eq_flatten_map {α β : Type} (f : α → List β) (l : List α) :
    listFlatMap f l = (l.map f).flatten := by
  induction l with
  | nil => rfl
  | cons a l ih => simp [listFlatMap, ih]

theorem mem_listFlatMap {α β : Type} {f : α → List β} {l : List α} {b : β} :
    b ∈ listFlatMap f l ↔ ∃ a ∈ l, b ∈ f a := by
  induction l with
  | nil => simp [listFlatMap]
  | cons a l ih =>
    simp only [listFlatMap, List.mem_append, ih, List.mem_cons]
    constructor
    · rintro (hb | ⟨a1, ha1, hb⟩)
      · exact ⟨a, Or.inl rfl, hb⟩
      · exact ⟨a1, Or.inr ha1, hb⟩
    · rintro ⟨a1, ha1 | ha1, hb⟩
      · exact Or.inl (ha1 ▸ hb)
      · exact Or.inr ⟨a1, ha1, hb⟩

/-! ### Merge lemmas -/

theorem mem_affected_foldl (ops : List DiffOp) (acc : List Nat) (x : Nat) :
    x ∈ ops.foldl
        (fun ns op => if op_target_node op ∈ ns then ns else ns ++ [op_target_node op]) acc ↔
      x ∈ acc ∨ ∃ op ∈ ops, op_target_node op = x := by
  induction ops generalizing acc with
  | nil => simp
  | cons op ops ih =>
    simp only [List.foldl, ih]
    by_cases hmem : op_target_node op ∈ acc
    · simp only [if_pos hmem, List.mem_cons]
      constructor
      · rintro (hx | ⟨o, ho, hox⟩)
        · exact Or.inl hx
        · exact Or.inr ⟨o, Or.inr ho, hox⟩
      · rintro (hx | ⟨o, rfl | ho, hox⟩)
        · exact Or.inl hx
        · exact Or.inl (hox ▸ hmem)
        · exact Or.inr ⟨o, ho, hox⟩
    · rw [if_neg hmem]
      constructor
      · rintro (hmem1 | ⟨o, ho, hox⟩)
        · rcases List.mem_append.mp hmem1 with hx | hx
          · exact Or.inl hx
          · exact Or.inr ⟨op, List.mem_cons_self op ops, (List.mem_singleton.mp hx).symm⟩
        · exact Or.inr ⟨o, List.mem_cons_of_mem op ho, hox⟩
      · rintro (hx | ⟨o, ho, hox⟩)
        · exact Or.inl (List.mem_append_left _ hx)
        · rcases List.mem_cons.mp ho with rfl | ho1
          · exact Or.inl (List.mem_append_right _ (List.mem_singleton.mpr hox.symm))
          · exact Or.inr ⟨o, ho1, hox⟩

theorem mem_affected_nodes {ops : List DiffOp} {x : Nat} :
    x ∈ affected_nodes ops ↔ ∃ op ∈ ops, op_target_node op = x := by
  simpa [affected_nodes] using mem_affected_foldl ops [] x

theorem conflict_fold_id (patch_a patch_b : List DiffOp) (affected_b : List Nat)
    (l : List Nat) (acc : List DiffOp × List Conflict)
    (h : ∀ x ∈ l, x ∉ affected_b) :
    l.foldl (conflictStep patch_a patch_b affected_b) acc = acc := by
  induction l generalizing acc with
  | nil => rfl
  | cons a l ih =>
    simp only [List.foldl]
    rw [show conflictStep patch_a patch_b affected_b acc a = acc by
      simp [conflictStep, h a (List.mem_cons_self a l)]]
    exact ih _ (fun x hx => h x (List.mem_cons_of_mem a hx))

/-- Claim C6: if no target node id occurs in both scripts, `merge_patches`
returns exactly the concatenation of the two scripts with no conflicts. -/
theorem merge_patches_disjoint_targets (A B : List DiffOp)
    (hd : ∀ a ∈ A, ∀ b ∈ B, op_target_node a ≠ op_target_node b) :
    merge_patches A B = ⟨A ++ B, []⟩ := by
  have hAnotB : ∀ a ∈ A, op_target_node a ∉ affected_nodes B := by
    intro a ha hmem
    rcases mem_affected_nodes.mp hmem with ⟨b, hb, hba⟩
    exact hd a ha b hb hba.symm
  have hBnotA : ∀ b ∈ B, op_target_node b ∉ affected_nodes A := by
    intro b hb hmem
    rcases mem_affected_nodes.mp hmem with ⟨a, ha, hab⟩
    exact hd a ha b hb hab
  have h1 : A.filter (fun op => !((affected_nodes B).contains (op_target_node op))) = A := by
    rw [List.filter_eq_self]
    intro a ha
    simpa [List.elem_iff] using hAnotB a ha
  have h2 : B.filter (fun op => !((affected_nodes A).contains (op_target_node op))) = B := by
    rw [List.filter_eq_self]
    intro b hb
    simpa [List.elem_iff] using hBnotA b hb
  have h3 : (affected_nodes A).foldl (conflictStep A B (affected_nodes B)) (A ++ B, []) =
      (A ++ B, []) := by
    apply conflict_fold_id
    intro x hx
    rcases mem_affected_nodes.mp hx with ⟨a, ha, hax⟩
    exact hax ▸ hAnotB a ha
  simp only [merge_patches, h1, h2, h3]

/-- Witness for C6 at the concrete scripts of spec scenario 4. -/
theorem merge_patches_disjoint_targets_witness :
    merge_patches
        [DiffOp.update 1 (NodeValue.float 4607182418800017408) (NodeValue.float 4611686018427387904)]
        [DiffOp.update 2 (NodeValue.float 4613937818241073152) (NodeValue.float 4616189618054758400)] =
      ⟨[DiffOp.update 1 (NodeValue.float 4607182418800017408) (NodeValue.float 4611686018427387904),
        DiffOp.update 2 (NodeValue.float 4613937818241073152) (NodeValue.float 4616189618054758400)], []⟩ :=
  merge_patches_disjoint_targets _ _ (by decide)

/-- Claim C10 (implicit): when the HEAD commit has no parents, `merge`
returns no result for every branch name and leaves the repository unchanged. -/
theorem merge_without_parent_is_none (r : Repository) (name : List Nat) (c : Commit)
    (hc : r.get_commit r.head_hash = some c) (hp : c.parents = []) :
    r.merge name = (r, Option.none) := by
  unfold Repository.get_commit at hc
  unfold Repository.merge
  cases hb : lookupA r.branches name with
  | none => simp
  | some ob => simp [hc, hp]

/-- Witness for C10: the fresh repository (whose HEAD is the initial commit)
refuses to merge any branch, here the branch named dev. -/
theorem merge_without_parent_is_none_witness :
    Repository.new.merge [100, 101, 118] = (Repository.new, Option.none) :=
  merge_without_parent_is_none Repository.new [100, 101, 118]
    ⟨Repository.new.head_hash, [], initialCommitMsg, systemAuthor, []⟩ (by decide) rfl

/-! ### The tree representation invariant (spec §3, I1 through I5) -/

/-- The ids of the nodes stored in the tree. -/
def liveIds (t : AstTree) : List Nat := t.nodes.map AstNode.id

/-- Representation invariant of `AstTree`, the formal reading of I1-I5:
I1 is `rootCount`/`rootKind`/`root0`; I2 is `idxSound`/`idxComplete`
(the id index and the node vector agree) together with `childLive` (children
resolve); I3 is `childParent`/`childNodup`/`parentSound`/`parentComplete`;
I4 follows from the `p.2 < p.1` component of `parentSound` (parents have
strictly smaller ids, so the parent relation admits no cycle); I5 is
`nidBound`. -/
structure TreeInv (t : AstTree) : Prop where
  root0 : t.root_id = 0
  rootCount : t.nodes.countP (fun n => decide (n.id = 0)) = 1
  rootKind : ∀ n ∈ t.nodes, n.id = 0 → n.kind = AstNodeKind.Root
  idxSound : ∀ p ∈ t.index, (t.nodes[p.2]?).map AstNode.id = some p.1
  idxComplete : ∀ i : Fin t.nodes.length, lookupA t.index (t.nodes.get i).id = some i.1
  childLive : ∀ n ∈ t.nodes, ∀ c ∈ n.children, ∃ m ∈ t.nodes, m.id = c
  childParent : ∀ n ∈ t.nodes, ∀ c ∈ n.children, lookupA t.parent_index c = some n.id
  childNodup : ∀ n ∈ t.nodes, n.children.Nodup
  parentSound : ∀ p ∈ t.parent_index, p.2 < p.1 ∧ ∃ m ∈ t.nodes, m.id = p.2 ∧ p.1 ∈ m.children
  parentComplete : ∀ n ∈ t.nodes, n.id ≠ 0 → (lookupA t.parent_index n.id).isSome = true
  nidBound : ∀ n ∈ t.nodes, n.id < t.next_id

theorem get_node_of_mem {t : AstTree} (hInv : TreeInv t) {n : AstNode} (hn : n ∈ t.nodes) :
    t.get_node n.id = some n := by
  rcases List.mem_iff_get.mp hn with ⟨i, rfl⟩
  unfold AstTree.get_node
  rw [hInv.idxComplete i]
  simp [List.getElem?_eq_getElem i.2, List.get_eq_getElem]

theorem mem_of_get_node {t : AstTree} (hInv : TreeInv t) {id : Nat} {n : AstNode}
    (h : t.get_node id = some n) : n ∈ t.nodes ∧ n.id = id := by
  unfold AstTree.get_node at h
  split at h
  · cases h
  · next idx hl =>
    have hmem : (id, idx) ∈ t.index := lookupA_mem hl
    have hsound := hInv.idxSound _ hmem
    rw [h] at hsound
    simp at hsound
    exact ⟨List.getElem?_mem h, hsound⟩

theorem get_node_eq_none_iff {t : AstTree} (hInv : TreeInv t) {id : Nat} :
    t.get_node id = Option.none ↔ id ∉ liveIds t := by
  constructor
  · intro h hmem
    rcases List.mem_map.mp hmem with ⟨n, hn, hnid⟩
    rw [← hnid, get_node_of_mem hInv hn] at h
    cases h
  · intro hmem
    cases hg : t.get_node id with
    | none => rfl
    | some n =>
      rcases mem_of_get_node hInv hg with ⟨hn, hnid⟩
      exact absurd (List.mem_map.mpr ⟨n, hn, hnid⟩) hmem

theorem get_node_isSome_iff {t : AstTree} (hInv : TreeInv t) {id : Nat} :
    (t.get_node id).isSome = true ↔ id ∈ liveIds t := by
  constructor
  · intro h
    rcases Option.isSome_iff_exists.mp h with ⟨n, hn⟩
    rcases mem_of_get_node hInv hn with ⟨hmem, hnid⟩
    exact List.mem_map.mpr ⟨n, hmem, hnid⟩
  · intro h
    cases hg : t.get_node id with
    | none => exact absurd h ((get_node_eq_none_iff hInv).mp hg)
    | some n => rfl

theorem lookup_index_none {t : AstTree} (hInv : TreeInv t) {id : Nat}
    (hid : t.get_node id = Option.none) : lookupA t.index id = Option.none := by
  cases hl : lookupA t.index id with
  | none => rfl
  | some idx =>
    have hmem : (id, idx) ∈ t.index := lookupA_mem hl
    have hsound := hInv.idxSound _ hmem
    unfold AstTree.get_node at hid
    rw [hl] at hid
    simp only at hid
    rw [hid] at hsound
    cases hsound

theorem parent_of_dead {t : AstTree} (hInv : TreeInv t) {id : Nat}
    (hid : t.get_node id = Option.none) : t.parent_of id = Option.none := by
  cases hl : t.parent_of id with
  | none => rfl
  | some p =>
    have hmem : (id, p) ∈ t.parent_index := lookupA_mem hl
    rcases (hInv.parentSound _ hmem).2 with ⟨m, hm, _hmid, hc⟩
    rcases hInv.childLive m hm id hc with ⟨n, hn, hnid⟩
    rw [← hnid, get_node_of_mem hInv hn] at hid
    cases hid

theorem collect_subtree_dead {t : AstTree} {id : Nat}
    (hid : t.get_node id = Option.none) (fuel : Nat) :
    t.collect_subtree fuel id = [id] := by
  cases fuel with
  | zero => rfl
  | succ fuel => simp [AstTree.collect_subtree, hid]

theorem rebuild_lookup_notin (ns : List AstNode) (i : Nat) (m : List (Nat × Nat)) (k : Nat)
    (hk : k ∉ ns.map AstNode.id) :
    lookupA (rebuildIndexFrom i ns m) k = lookupA m k := by
  induction ns generalizing i m with
  | nil => rfl
  | cons n ns ih =>
    simp only [List.map_cons, List.mem_cons, not_or] at hk
    rw [rebuildIndexFrom, ih _ _ (fun hmem => hk.2 hmem),
      lookupA_insertA_ne _ _ _ _ hk.1]

theorem rebuild_lookup_get (ns : List AstNode) (i : Nat) (m : List (Nat × Nat))
    (hnd : (ns.map AstNode.id).Nodup) (j : Fin ns.length) :
    lookupA (rebuildIndexFrom i ns m) (ns.get j).id = some (i + j.1) := by
  induction ns generalizing i m with
  | nil => exact absurd j.2 (by simp)
  | cons n ns ih =>
    simp only [List.map_cons, List.nodup_cons] at hnd
    rcases j with ⟨jv, hj⟩
    cases jv with
    | zero =>
      rw [rebuildIndexFrom, rebuild_lookup_notin _ _ _ _ (by simpa using hnd.1)]
      simpa using lookupA_insertA_self m n.id i
    | succ j1 =>
      rw [rebuildIndexFrom]
      have := ih (i + 1) (insertA m n.id i) hnd.2 ⟨j1, by simpa using Nat.lt_of_succ_lt_succ hj⟩
      simp only [List.get] at this ⊢
      rw [this]
      congr 1
      omega

theorem liveIds_nodup {t : AstTree} (hInv : TreeInv t) : (liveIds t).Nodup := by
  unfold liveIds
  rw [List.Nodup, List.pairwise_map, List.pairwise_iff_get]
  intro i j hij hid
  have hi := hInv.idxComplete i
  have hj := hInv.idxComplete j
  rw [hid, hj] at hi
  have hij1 : (i : Nat) < j := hij
  simp at hi
  omega

/-! ### Observational tree equality

The Rust `AstTree` has no `Eq`; a tree is observed through its node list,
its two id maps, the root id and `next_id`.  `TreeEq` is equality of all
those observations (the id index is rebuilt by `remove_subtree`, which can
reorder the backing association list without changing any lookup). -/

structure TreeEq (t1 t2 : AstTree) : Prop where
  nodesEq : t1.nodes = t2.nodes
  indexEq : ∀ k, lookupA t1.index k = lookupA t2.index k
  parentEq : ∀ k, lookupA t1.parent_index k = lookupA t2.parent_index k
  rootEq : t1.root_id = t2.root_id
  nextEq : t1.next_id = t2.next_id

theorem modifyIdx_append_length {α : Type} (l : List α) (a : α) (f : α → α) :
    modifyIdx (l ++ [a]) l.length f = l ++ [f a] := by
  induction l with
  | nil => rfl
  | cons b l ih => simpa [modifyIdx] using ih

theorem dead_ne_live {t : AstTree} (hInv : TreeInv t) {id : Nat}
    (hid : t.get_node id = Option.none) : ∀ n ∈ t.nodes, n.id ≠ id := by
  intro n hn he
  rw [← he, get_node_of_mem hInv hn] at hid
  cases hid

theorem remove_subtree_dead_TreeEq {t : AstTree} (hInv : TreeInv t) {id : Nat}
    (hid : t.get_node id = Option.none) : TreeEq (t.remove_subtree id) t := by
  have hdead := dead_ne_live hInv hid
  have hnodes : t.nodes.filter (fun n => !(([id] : List Nat).contains n.id)) = t.nodes := by
    rw [List.filter_eq_self]
    intro n hn
    simpa using hdead n hn
  have hpi : eraseA t.parent_index id = t.parent_index := by
    rw [eraseA, List.filter_eq_self]
    intro p hp
    simpa using lookupA_eq_none_iff.mp (parent_of_dead hInv hid) p hp
  have hun : t.remove_subtree id =
      { nodes := t.nodes
        index := rebuildIndexFrom 0 t.nodes []
        parent_index := t.parent_index
        root_id := t.root_id
        next_id := t.next_id } := by
    unfold AstTree.remove_subtree
    rw [collect_subtree_dead hid, parent_of_dead hInv hid]
    simp only [List.foldl, hpi, hnodes]
  rw [hun]
  refine ⟨rfl, ?_, fun k => rfl, rfl, rfl⟩
  intro k
  by_cases hk : k ∈ liveIds t
  · rcases List.mem_map.mp hk with ⟨n, hn, hnid⟩
    rcases List.mem_iff_get.mp hn with ⟨j, rfl⟩
    rw [← hnid]
    rw [rebuild_lookup_get t.nodes 0 [] (liveIds_nodup hInv) j, hInv.idxComplete j]
    simp
  · rw [rebuild_lookup_notin t.nodes 0 [] k hk]
    rw [(lookupA_eq_none_iff (m := ([] : List (Nat × Nat)))).mpr (by simp)]
    exact (lookup_index_none hInv ((get_node_eq_none_iff hInv).mpr hk)).symm

/-- Claim C4 (amended): `apply_patch` is total by construction and, on an
invariant-satisfying tree, an `Update`, `Relabel` or `Delete` whose
`node_id` is absent leaves the tree unchanged (`Delete` up to the
observational equality, because it rebuilds the id index).  A `Move` whose
`node_id` is absent is NOT always skipped: the result is exactly
`modifyNode new_parent (push node_id)` — the tree is unchanged when the
new parent is also absent, but when the new parent exists the dangling id
is appended to its children.  An `Insert` whose `parent_id` is absent
likewise changes the tree: it appends an orphaned fresh node. -/
theorem apply_patch_skips_missing_targets (t : AstTree) (hInv : TreeInv t) (id : Nat)
    (hid : t.get_node id = Option.none) :
    (∀ ov nv, apply_patch t [DiffOp.update id ov nv] = t) ∧
    (∀ ol nl, apply_patch t [DiffOp.relabel id ol nl] = t) ∧
    TreeEq (apply_patch t [DiffOp.delete id]) t ∧
    (∀ np ni, apply_patch t [DiffOp.move id np ni]
      = t.modifyNode np (fun n => { n with children := n.children ++ [id] })) ∧
    (∀ idx k l v, id ≠ t.next_id →
      (apply_patch t [DiffOp.insert id idx k l v]).nodes =
        t.nodes ++ [⟨t.next_id, k, l, v, []⟩]) := by
  have hlk := lookup_index_none hInv hid
  refine ⟨?_, ?_, ?_, ?_, ?_⟩
  · intro ov nv
    simp [apply_patch, applyOne, AstTree.modifyNode, hlk]
  · intro ol nl
    simp [apply_patch, applyOne, AstTree.modifyNode, hlk]
  · simpa [apply_patch, applyOne] using remove_subtree_dead_TreeEq hInv hid
  · intro np ni
    simp [apply_patch, applyOne, parent_of_dead hInv hid]
  · intro idx k l v hne
    simp only [apply_patch, List.foldl, applyOne, AstTree.add_node_with_value,
      AstTree.add_node, AstTree.modifyNode]
    rw [lookupA_insertA_ne _ _ _ _ hne, hlk]
    simp only [lookupA_insertA_self]
    simp [modifyIdx_append_length]

theorem treeInv_new : TreeInv AstTree.new :=
  ⟨by decide, by decide, by decide, by decide, by decide, by decide, by decide,
   by decide, by decide, by decide, by decide⟩

/-- Witness for C4 at the fresh tree and the absent id 5: the skipped
update and delete, and the non-skipped move that pushes the dangling id
under the present root. -/
theorem apply_patch_skips_missing_targets_witness :
    apply_patch AstTree.new [DiffOp.update 5 NodeValue.none (NodeValue.int 3)] = AstTree.new ∧
    TreeEq (apply_patch AstTree.new [DiffOp.delete 5]) AstTree.new ∧
    apply_patch AstTree.new [DiffOp.move 5 0 0]
      = AstTree.new.modifyNode 0 (fun n => { n with children := n.children ++ [5] }) := by
  have h := apply_patch_skips_missing_targets AstTree.new treeInv_new 5 (by decide)
  exact ⟨h.1 _ _, h.2.2.1, h.2.2.2.1 0 0⟩

/-- Counterexample for C4 as stated: an `Insert` whose `parent_id` (99) is
absent from the fresh tree does not leave the tree unchanged — it adds an
orphaned node; and a `Move` whose `node_id` (5) is absent but whose
`new_parent_id` (0) is present appends the dangling id to the root's
children. -/
theorem apply_patch_insert_missing_parent_changes_tree :
    apply_patch AstTree.new [DiffOp.insert 99 0 AstNodeKind.Primitive [97] NodeValue.none] ≠
      AstTree.new
    ∧ apply_patch AstTree.new [DiffOp.move 5 0 0] ≠ AstTree.new := by decide

/-- Counterexample for C5 as stated: the single call `remove_subtree 0` on
the fresh tree removes the root, violating invariant I1 (no node with id 0
remains). -/
theorem remove_subtree_root_breaks_invariants :
    ¬ TreeInv (AstTree.new.remove_subtree 0) := fun h =>
  absurd h.rootCount (by decide)

/-! ### Kind+label topology (the quantity `subtree_hash` fingerprints) -/

/-- The kind+label topology of a subtree: exactly the data `hash_node`
folds over (the kind byte, the label bytes, then the children in order);
node values and node ids do not appear. -/
inductive Shape : Type
  | node (kind : AstNodeKind) (label : List Nat) (children : List Shape)

/-- The topology contributed by one node id (empty when the id does not
resolve, mirroring the silent skip in `hash_node`). -/
def shapeList (t : AstTree) : Nat → Nat → List Shape
  | 0, _ => []
  | fuel + 1, id =>
    match t.get_node id with
    | Option.none => []
    | some n => [Shape.node n.kind n.label (listFlatMap (shapeList t fuel) n.children)]

/-- The topology of the subtree at `id`, at the fuel `subtree_hash` uses. -/
def shapeAt (t : AstTree) (id : Nat) : List Shape :=
  shapeList t (t.nodes.length + 1) id

/-- Fold a list of shapes into a running FNV-1a hash, exactly as
`hash_node` folds the corresponding nodes. -/
def hashShapes : List Shape → Nat → Nat
  | [], h => h
  | .node k l cs :: rest, h => hashShapes rest (hashShapes cs (l.foldl hashStep (hashStep h k.toByte)))

theorem hashShapes_append (a b : List Shape) (h : Nat) :
    hashShapes (a ++ b) h = hashShapes b (hashShapes a h) := by
  induction a generalizing h with
  | nil => simp [hashShapes]
  | cons s a ih =>
    cases s with
    | node k l cs => simp only [List.cons_append, hashShapes, ih]

theorem hash_node_eq_shape (t : AstTree) :
    ∀ fuel id h, t.hash_node fuel id h = hashShapes (shapeList t fuel id) h := by
  intro fuel
  induction fuel with
  | zero => intro id h; simp [AstTree.hash_node, shapeList, hashShapes]
  | succ fuel ih =>
    intro id h
    cases hget : t.get_node id with
    | none => simp [AstTree.hash_node, shapeList, hashShapes, hget]
    | some n =>
      simp only [AstTree.hash_node, shapeList, hget, hashShapes]
      generalize n.label.foldl hashStep (hashStep h n.kind.toByte) = h2
      induction n.children generalizing h2 with
      | nil => simp [listFlatMap, hashShapes]
      | cons c cs ihc =>
        simp only [List.foldl, listFlatMap, hashShapes_append]
        rw [ih c h2]
        exact ihc _

theorem get_node_modifyNode (t : AstTree) (id : Nat) (f : AstNode → AstNode) (x : Nat) :
    (t.modifyNode id f).get_node x = t.get_node x ∨
      (t.modifyNode id f).get_node x = (t.get_node x).map f := by
  unfold AstTree.modifyNode
  cases hl : lookupA t.index id with
  | none => exact Or.inl rfl
  | some idx =>
    unfold AstTree.get_node
    simp only
    cases hx : lookupA t.index x with
    | none => exact Or.inl rfl
    | some idx2 =>
      by_cases he : idx2 = idx
      · subst he
        right
        simp [modifyIdx_getElem?_self]
      · left
        simp [modifyIdx_getElem?_ne _ _ _ _ he]

theorem shapeList_modifyNode (t : AstTree) (id : Nat) (f : AstNode → AstNode)
    (hf : ∀ n, (f n).kind = n.kind ∧ (f n).label = n.label ∧ (f n).children = n.children) :
    ∀ fuel x, shapeList (t.modifyNode id f) fuel x = shapeList t fuel x := by
  intro fuel
  induction fuel with
  | zero => intro x; rfl
  | succ fuel ih =>
    intro x
    rw [shapeList, shapeList]
    rcases get_node_modifyNode t id f x with hg | hg
    · rw [hg]
      cases t.get_node x with
      | none => rfl
      | some n =>
        simp only
        congr 1
        rw [show listFlatMap (shapeList (t.modifyNode id f) fuel) n.children =
            listFlatMap (shapeList t fuel) n.children by
          rw [listFlatMap_eq_flatten_map, listFlatMap_eq_flatten_map]
          congr 1
          exact List.map_congr_left fun c _ => ih c]
    · rw [hg]
      cases t.get_node x with
      | none => rfl
      | some n =>
        simp only [Option.map_some']
        rcases hf n with ⟨hk, hl, hc⟩
        rw [hk, hl, hc]
        congr 2
        rw [listFlatMap_eq_flatten_map, listFlatMap_eq_flatten_map]
        congr 1
        exact List.map_congr_left fun c _ => ih c

/-- Claim C8: the subtree hash depends only on the kind+label topology —
two trees with the same topology at the chosen roots hash identically
(whatever their node values and node ids), and in particular overwriting
any node value never changes any subtree hash. -/
theorem subtree_hash_value_independent :
    (∀ t1 t2 : AstTree, ∀ id1 id2 : Nat, shapeAt t1 id1 = shapeAt t2 id2 →
      t1.subtree_hash id1 = t2.subtree_hash id2) ∧
    (∀ t : AstTree, ∀ id : Nat, ∀ v : NodeValue, ∀ x : Nat,
      (t.modifyNode id (fun n => { n with value := v })).subtree_hash x = t.subtree_hash x) := by
  constructor
  · intro t1 t2 id1 id2 h
    unfold AstTree.subtree_hash
    rw [hash_node_eq_shape, hash_node_eq_shape]
    unfold shapeAt at h
    rw [h]
  · intro t id v x
    unfold AstTree.subtree_hash
    rw [hash_node_eq_shape, hash_node_eq_shape]
    have hlen : (t.modifyNode id fun n => { n with value := v }).nodes.length = t.nodes.length := by
      unfold AstTree.modifyNode
      cases lookupA t.index id
      · rfl
      · simp [modifyIdx_length]
    rw [hlen, shapeList_modifyNode t id (fun n => { n with value := v })
      (fun n => ⟨rfl, rfl, rfl⟩)]

/-- A tree whose only child of the root is a `Parameter` labelled `r` (id 1,
integer value). -/
def shapeWitnessA : AstTree :=
  (AstTree.new.add_node_with_value AstNodeKind.Parameter [114] (NodeValue.int 1) 0).2

/-- A tree with the same kind+label topology but different node ids (the
parameter node has id 2, after an unrelated node was added and removed) and
a different node value. -/
def shapeWitnessB : AstTree :=
  (((AstTree.new.add_node AstNodeKind.Primitive [120] 0).2.remove_subtree 1).add_node_with_value
    AstNodeKind.Parameter [114] (NodeValue.float 4607182418800017408) 0).2

/-- Witness for C8: the two witness trees have equal topology, so equal
root hashes despite different values and ids. -/
theorem subtree_hash_value_independent_witness :
    shapeWitnessA.subtree_hash 0 = shapeWitnessB.subtree_hash 0 :=
  subtree_hash_value_independent.1 shapeWitnessA shapeWitnessB 0 0 rfl

/-! ### Codec round-trip: bit arithmetic and the varint loop -/

theorem lor_shiftLeft_eq_add {x y s : Nat} (h : x < 2 ^ s) :
    x ||| y <<< s = x + y * 2 ^ s := by
  refine Nat.eq_of_testBit_eq fun i => ?_
  rw [Nat.testBit_lor, Nat.testBit_shiftLeft,
    show x + y * 2 ^ s = 2 ^ s * y + x by ring, Nat.testBit_mul_pow_two_add y h i]
  rcases Nat.lt_or_ge i s with hi | hi
  · rw [if_pos hi]
    simp [Nat.not_le.mpr hi]
  · rw [if_neg (Nat.not_lt.mpr hi)]
    have hx : x.testBit i = false :=
      Nat.testBit_lt_two_pow (Nat.lt_of_lt_of_le h (Nat.pow_le_pow_right (by norm_num) hi))
    simp [hx, hi]

theorem and127_eq_mod (x : Nat) : x &&& 127 = x % 128 := by
  have := Nat.and_pow_two_sub_one_eq_mod x 7
  norm_num at this
  exact this

theorem and128_of_lt {v : Nat} (h : v < 128) : v &&& 128 = 0 := by
  rw [show (128 : Nat) = 2 ^ 7 by norm_num, Nat.and_two_pow, Nat.testBit_to_div_mod]
  norm_num
  omega

theorem and128_of_cont {v : Nat} (h1 : 128 ≤ v) (h2 : v < 256) : ¬ v &&& 128 = 0 := by
  rw [show (128 : Nat) = 2 ^ 7 by norm_num, Nat.and_two_pow, Nat.testBit_to_div_mod]
  norm_num
  omega

theorem or128_eq_add {x : Nat} (h : x < 128) : x ||| 128 = x + 128 := by
  have h1 := lor_shiftLeft_eq_add (x := x) (y := 1) (s := 7)
    (by have h7 : (2 : Nat) ^ 7 = 128 := by norm_num
        omega)
  rw [show (1 : Nat) <<< 7 = 128 from by decide] at h1
  simpa using h1

theorem decode_varint_go_cons (acc s fuel b : Nat) (r : List Nat) :
    decode_varint_go acc s fuel (b :: r) =
      (if b &&& 128 = 0 then some ((acc ||| ((b &&& 127) <<< s)) % 4294967296, r)
       else
        match fuel with
        | 0 => Option.none
        | fuel + 1 => decode_varint_go ((acc ||| ((b &&& 127) <<< s)) % 4294967296) (s + 7) fuel r) := by
  rw [decode_varint_go.eq_def]

theorem decode_varint_go_cons_succ (acc s f b : Nat) (r : List Nat) :
    decode_varint_go acc s (f + 1) (b :: r) =
      (if b &&& 128 = 0 then some ((acc ||| ((b &&& 127) <<< s)) % 4294967296, r)
       else decode_varint_go ((acc ||| ((b &&& 127) <<< s)) % 4294967296) (s + 7) f r) := by
  rw [decode_varint_go.eq_def]

theorem decode_varint_go_encode :
    ∀ v : Nat, ∀ rest : List Nat, ∀ acc fuel : Nat,
      fuel ≤ 4 → acc < 2 ^ (7 * (4 - fuel)) →
      acc + v * 2 ^ (7 * (4 - fuel)) < 4294967296 →
      decode_varint_go acc (7 * (4 - fuel)) fuel (encode_varint_u32 v ++ rest) =
        some (acc + v * 2 ^ (7 * (4 - fuel)), rest) := by
  intro v
  induction v using Nat.strong_induction_on with
  | _ v ih =>
    intro rest acc fuel hfuel hacc hbound
    have hdiv : v >>> 7 = v / 128 := by
      rw [Nat.shiftRight_eq_div_pow]
    by_cases hv : v >>> 7 = 0
    · have hv128 : v < 128 := by
        rw [hdiv] at hv
        omega
      have hb : v &&& 127 = v := by
        rw [and127_eq_mod]
        omega
      rw [encode_varint_u32, dif_pos hv]
      simp only [List.cons_append, List.nil_append, hb]
      rw [decode_varint_go_cons, hb, if_pos (and128_of_lt hv128),
        lor_shiftLeft_eq_add hacc, Nat.mod_eq_of_lt hbound]
    · have hv128 : 128 ≤ v := by
        rw [hdiv] at hv
        omega
      cases fuel with
      | zero =>
        exfalso
        norm_num at hbound
        have hge := Nat.mul_le_mul_right 268435456 hv128
        omega
      | succ f =>
        have hf3 : f ≤ 3 := by omega
        set s := 7 * (4 - (f + 1)) with hs
        have hs7 : s + 7 = 7 * (4 - f) := by omega
        have hmlt : v % 128 < 128 := Nat.mod_lt v (by norm_num)
        have hb127 : (v &&& 127 ||| 128) &&& 127 = v % 128 := by
          rw [and127_eq_mod v, or128_eq_add hmlt, and127_eq_mod]
          omega
        have hbcont : ¬ (v &&& 127 ||| 128) &&& 128 = 0 := by
          rw [and127_eq_mod v, or128_eq_add hmlt]
          exact and128_of_cont (by omega) (by omega)
        rw [encode_varint_u32, dif_neg hv]
        simp only [List.cons_append]
        rw [decode_varint_go_cons_succ, if_neg hbcont, hb127]
        set p := (2 : Nat) ^ s with hp
        have hp0 : 0 < p := Nat.pos_pow_of_pos s (by norm_num)
        have hps : (2 : Nat) ^ (s + 7) = 128 * p := by
          rw [hp, pow_add]
          norm_num
          ring
        have h127p : v % 128 * p ≤ 127 * p := Nat.mul_le_mul_right p (by omega)
        have hvp : v % 128 * p ≤ v * p := Nat.mul_le_mul_right p (Nat.mod_le v 128)
        have hval1lt : acc + v % 128 * p < 4294967296 := by omega
        have hor : acc ||| (v % 128) <<< s = acc + v % 128 * p := lor_shiftLeft_eq_add hacc
        rw [hor, Nat.mod_eq_of_lt hval1lt]
        have hsplit : v % 128 * p + v / 128 * (128 * p) = v * p := by
          have hv2 : v % 128 + 128 * (v / 128) = v := by omega
          calc v % 128 * p + v / 128 * (128 * p) = (v % 128 + 128 * (v / 128)) * p := by ring
            _ = v * p := by rw [hv2]
        have hacc1 : acc + v % 128 * p < 2 ^ (7 * (4 - f)) := by
          rw [← hs7, hps]
          omega
        have hbound1 : acc + v % 128 * p + v >>> 7 * 2 ^ (7 * (4 - f)) < 4294967296 := by
          rw [← hs7, hps, hdiv]
          omega
        have hrec := ih (v >>> 7) (by rw [hdiv]; exact Nat.div_lt_self (by omega) (by norm_num))
          rest (acc + v % 128 * p) f (by omega) hacc1 hbound1
        rw [← hs7] at hrec
        rw [hrec]
        have heq : acc + v % 128 * p + v >>> 7 * 2 ^ (s + 7) = acc + v * p := by
          rw [hps, hdiv]
          omega
        rw [heq]

theorem decode_varint_u32_encode (v : Nat) (hv : v < 4294967296) (rest : List Nat) :
    decode_varint_u32 (encode_varint_u32 v ++ rest) = some (v, rest) := by
  have h := decode_varint_go_encode v rest 0 4 (by norm_num) (by norm_num) (by simpa using hv)
  simpa using h

theorem decode_usize_encode (n : Nat) (h : n < 4294967296) (rest : List Nat) :
    decode_usize (encode_usize n ++ rest) = some (n, rest) := by
  unfold decode_usize encode_usize
  rw [Nat.mod_eq_of_lt h]
  exact decode_varint_u32_encode n h rest

/-! ### Codec round-trip: well-formedness (the bounds Rust enforces by typing) -/

/-- A Rust `String` seen as bytes: valid UTF-8 (guaranteed by the `String`
type), with length and byte bounds guaranteed by `usize`-as-`u32` encoding
and the `u8` byte type. -/
def wfString (s : List Nat) : Prop :=
  utf8Valid s = true ∧ s.length < 4294967296 ∧ ∀ b ∈ s, b < 256

def wfBytes (b : List Nat) : Prop :=
  b.length < 4294967296 ∧ ∀ x ∈ b, x < 256

/-- Field bounds of a `NodeValue` that the Rust types enforce statically
(`i64`, `f64` bit width, `String` validity). -/
def wfValue : NodeValue → Prop
  | .none => True
  | .int v => -9223372036854775808 ≤ v ∧ v < 9223372036854775808
  | .float bits => bits < 18446744073709551616
  | .text s => wfString s
  | .ident s => wfString s
  | .bytes b => wfBytes b

/-- Field bounds of a `DiffOp`: ids are `u32` by type; the `usize` index
fields must additionally fit in 32 bits, which Rust does **not** enforce —
`encode_usize` truncates them (the source of the C2 counterexample). -/
def wfOp : DiffOp → Prop
  | .insert p i _ l v => p < 4294967296 ∧ i < 4294967296 ∧ wfString l ∧ wfValue v
  | .delete n => n < 4294967296
  | .update n o v => n < 4294967296 ∧ wfValue o ∧ wfValue v
  | .relabel n o l => n < 4294967296 ∧ wfString o ∧ wfString l
  | .move n p i => n < 4294967296 ∧ p < 4294967296 ∧ i < 4294967296

def wfScript (S : List DiffOp) : Prop :=
  S.length < 4294967296 ∧ ∀ op ∈ S, wfOp op

instance wfStringDec (s : List Nat) : Decidable (wfString s) := by
  unfold wfString
  infer_instance

instance wfBytesDec (b : List Nat) : Decidable (wfBytes b) := by
  unfold wfBytes
  infer_instance

instance wfValueDec (v : NodeValue) : Decidable (wfValue v) := by
  cases v <;> simp only [wfValue] <;> infer_instance

instance wfOpDec (op : DiffOp) : Decidable (wfOp op) := by
  cases op <;> simp only [wfOp] <;> infer_instance

instance wfScriptDec (S : List DiffOp) : Decidable (wfScript S) := by
  unfold wfScript
  infer_instance

/-! ### Codec round-trip: fixed-width integers, values, strings -/

theorem kind_round (k : AstNodeKind) : AstNodeKind.from_u8 k.toByte = k := by
  cases k <;> rfl

theorem u64_round (n : Nat) (h : n < 18446744073709551616) :
    u64_from_le (n % 256) (n / 256 % 256) (n / 65536 % 256) (n / 16777216 % 256)
      (n / 4294967296 % 256) (n / 1099511627776 % 256) (n / 281474976710656 % 256)
      (n / 72057594037927936 % 256) = n := by
  unfold u64_from_le
  omega

theorem i64_round (x : Int) (h1 : -9223372036854775808 ≤ x) (h2 : x < 9223372036854775808) :
    i64_from_le ((x % 18446744073709551616).toNat % 256)
      ((x % 18446744073709551616).toNat / 256 % 256)
      ((x % 18446744073709551616).toNat / 65536 % 256)
      ((x % 18446744073709551616).toNat / 16777216 % 256)
      ((x % 18446744073709551616).toNat / 4294967296 % 256)
      ((x % 18446744073709551616).toNat / 1099511627776 % 256)
      ((x % 18446744073709551616).toNat / 281474976710656 % 256)
      ((x % 18446744073709551616).toNat / 72057594037927936 % 256) = x := by
  unfold i64_from_le
  rw [u64_round _ (by omega)]
  dsimp only
  split <;> omega

theorem decode_len_payload_encode (s : List Nat) (h : s.length < 4294967296) (rest : List Nat) :
    decode_len_payload (encode_usize s.length ++ (s ++ rest)) = some (s, rest) := by
  unfold decode_len_payload
  rw [decode_usize_encode s.length h (s ++ rest)]
  simp only []
  rw [if_neg (by simp)]
  rw [List.take_left, List.drop_left]

theorem decode_string_encode (s : List Nat) (h : wfString s) (rest : List Nat) :
    decode_string (encode_string s ++ rest) = some (s, rest) := by
  unfold decode_string encode_string
  rw [List.append_assoc, decode_len_payload_encode s h.2.1 rest]
  simp only []
  rw [if_pos h.1]

theorem decode_value_encode (v : NodeValue) (hv : wfValue v) (rest : List Nat) :
    decode_value (encode_value v ++ rest) = some (v, rest) := by
  cases v with
  | none => rfl
  | int x =>
    simp only [encode_value, i64_le_bytes, u64_le_bytes, List.cons_append, List.nil_append]
    unfold decode_value
    simp only [reduceIte]
    rw [i64_round x hv.1 hv.2]
    norm_num
  | float bits =>
    simp only [encode_value, u64_le_bytes, List.cons_append, List.nil_append]
    unfold decode_value
    simp only [reduceIte]
    rw [u64_round bits hv]
    norm_num
  | text s =>
    simp only [encode_value, List.cons_append, List.append_assoc]
    unfold decode_value
    simp only [reduceIte]
    rw [decode_len_payload_encode s hv.2.1 rest]
    norm_num [hv.1]
  | ident s =>
    simp only [encode_value, List.cons_append, List.append_assoc]
    unfold decode_value
    simp only [reduceIte]
    rw [decode_len_payload_encode s hv.2.1 rest]
    norm_num [hv.1]
  | bytes b =>
    simp only [encode_value, List.cons_append, List.append_assoc]
    unfold decode_value
    simp only [reduceIte]
    rw [decode_len_payload_encode b hv.1 rest]
    norm_num

/-! ### Codec round-trip: operations and patches -/

theorem decode_op_encode (op : DiffOp) (h : wfOp op) (rest : List Nat) :
    decode_op (encode_op op ++ rest) = some (op, rest) := by
  cases op with
  | insert p i k l v =>
    simp only [encode_op, encode_string, List.cons_append, List.append_assoc,
      List.singleton_append, List.nil_append]
    unfold decode_op
    simp only [reduceIte]
    rw [decode_varint_u32_encode p h.1]
    simp only []
    rw [decode_usize_encode i h.2.1]
    simp only []
    rw [show decode_string (encode_usize l.length ++ (l ++ (encode_value v ++ rest))) =
        some (l, encode_value v ++ rest) by
      have hs := decode_string_encode l h.2.2.1 (encode_value v ++ rest)
      simpa [encode_string, List.append_assoc] using hs]
    simp only []
    rw [decode_value_encode v h.2.2.2 rest]
    simp only []
    rw [kind_round]
  | delete n =>
    simp only [encode_op, List.cons_append]
    unfold decode_op
    simp only [reduceIte]
    rw [decode_varint_u32_encode n h]
    norm_num
  | update n o v =>
    simp only [encode_op, List.cons_append, List.append_assoc]
    unfold decode_op
    simp only [reduceIte]
    rw [decode_varint_u32_encode n h.1]
    simp only []
    rw [decode_value_encode o h.2.1]
    simp only []
    rw [decode_value_encode v h.2.2]
    norm_num
  | relabel n o l =>
    simp only [encode_op, encode_string, List.cons_append, List.append_assoc]
    unfold decode_op
    simp only [reduceIte]
    rw [decode_varint_u32_encode n h.1]
    simp only []
    rw [show decode_string (encode_usize o.length ++ (o ++ (encode_usize l.length ++ (l ++ rest)))) =
        some (o, encode_usize l.length ++ (l ++ rest)) by
      have hs := decode_string_encode o h.2.1 (encode_usize l.length ++ (l ++ rest))
      simpa [encode_string, List.append_assoc] using hs]
    simp only []
    rw [show decode_string (encode_usize l.length ++ (l ++ rest)) = some (l, rest) by
      have hs := decode_string_encode l h.2.2 rest
      simpa [encode_string, List.append_assoc] using hs]
    norm_num
  | move n p i =>
    simp only [encode_op, List.cons_append, List.append_assoc]
    unfold decode_op
    simp only [reduceIte]
    rw [decode_varint_u32_encode n h.1]
    simp only []
    rw [decode_varint_u32_encode p h.2.1]
    simp only []
    rw [decode_usize_encode i h.2.2]
    norm_num

theorem decode_ops_encode : ∀ (S : List DiffOp) (rest : List Nat), (∀ op ∈ S, wfOp op) →
    decode_ops S.length (listFlatMap encode_op S ++ rest) = some (S, rest) := by
  intro S
  induction S with
  | nil => intro rest _; rfl
  | cons op S ih =>
    intro rest h
    simp only [List.length_cons, listFlatMap, List.append_assoc]
    unfold decode_ops
    rw [decode_op_encode op (h op (List.mem_cons_self _ _))]
    simp only []
    rw [ih rest (fun o ho => h o (List.mem_cons_of_mem _ ho))]

/-- Claim C2 (amended): for every edit script whose fields are within the
bounds the Rust types guarantee and whose `usize` index fields fit in 32
bits, decoding the encoding returns exactly the script (float fields are
bit patterns, so this equality is bit-pattern equality on floats). -/
theorem codec_patch_roundtrip (S : List DiffOp) (h : wfScript S) :
    decode_patch (encode_patch S) = some S := by
  unfold decode_patch encode_patch
  rw [show encode_usize S.length ++ listFlatMap encode_op S =
      encode_usize S.length ++ (listFlatMap encode_op S ++ []) by simp]
  rw [decode_usize_encode S.length h.1]
  simp only []
  rw [decode_ops_encode S [] h.2]

/-- An edit script exercising every operation and value constructor,
including a NaN float bit pattern. -/
def sampleScript : List DiffOp :=
  [DiffOp.insert 0 3 AstNodeKind.Primitive [115, 112, 104, 101, 114, 101]
     (NodeValue.float 9221120237041090560),
   DiffOp.delete 4294967295,
   DiffOp.update 5 (NodeValue.int (-42)) (NodeValue.text [104, 105]),
   DiffOp.update 6 (NodeValue.ident [117]) (NodeValue.bytes [0, 255]),
   DiffOp.relabel 3 [97] [98],
   DiffOp.move 7 2 1]

/-- Witness for C2 at a concrete script covering all constructors. -/
theorem codec_patch_roundtrip_witness :
    decode_patch (encode_patch sampleScript) = some sampleScript :=
  codec_patch_roundtrip sampleScript (by decide)

/-- Counterexample for C2 as stated: the script whose `Insert.index` is
`2^32` does not round-trip — `encode_usize` truncates `index as u32` to 0. -/
theorem codec_roundtrip_counterexample :
    decode_patch (encode_patch [DiffOp.insert 0 4294967296 AstNodeKind.Root [] NodeValue.none]) ≠
      some [DiffOp.insert 0 4294967296 AstNodeKind.Root [] NodeValue.none] := by
  have he : encode_patch [DiffOp.insert 0 4294967296 AstNodeKind.Root [] NodeValue.none] =
      [1, 0, 0, 0, 0, 0, 0] := by
    simp [encode_patch, listFlatMap, encode_op, encode_usize, encode_string, encode_value,
      encode_varint_u32, AstNodeKind.toByte]
  rw [he]
  decide

/-! ### Claim C3: diffing a tree against itself -/

theorem modifyIdx_append_cons {α : Type} (l : List α) (a : α) (r : List α) (f : α → α) :
    modifyIdx (l ++ a :: r) l.length f = l ++ f a :: r := by
  induction l with
  | nil => rfl
  | cons b l ih => simpa [modifyIdx] using ih

theorem firstUnmatched_mid (new : AstTree) (oc : Nat) (key : AstNodeKind × List Nat)
    (hkey : keyOf new oc = some key) :
    ∀ (pre suf : List Nat),
      firstUnmatched new (pre ++ oc :: suf)
          (List.replicate pre.length true ++ false :: List.replicate suf.length false) key
        = some pre.length := by
  intro pre
  induction pre with
  | nil => intro suf; simp [firstUnmatched, hkey]
  | cons p ps ih =>
    intro suf
    simp only [List.cons_append, List.length_cons, List.replicate_succ]
    rw [firstUnmatched]
    simp [ih suf]

theorem getD_append_cons (l : List Nat) (a : Nat) (r : List Nat) :
    (l ++ a :: r).getD l.length 0 = a := by
  induction l with
  | nil => rfl
  | cons b l ih => simpa using ih

theorem matchLoop_self_aux (t : AstTree) (rec : Nat → Nat → List DiffOp)
    (hrec : ∀ a, rec a a = []) :
    ∀ (suf pre : List Nat),
      (∀ c ∈ suf, (t.get_node c).isSome = true) →
      matchLoop t t rec (pre ++ suf) suf
          (List.replicate pre.length true ++ List.replicate suf.length false)
        = (List.replicate suf.length true,
           List.replicate (pre.length + suf.length) true, []) := by
  intro suf
  induction suf with
  | nil =>
    intro pre _
    simp [matchLoop]
  | cons oc suf ih =>
    intro pre hres
    have hsome : (t.get_node oc).isSome = true := hres oc (List.mem_cons_self _ _)
    rcases Option.isSome_iff_exists.mp hsome with ⟨n, hn⟩
    have hkey : keyOf t oc = some (n.kind, n.label) := by
      simp [keyOf, hn]
    rw [matchLoop]
    rw [hkey]
    simp only []
    rw [List.length_cons, List.replicate_succ, firstUnmatched_mid t oc _ hkey pre suf]
    simp only []
    have hset : setTrue (List.replicate pre.length true ++ false :: List.replicate suf.length false)
        pre.length = List.replicate (pre.length + 1) true ++ List.replicate suf.length false := by
      rw [setTrue]
      have hm := modifyIdx_append_cons (List.replicate pre.length true) false
        (List.replicate suf.length false) (fun _ => true)
      rw [List.length_replicate] at hm
      rw [hm, List.replicate_succ']
      simp [List.append_assoc]
    rw [hset]
    rw [getD_append_cons pre oc suf, hrec oc]
    rw [show pre ++ oc :: suf = (pre ++ [oc]) ++ suf by simp]
    have hih := ih (pre ++ [oc]) (fun c hc => hres c (List.mem_cons_of_mem _ hc))
    simp only [List.length_append, List.length_singleton] at hih
    rw [hih]
    rw [show pre.length + 1 + suf.length = pre.length + (suf.length + 1) by omega]
    simp [List.replicate_succ]

theorem zip_replicate_true_filterMap (ch : List Nat) :
    (ch.zip (List.replicate ch.length true)).filterMap
      (fun cm => if cm.2 then Option.none else some (DiffOp.delete cm.1)) = [] := by
  induction ch with
  | nil => rfl
  | cons c cs ih =>
    simpa [List.replicate_succ, List.filterMap_cons] using ih

theorem insertsOf_all_matched (new : AstTree) (parent : Nat) :
    ∀ (ch : List Nat) (i : Nat),
      insertsOf new parent ch (List.replicate ch.length true) i = [] := by
  intro ch
  induction ch with
  | nil => intro i; rfl
  | cons c cs ih =>
    intro i
    rw [List.length_cons, List.replicate_succ, insertsOf]
    simpa using ih (i + 1)

theorem diff_subtree_self (t : AstTree) (hInv : TreeInv t)
    (hval : ∀ n ∈ t.nodes, nvEq n.value n.value = true) :
    ∀ (fuel id : Nat), diff_subtree t t fuel id id = [] := by
  intro fuel
  induction fuel with
  | zero => intro id; rfl
  | succ fuel ih =>
    intro id
    cases hg : t.get_node id with
    | none => simp [diff_subtree, hg]
    | some n =>
      rcases mem_of_get_node hInv hg with ⟨hmem, _⟩
      have hres : ∀ c ∈ n.children, (t.get_node c).isSome = true := by
        intro c hc
        rcases hInv.childLive n hmem c hc with ⟨m, hm, hmid⟩
        rw [← hmid, get_node_of_mem hInv hm]
        rfl
      have hml := matchLoop_self_aux t (fun a b => diff_subtree t t fuel a b)
        (fun a => ih a) n.children [] hres
      simp only [List.nil_append, List.replicate_zero, List.length_nil, Nat.zero_add] at hml
      rw [diff_subtree]
      rw [hg]
      simp only []
      rw [hml]
      simp only []
      rw [zip_replicate_true_filterMap, insertsOf_all_matched, hval n hmem]
      simp

/-- Claim C3 (amended): for every tree satisfying the representation
invariants I1-I5 whose node values are all self-equal under the derived
`PartialEq` (that is, no value is a NaN float), `diff_trees(T, T)` is the
empty script. -/
theorem diff_trees_self (t : AstTree) (hInv : TreeInv t)
    (hval : ∀ n ∈ t.nodes, nvEq n.value n.value = true) :
    diff_trees t t = [] :=
  diff_subtree_self t hInv hval _ _

/-- A two-node tree whose parameter node holds the bit pattern of `1.0`. -/
def floatTree : AstTree :=
  (AstTree.new.add_node_with_value AstNodeKind.Parameter [114]
    (NodeValue.float 4607182418800017408) 0).2

/-- Witness for C3 on a concrete two-node tree holding a non-NaN float. -/
theorem diff_trees_self_witness : diff_trees floatTree floatTree = [] :=
  diff_trees_self floatTree
    ⟨by decide, by decide, by decide, by decide, by decide, by decide, by decide, by decide,
      by decide, by decide, by decide⟩
    (by decide)

/-- A two-node tree whose parameter node holds a NaN bit pattern. -/
def nanTree : AstTree :=
  (AstTree.new.add_node_with_value AstNodeKind.Parameter [112]
    (NodeValue.float 9221120237041090560) 0).2

/-- Counterexample for C3 as stated: a tree holding a NaN float diffs against
itself to a nonempty script, namely a single `Update` carrying the NaN bit
pattern on both sides, because IEEE-754 equality rejects `NaN == NaN`. -/
theorem diff_trees_self_counterexample :
    diff_trees nanTree nanTree
        = [DiffOp.update 1 (NodeValue.float 9221120237041090560)
            (NodeValue.float 9221120237041090560)]
      ∧ diff_trees nanTree nanTree ≠ [] := by
  decide

/-! ### Claim C9: the message of a merge commit -/

theorem alloc_format_merge (arg : List Nat) :
    alloc_format mergeTemplate arg
      = [109, 101, 114, 103, 101, 32, 98, 114, 97, 110, 99, 104, 32] ++ arg := by
  unfold alloc_format
  rw [show findSub quotedBracesPat mergeTemplate = some 13 from by decide]
  simp only []
  rw [show mergeTemplate.take 13
      = [109, 101, 114, 103, 101, 32, 98, 114, 97, 110, 99, 104, 32] from by decide,
    show mergeTemplate.drop (13 + 4) = [] from by decide]
  simp

theorem commit_get_self (r : Repository) (tree : AstTree) (msg author : List Nat) :
    ∃ hsh c, (r.commit tree msg author).2.get_commit hsh = some c
      ∧ c.message = msg ∧ c.author = author := by
  unfold Repository.commit Repository.get_commit
  exact ⟨_, _, lookupA_insertA_self _ _ _, rfl, rfl⟩

/-- `Repository::commit` points the current branch at the freshly stored
hash, so the repository's head commit afterwards IS the created commit —
provided the current branch exists, which holds in every reachable
repository. -/
theorem commit_get_head (r : Repository) (tree : AstTree) (msg author : List Nat)
    (hcb : (lookupA r.branches r.current_branch).isSome = true) :
    ∃ c, (r.commit tree msg author).2.get_commit (r.commit tree msg author).2.head_hash
        = some c
      ∧ c.message = msg ∧ c.author = author := by
  obtain ⟨b, hb⟩ := Option.isSome_iff_exists.mp hcb
  unfold Repository.commit Repository.get_commit Repository.head_hash
  dsimp only
  rw [hb]
  simp only []
  rw [lookupA_insertA_self]
  simp only []
  rw [lookupA_insertA_self]
  exact ⟨_, rfl, rfl, rfl⟩

/-- Claim C9 (amended): whenever `Repository::merge` performs a clean merge
(in a repository whose current branch exists, as in every reachable
repository), the commit it creates — the commit the repository's head
points to afterwards — carries author `system` and message `merge branch `
followed by the branch name WITHOUT surrounding single quotes:
`alloc_format` replaces all four bytes of the quoted placeholder, quotes
included, with the argument. -/
theorem merge_clean_commit (r : Repository) (name : List Nat) (r2 : Repository)
    (mr : MergeResult) (h : r.merge name = (r2, some mr))
    (hclean : mr.is_clean = true)
    (hcb : (lookupA r.branches r.current_branch).isSome = true) :
    ∃ c, r2.get_commit r2.head_hash = some c
      ∧ c.message = [109, 101, 114, 103, 101, 32, 98, 114, 97, 110, 99, 104, 32] ++ name
      ∧ c.author = systemAuthor := by
  unfold Repository.merge at h
  split at h
  · injection h with h1 h2; cases h2
  · dsimp only at h
    split at h
    · injection h with h1 h2; cases h2
    · split at h
      · injection h with h1 h2; cases h2
      · split at h
        · split at h
          · injection h with h1 h2
            subst h1
            obtain ⟨c, hget, hmsg, hauth⟩ :=
              commit_get_head r _ (alloc_format mergeTemplate name) systemAuthor hcb
            exact ⟨c, hget, by rw [hmsg, alloc_format_merge], hauth⟩
          · next hnc =>
            injection h with h1 h2
            injection h2 with h2
            subst h2
            exact absurd hclean hnc
        · injection h with h1 h2; cases h2

/-- The repository obtained from a fresh repository by committing the empty
tree on `main` and then creating the branch `dev` at the same commit. -/
def mergeRepoC9 : Repository :=
  ((Repository.new.commit AstTree.new [99] [97]).2.create_branch [100, 101, 118])

/-- Witness for C9: merging `dev` in the concrete repository is clean and
the head commit it creates has message `merge branch dev` and author
`system`. -/
theorem merge_clean_commit_witness :
    ∃ c, (mergeRepoC9.merge [100, 101, 118]).1.get_commit
          (mergeRepoC9.merge [100, 101, 118]).1.head_hash = some c
      ∧ c.message = [109, 101, 114, 103, 101, 32, 98, 114, 97, 110, 99, 104, 32]
          ++ [100, 101, 118]
      ∧ c.author = systemAuthor :=
  merge_clean_commit mergeRepoC9 [100, 101, 118] (mergeRepoC9.merge [100, 101, 118]).1
    ⟨[], []⟩ (by decide) (by decide) (by decide)

/-- Counterexample for C9 as stated: in the concrete clean merge of branch
`dev`, the created head commit's message is `merge branch dev` — it is not
`merge branch` followed by the name in single quotes (byte 39), because
`alloc_format` splices the argument over the quotes as well. -/
theorem merge_message_counterexample :
    ((mergeRepoC9.merge [100, 101, 118]).2.map MergeResult.is_clean = some true)
    ∧ (((mergeRepoC9.merge [100, 101, 118]).1.get_commit
          (mergeRepoC9.merge [100, 101, 118]).1.head_hash).map Commit.message
        = some [109, 101, 114, 103, 101, 32, 98, 114, 97, 110, 99, 104, 32, 100, 101, 118])
    ∧ (((mergeRepoC9.merge [100, 101, 118]).1.get_commit
          (mergeRepoC9.merge [100, 101, 118]).1.head_hash).map Commit.message
        ≠ some [109, 101, 114, 103, 101, 32, 98, 114, 97, 110, 99, 104, 32, 39,
            100, 101, 118, 39]) := by
  decide

/-! ### Claim C5: invariant preservation of the tree editing operations -/

theorem getElem?_some_lt {α : Type} {l : List α} {j : Nat} {a : α} (h : l[j]? = some a) :
    j < l.length := by
  by_contra hge
  push_neg at hge
  rw [List.getElem?_eq_none hge] at h
  cases h

theorem modifyIdx_map_of_preserve {α β : Type} (g : α → β) (f : α → α)
    (hf : ∀ a, g (f a) = g a) :
    ∀ (l : List α) (i : Nat), (modifyIdx l i f).map g = l.map g := by
  intro l
  induction l with
  | nil => intro i; rfl
  | cons a l ih =>
    intro i
    cases i with
    | zero => simp [modifyIdx, hf]
    | succ i => simp only [modifyIdx, List.map_cons, ih]

theorem mem_modifyIdx_weak {α : Type} {l : List α} {i : Nat} {f : α → α} {b : α}
    (hb : b ∈ modifyIdx l i f) : b ∈ l ∨ ∃ a ∈ l, b = f a := by
  induction l generalizing i with
  | nil => cases hb
  | cons a l ih =>
    cases i with
    | zero =>
      rcases List.mem_cons.mp hb with h | h
      · exact Or.inr ⟨a, List.mem_cons_self _ _, h⟩
      · exact Or.inl (List.mem_cons_of_mem _ h)
    | succ i =>
      rcases List.mem_cons.mp hb with h | h
      · exact Or.inl (h ▸ List.mem_cons_self _ _)
      · rcases ih h with h1 | ⟨a1, ha1, hb1⟩
        · exact Or.inl (List.mem_cons_of_mem _ h1)
        · exact Or.inr ⟨a1, List.mem_cons_of_mem _ ha1, hb1⟩

theorem get_node_elim {t : AstTree} {p : Nat} {np : AstNode} (h : t.get_node p = some np) :
    ∃ pidx, lookupA t.index p = some pidx ∧ t.nodes[pidx]? = some np := by
  unfold AstTree.get_node at h
  split at h
  · cases h
  · next idx hl => exact ⟨idx, hl, h⟩

theorem childIds_lt_next {t : AstTree} (hInv : TreeInv t) :
    ∀ n ∈ t.nodes, ∀ c ∈ n.children, c < t.next_id := by
  intro n hn c hc
  rcases hInv.childLive n hn c hc with ⟨m, hm, hmid⟩
  exact hmid ▸ hInv.nidBound m hm

theorem next_id_pos {t : AstTree} (hInv : TreeInv t) : 0 < t.next_id := by
  have h1 : 0 < t.nodes.countP (fun n => decide (n.id = 0)) := by
    rw [hInv.rootCount]
    omega
  rcases List.countP_pos_iff.mp h1 with ⟨n, hn, hn0⟩
  have := hInv.nidBound n hn
  simp only [decide_eq_true_eq] at hn0
  omega

theorem treeInv_add_node {t : AstTree} (hInv : TreeInv t) (k : AstNodeKind) (lb : List Nat)
    {p : Nat} {np : AstNode} (hp : t.get_node p = some np) :
    TreeInv (t.add_node k lb p).2 := by
  obtain ⟨pidx, hlkp, hgetp⟩ := get_node_elim hp
  obtain ⟨hmemnp, hidnp⟩ := mem_of_get_node hInv hp
  have hpidxlt : pidx < t.nodes.length := getElem?_some_lt hgetp
  have hplt : p < t.next_id := hidnp ▸ hInv.nidBound np hmemnp
  have hpne : p ≠ t.next_id := Nat.ne_of_lt hplt
  have hpos0 : 0 < t.next_id := next_id_pos hInv
  have ht2 : (t.add_node k lb p).2 =
      { nodes := modifyIdx (t.nodes ++ [⟨t.next_id, k, lb, NodeValue.none, []⟩]) pidx
          (fun n => { n with children := n.children ++ [t.next_id] })
        index := insertA t.index t.next_id t.nodes.length
        parent_index := insertA t.parent_index t.next_id p
        root_id := t.root_id
        next_id := t.next_id + 1 } := by
    unfold AstTree.add_node AstTree.modifyNode
    dsimp only
    rw [lookupA_insertA_ne _ _ _ _ hpne, hlkp]
  rw [ht2]
  set node : AstNode := ⟨t.next_id, k, lb, NodeValue.none, []⟩ with hnode
  set f : AstNode → AstNode := fun n => { n with children := n.children ++ [t.next_id] }
    with hf
  set N2 : List AstNode := modifyIdx (t.nodes ++ [node]) pidx f with hN2
  have hN2pidx : N2[pidx]? = some (f np) := by
    rw [hN2, modifyIdx_getElem?_self, List.getElem?_append_left hpidxlt, hgetp]
    rfl
  have hN2len : N2[t.nodes.length]? = some node := by
    rw [hN2, modifyIdx_getElem?_ne _ _ _ _ (Ne.symm (Nat.ne_of_lt hpidxlt)),
      List.getElem?_concat_length]
  have hfnpMem : f np ∈ N2 := List.getElem?_mem hN2pidx
  have hnodeMem : node ∈ N2 := List.getElem?_mem hN2len
  have hmapid : N2.map AstNode.id = t.nodes.map AstNode.id ++ [t.next_id] := by
    rw [hN2, modifyIdx_map_of_preserve AstNode.id f (fun a => rfl), List.map_append]
    rfl
  have hcases : ∀ n ∈ N2, n = f np ∨ n = node ∨ (n ∈ t.nodes ∧ n.id ≠ p) := by
    intro n hn
    rcases List.mem_iff_getElem?.mp hn with ⟨j, hj⟩
    by_cases hjp : j = pidx
    · subst hjp
      rw [hN2pidx] at hj
      exact Or.inl (by injection hj with h; exact h.symm)
    · rw [hN2, modifyIdx_getElem?_ne _ _ _ _ hjp] at hj
      by_cases hjl : j < t.nodes.length
      · rw [List.getElem?_append_left hjl] at hj
        refine Or.inr (Or.inr ⟨List.getElem?_mem hj, fun hid => hjp ?_⟩)
        have h1 : (t.nodes.map AstNode.id)[j]? = some p := by
          rw [List.getElem?_map, hj]
          simp [hid]
        have h2 : (t.nodes.map AstNode.id)[pidx]? = some p := by
          rw [List.getElem?_map, hgetp]
          simp [hidnp]
        have hlt2 : j < (t.nodes.map AstNode.id).length := by
          simpa using hjl
        exact List.getElem?_inj hlt2 (liveIds_nodup hInv) (h1.trans h2.symm)
      · push_neg at hjl
        rw [List.getElem?_append_right hjl] at hj
        cases hd : j - t.nodes.length with
        | zero =>
          rw [hd] at hj
          injection hj with hj1
          exact Or.inr (Or.inl hj1.symm)
        | succ d =>
          rw [hd] at hj
          simp at hj
  have hkeep : ∀ m ∈ t.nodes,
      ∃ m2 ∈ N2, m2.id = m.id ∧ m2.kind = m.kind ∧ m.children ⊆ m2.children := by
    intro m hm
    rcases List.mem_iff_getElem?.mp hm with ⟨j, hj⟩
    have hjl : j < t.nodes.length := getElem?_some_lt hj
    by_cases hjp : j = pidx
    · subst hjp
      have hmnp : m = np := by
        rw [hj] at hgetp
        injection hgetp
      subst hmnp
      exact ⟨f m, hfnpMem, rfl, rfl, List.subset_append_left _ _⟩
    · have hmm : N2[j]? = some m := by
        rw [hN2, modifyIdx_getElem?_ne _ _ _ _ hjp, List.getElem?_append_left hjl, hj]
      exact ⟨m, List.getElem?_mem hmm, rfl, rfl, List.Subset.refl _⟩
  refine ⟨hInv.root0, ?_, ?_, ?_, ?_, ?_, ?_, ?_, ?_, ?_, ?_⟩
  · show N2.countP (fun n => decide (n.id = 0)) = 1
    have h1 : N2.countP (fun n => decide (n.id = 0))
        = (N2.map AstNode.id).countP (fun i => decide (i = 0)) := by
      rw [List.countP_map]
      rfl
    have h2 : t.nodes.countP (fun n => decide (n.id = 0))
        = (t.nodes.map AstNode.id).countP (fun i => decide (i = 0)) := by
      rw [List.countP_map]
      rfl
    rw [h1, hmapid, List.countP_append, ← h2, hInv.rootCount]
    have h3 : List.countP (fun i => decide (i = 0)) [t.next_id] = 0 := by
      simp [List.countP_cons, Nat.pos_iff_ne_zero.mp hpos0]
    omega
  · show ∀ n ∈ N2, n.id = 0 → n.kind = AstNodeKind.Root
    intro n hn hn0
    rcases hcases n hn with rfl | rfl | ⟨hmem, _⟩
    · exact hInv.rootKind np hmemnp hn0
    · exact absurd hn0 (by simpa using Nat.pos_iff_ne_zero.mp hpos0)
    · exact hInv.rootKind n hmem hn0
  · show ∀ q ∈ insertA t.index t.next_id t.nodes.length, (N2[q.2]?).map AstNode.id = some q.1
    intro q hq
    rcases List.mem_cons.mp hq with rfl | hq1
    · rw [hN2len]
      rfl
    · have hq2 := List.mem_filter.mp hq1
      have hqmem : q ∈ t.index := hq2.1
      have hqne : q.1 ≠ t.next_id := by simpa using hq2.2
      have hold := hInv.idxSound q hqmem
      have hq2lt : q.2 < t.nodes.length := by
        cases hx : t.nodes[q.2]? with
        | none => rw [hx] at hold; cases hold
        | some m => exact getElem?_some_lt hx
      by_cases hqp : q.2 = pidx
      · rw [hqp, hN2pidx]
        rw [hqp, hgetp] at hold
        simpa using hold
      · rw [hN2, modifyIdx_getElem?_ne _ _ _ _ hqp, List.getElem?_append_left hq2lt]
        exact hold
  · show ∀ i : Fin N2.length, lookupA (insertA t.index t.next_id t.nodes.length)
      (N2.get i).id = some i.1
    intro i
    have hlen2 : N2.length = t.nodes.length + 1 := by
      rw [hN2, modifyIdx_length, List.length_append]
      rfl
    have hgi : N2[i.1]? = some (N2.get i) := by
      rw [List.getElem?_eq_getElem i.2]
      simp [List.get_eq_getElem]
    by_cases hil : i.1 = t.nodes.length
    · rw [hil, hN2len] at hgi
      have : N2.get i = node := by injection hgi with h; exact h.symm
      rw [this, hnode]
      rw [show (⟨t.next_id, k, lb, NodeValue.none, []⟩ : AstNode).id = t.next_id from rfl]
      rw [lookupA_insertA_self]
      rw [hil]
    · have hilt : i.1 < t.nodes.length := by
        have := i.2
        omega
      by_cases hip : i.1 = pidx
      · rw [hip, hN2pidx] at hgi
        have hgn : N2.get i = f np := by injection hgi with h; exact h.symm
        have hidf : (N2.get i).id = p := by rw [hgn, hf]; exact hidnp
        rw [hidf, lookupA_insertA_ne _ _ _ _ hpne, hlkp, hip]
      · have hx : ∀ j : Nat, j < t.nodes.length → j ≠ pidx → N2[j]? = t.nodes[j]? := by
          intro j hjl hjp
          rw [hN2, modifyIdx_getElem?_ne _ _ _ _ hjp]
          exact List.getElem?_append_left hjl
        rw [hx i.1 hilt hip] at hgi
        have hmem : N2.get i ∈ t.nodes := List.getElem?_mem hgi
        have hlt : (N2.get i).id < t.next_id := hInv.nidBound _ hmem
        rw [lookupA_insertA_ne _ _ _ _ (Nat.ne_of_lt hlt)]
        have hold := hInv.idxComplete ⟨i.1, hilt⟩
        have hgeq : t.nodes.get ⟨i.1, hilt⟩ = N2.get i := by
          have : t.nodes[i.1]? = some (t.nodes.get ⟨i.1, hilt⟩) := by
            rw [List.getElem?_eq_getElem hilt]
            simp [List.get_eq_getElem]
          rw [this] at hgi
          injection hgi
        rw [← hgeq]
        exact hold
  · show ∀ n ∈ N2, ∀ c ∈ n.children, ∃ m ∈ N2, m.id = c
    intro n hn c hc
    have htransId : ∀ a : Nat, (∃ m ∈ t.nodes, m.id = a) → ∃ m2 ∈ N2, m2.id = a := by
      rintro a ⟨m, hm, rfl⟩
      rcases hkeep m hm with ⟨m2, hm2, hid2, _, _⟩
      exact ⟨m2, hm2, hid2⟩
    rcases hcases n hn with rfl | rfl | ⟨hmem, _⟩
    · rcases List.mem_append.mp hc with hc1 | hc1
      · exact htransId c (hInv.childLive np hmemnp c hc1)
      · have : c = t.next_id := by simpa using hc1
        exact ⟨node, hnodeMem, this.symm⟩
    · cases hc
    · exact htransId c (hInv.childLive n hmem c hc)
  · show ∀ n ∈ N2, ∀ c ∈ n.children, lookupA (insertA t.parent_index t.next_id p) c = some n.id
    intro n hn c hc
    rcases hcases n hn with rfl | rfl | ⟨hmem, _⟩
    · rcases List.mem_append.mp hc with hc1 | hc1
      · have hclt : c < t.next_id := childIds_lt_next hInv np hmemnp c hc1
        rw [lookupA_insertA_ne _ _ _ _ (Nat.ne_of_lt hclt)]
        rw [hInv.childParent np hmemnp c hc1]
      · have hce : c = t.next_id := by simpa using hc1
        rw [hce, lookupA_insertA_self]
        rw [show (f np).id = np.id from rfl, hidnp]
    · cases hc
    · have hclt : c < t.next_id := childIds_lt_next hInv n hmem c hc
      rw [lookupA_insertA_ne _ _ _ _ (Nat.ne_of_lt hclt)]
      exact hInv.childParent n hmem c hc
  · show ∀ n ∈ N2, n.children.Nodup
    intro n hn
    rcases hcases n hn with rfl | rfl | ⟨hmem, _⟩
    · show (np.children ++ [t.next_id]).Nodup
      rw [List.nodup_append]
      refine ⟨hInv.childNodup np hmemnp, List.nodup_singleton _, ?_⟩
      intro a ha ha1
      have : a = t.next_id := by simpa using ha1
      have hlt := childIds_lt_next hInv np hmemnp a ha
      omega
    · exact List.nodup_nil
    · exact hInv.childNodup n hmem
  · show ∀ q ∈ insertA t.parent_index t.next_id p,
      q.2 < q.1 ∧ ∃ m ∈ N2, m.id = q.2 ∧ q.1 ∈ m.children
    intro q hq
    rcases List.mem_cons.mp hq with rfl | hq1
    · refine ⟨hplt, f np, hfnpMem, ?_, ?_⟩
      · rw [show (f np).id = np.id from rfl]
        exact hidnp
      · simp [hf]
    · have hq2 := List.mem_filter.mp hq1
      have hold := hInv.parentSound q hq2.1
      refine ⟨hold.1, ?_⟩
      rcases hold.2 with ⟨m, hm, hmid, hmc⟩
      rcases hkeep m hm with ⟨m2, hm2, hid2, _, hsub⟩
      exact ⟨m2, hm2, hid2.trans hmid, hsub hmc⟩
  · show ∀ n ∈ N2, n.id ≠ 0 → (lookupA (insertA t.parent_index t.next_id p) n.id).isSome = true
    intro n hn hn0
    rcases hcases n hn with rfl | rfl | ⟨hmem, _⟩
    · rw [show (f np).id = np.id from rfl] at hn0 ⊢
      rw [hidnp, lookupA_insertA_ne _ _ _ _ hpne]
      rw [← hidnp]
      exact hInv.parentComplete np hmemnp (by rw [hidnp]; rw [hidnp] at hn0; exact hn0)
    · rw [show node.id = t.next_id from rfl, lookupA_insertA_self]
      rfl
    · have hlt : n.id < t.next_id := hInv.nidBound n hmem
      rw [lookupA_insertA_ne _ _ _ _ (Nat.ne_of_lt hlt)]
      exact hInv.parentComplete n hmem hn0
  · show ∀ n ∈ N2, n.id < t.next_id + 1
    intro n hn
    rcases hcases n hn with rfl | rfl | ⟨hmem, _⟩
    · rw [show (f np).id = np.id from rfl, hidnp]
      omega
    · rw [show node.id = t.next_id from rfl]
      omega
    · have := hInv.nidBound n hmem
      omega

theorem treeInv_modifyNode_pres {t : AstTree} (hInv : TreeInv t) (id0 : Nat)
    (g : AstNode → AstNode)
    (hgf : ∀ a, (g a).id = a.id ∧ (g a).kind = a.kind ∧ (g a).children = a.children) :
    TreeInv (t.modifyNode id0 g) := by
  unfold AstTree.modifyNode
  split
  · exact hInv
  · next idx hlk =>
    set N2 : List AstNode := modifyIdx t.nodes idx g with hN2
    have hmapid : N2.map AstNode.id = t.nodes.map AstNode.id :=
      modifyIdx_map_of_preserve AstNode.id g (fun a => (hgf a).1) t.nodes idx
    have hget : ∀ j : Nat, N2[j]? = if j = idx then (t.nodes[j]?).map g else t.nodes[j]? := by
      intro j
      by_cases hj : j = idx
      · rw [if_pos hj, hj, hN2, modifyIdx_getElem?_self]
      · rw [if_neg hj, hN2, modifyIdx_getElem?_ne _ _ _ _ hj]
    have hcases : ∀ n ∈ N2, ∃ m ∈ t.nodes,
        n.id = m.id ∧ n.kind = m.kind ∧ n.children = m.children := by
      intro n hn
      rcases mem_modifyIdx_weak (hN2 ▸ hn) with h | ⟨a, ha, rfl⟩
      · exact ⟨n, h, rfl, rfl, rfl⟩
      · exact ⟨a, ha, (hgf a).1, (hgf a).2.1, (hgf a).2.2⟩
    have hkeep : ∀ m ∈ t.nodes, ∃ m2 ∈ N2, m2.id = m.id ∧ m2.children = m.children := by
      intro m hm
      rcases List.mem_iff_getElem?.mp hm with ⟨j, hj⟩
      by_cases hjx : j = idx
      · have hx : N2[j]? = some (g m) := by
          rw [hget j, if_pos hjx, hj]
          rfl
        exact ⟨g m, List.getElem?_mem hx, (hgf m).1, (hgf m).2.2⟩
      · have hx : N2[j]? = some m := by
          rw [hget j, if_neg hjx, hj]
        exact ⟨m, List.getElem?_mem hx, rfl, rfl⟩
    refine ⟨hInv.root0, ?_, ?_, ?_, ?_, ?_, ?_, ?_, ?_, ?_, ?_⟩
    · show N2.countP (fun n => decide (n.id = 0)) = 1
      have h1 : N2.countP (fun n => decide (n.id = 0))
          = (N2.map AstNode.id).countP (fun i => decide (i = 0)) := by
        rw [List.countP_map]
        rfl
      have h2 : t.nodes.countP (fun n => decide (n.id = 0))
          = (t.nodes.map AstNode.id).countP (fun i => decide (i = 0)) := by
        rw [List.countP_map]
        rfl
      rw [h1, hmapid, ← h2, hInv.rootCount]
    · intro n hn hn0
      rcases hcases n hn with ⟨m, hm, hid, hk, _⟩
      rw [hk]
      exact hInv.rootKind m hm (hid ▸ hn0)
    · intro q hq
      rw [hget q.2]
      by_cases hqx : q.2 = idx
      · rw [if_pos hqx, Option.map_map]
        have : AstNode.id ∘ g = AstNode.id := funext fun a => (hgf a).1
        rw [this]
        exact hInv.idxSound q hq
      · rw [if_neg hqx]
        exact hInv.idxSound q hq
    · intro i
      have hgi : N2[i.1]? = some (N2.get i) := by
        rw [List.getElem?_eq_getElem i.2]
        simp [List.get_eq_getElem]
      have hilt : i.1 < t.nodes.length := by
        have h2 : i.1 < N2.length := i.2
        have h3 : N2.length = t.nodes.length := by rw [hN2, modifyIdx_length]
        omega
      have hgold : t.nodes[i.1]? = some (t.nodes.get ⟨i.1, hilt⟩) := by
        rw [List.getElem?_eq_getElem hilt]
        simp [List.get_eq_getElem]
      rw [hget i.1] at hgi
      by_cases hix : i.1 = idx
      · rw [if_pos hix, hgold] at hgi
        have : N2.get i = g (t.nodes.get ⟨i.1, hilt⟩) := by injection hgi with h; exact h.symm
        rw [this, (hgf (t.nodes.get ⟨i.1, hilt⟩)).1]
        exact hInv.idxComplete ⟨i.1, hilt⟩
      · rw [if_neg hix, hgold] at hgi
        have : N2.get i = t.nodes.get ⟨i.1, hilt⟩ := by injection hgi with h; exact h.symm
        rw [this]
        exact hInv.idxComplete ⟨i.1, hilt⟩
    · intro n hn c hc
      rcases hcases n hn with ⟨m, hm, _, _, hch⟩
      rcases hInv.childLive m hm c (hch ▸ hc) with ⟨m1, hm1, hid1⟩
      rcases hkeep m1 hm1 with ⟨m2, hm2, hid2, _⟩
      exact ⟨m2, hm2, hid2.trans hid1⟩
    · intro n hn c hc
      rcases hcases n hn with ⟨m, hm, hid, _, hch⟩
      rw [hid]
      exact hInv.childParent m hm c (hch ▸ hc)
    · intro n hn
      rcases hcases n hn with ⟨m, hm, _, _, hch⟩
      rw [hch]
      exact hInv.childNodup m hm
    · intro q hq
      refine ⟨(hInv.parentSound q hq).1, ?_⟩
      rcases (hInv.parentSound q hq).2 with ⟨m, hm, hid, hc⟩
      rcases hkeep m hm with ⟨m2, hm2, hid2, hch2⟩
      exact ⟨m2, hm2, hid2.trans hid, hch2 ▸ hc⟩
    · intro n hn hn0
      rcases hcases n hn with ⟨m, hm, hid, _, _⟩
      rw [hid]
      exact hInv.parentComplete m hm (hid ▸ hn0)
    · intro n hn
      rcases hcases n hn with ⟨m, hm, hid, _, _⟩
      rw [hid]
      exact hInv.nidBound m hm

theorem treeInv_modifyNode_value {t : AstTree} (hInv : TreeInv t) (id0 : Nat) (v : NodeValue) :
    TreeInv (t.modifyNode id0 (fun n => { n with value := v })) :=
  treeInv_modifyNode_pres hInv id0 _ (fun _ => ⟨rfl, rfl, rfl⟩)

theorem treeInv_add_node_with_value {t : AstTree} (hInv : TreeInv t) (k : AstNodeKind)
    (lb : List Nat) (v : NodeValue) {p : Nat} {np : AstNode} (hp : t.get_node p = some np) :
    TreeInv (t.add_node_with_value k lb v p).2 := by
  have heq : (t.add_node_with_value k lb v p).2
      = (t.add_node k lb p).2.modifyNode (t.add_node k lb p).1
          (fun n => { n with value := v }) := rfl
  rw [heq]
  exact treeInv_modifyNode_value (treeInv_add_node hInv k lb hp) _ v

theorem child_gt_parent {t : AstTree} (hInv : TreeInv t) {n : AstNode} (hn : n ∈ t.nodes)
    {c : Nat} (hc : c ∈ n.children) : n.id < c := by
  have h1 := hInv.childParent n hn c hc
  have h2 := lookupA_mem h1
  exact (hInv.parentSound _ h2).1

theorem mem_collect_self (t : AstTree) (fuel id0 : Nat) :
    id0 ∈ t.collect_subtree fuel id0 := by
  cases fuel <;> simp [AstTree.collect_subtree]

theorem collect_subtree_ge {t : AstTree} (hInv : TreeInv t) :
    ∀ (fuel id0 : Nat), ∀ x ∈ t.collect_subtree fuel id0, id0 ≤ x := by
  intro fuel
  induction fuel with
  | zero =>
    intro id0 x hx
    simp only [AstTree.collect_subtree] at hx
    simp at hx
    omega
  | succ fuel ih =>
    intro id0 x hx
    simp only [AstTree.collect_subtree] at hx
    rcases List.mem_cons.mp hx with rfl | hx1
    · exact Nat.le_refl x
    · cases hg : t.get_node id0 with
      | none =>
        rw [hg] at hx1
        cases hx1
      | some n =>
        rw [hg] at hx1
        rcases mem_listFlatMap.mp hx1 with ⟨c, hc, hxc⟩
        rcases mem_of_get_node hInv hg with ⟨hm, hid⟩
        have hlt : id0 < c := hid ▸ child_gt_parent hInv hm hc
        have := ih c x hxc
        omega

theorem collect_subtree_mem_parent {t : AstTree} :
    ∀ (fuel id0 : Nat), ∀ x ∈ t.collect_subtree fuel id0, x ≠ id0 →
      ∃ y ∈ t.collect_subtree fuel id0, ∃ ny, t.get_node y = some ny ∧ x ∈ ny.children := by
  intro fuel
  induction fuel with
  | zero =>
    intro id0 x hx hne
    simp only [AstTree.collect_subtree] at hx
    simp at hx
    exact absurd hx hne
  | succ fuel ih =>
    intro id0 x hx hne
    simp only [AstTree.collect_subtree] at hx ⊢
    rcases List.mem_cons.mp hx with rfl | hx1
    · exact absurd rfl hne
    · cases hg : t.get_node id0 with
      | none =>
        rw [hg] at hx1
        cases hx1
      | some n =>
        rw [hg] at hx1
        rcases mem_listFlatMap.mp hx1 with ⟨c, hc, hxc⟩
        by_cases hxeq : x = c
        · exact ⟨id0, List.mem_cons_self _ _, n, hg, hxeq ▸ hc⟩
        · rcases ih c x hxc hxeq with ⟨y, hy, ny, hny, hxy⟩
          exact ⟨y, List.mem_cons_of_mem _ (mem_listFlatMap.mpr ⟨c, hc, hy⟩), ny, hny, hxy⟩

theorem countP_lt_of_mem {l : List Nat} {id0 c : Nat} (hmem : id0 ∈ l) (hlt : id0 < c) :
    l.countP (fun y => decide (c ≤ y)) < l.countP (fun y => decide (id0 ≤ y)) := by
  induction l with
  | nil => cases hmem
  | cons a l ih =>
    have hmono : l.countP (fun y => decide (c ≤ y)) ≤ l.countP (fun y => decide (id0 ≤ y)) :=
      List.countP_mono_left (fun y _ hy => by
        simp only [decide_eq_true_eq] at hy ⊢
        omega)
    simp only [List.countP_cons]
    have hca : decide (c ≤ a) = true → decide (id0 ≤ a) = true := by
      simp only [decide_eq_true_eq]
      omega
    rcases List.mem_cons.mp hmem with rfl | hm1
    · have h1 : decide (c ≤ id0) = false := by
        simp only [decide_eq_false_iff_not]
        omega
      have h2 : decide (id0 ≤ id0) = true := by simp
      rw [h1, h2, if_neg (by decide : ¬(false = true)), if_pos rfl]
      omega
    · have hi := ih hm1
      cases hda : decide (c ≤ a) with
      | false =>
        rw [if_neg (by decide : ¬(false = true))]
        cases hdb : decide (id0 ≤ a) with
        | false =>
          rw [if_neg (by decide : ¬(false = true))]
          omega
        | true =>
          rw [if_pos rfl]
          omega
      | true =>
        rw [hca hda]
        omega

theorem collect_subtree_closed {t : AstTree} (hInv : TreeInv t) :
    ∀ (fuel id0 : Nat),
      (liveIds t).countP (fun y => decide (id0 ≤ y)) ≤ fuel →
      ∀ x ∈ t.collect_subtree fuel id0, ∀ nx, t.get_node x = some nx →
        ∀ c ∈ nx.children, c ∈ t.collect_subtree fuel id0 := by
  intro fuel
  induction fuel with
  | zero =>
    intro id0 hbound x hx nx hnx c hc
    simp only [AstTree.collect_subtree] at hx
    simp at hx
    exfalso
    rw [hx] at hnx
    have hlive : id0 ∈ liveIds t := by
      rcases mem_of_get_node hInv hnx with ⟨hm, hid⟩
      exact List.mem_map.mpr ⟨nx, hm, hid⟩
    have hp : 0 < (liveIds t).countP (fun y => decide (id0 ≤ y)) :=
      List.countP_pos_iff.mpr ⟨id0, hlive, by simp⟩
    omega
  | succ fuel ih =>
    intro id0 hbound x hx nx hnx c hc
    simp only [AstTree.collect_subtree] at hx ⊢
    cases hg : t.get_node id0 with
    | none =>
      rw [hg] at hx
      simp only [List.mem_cons] at hx
      rcases hx with rfl | hx1
      · rw [hnx] at hg
        cases hg
      · cases hx1
    | some n0 =>
      rw [hg] at hx
      rcases List.mem_cons.mp hx with rfl | hx1
      · have hnn : nx = n0 := by
          rw [hnx] at hg
          injection hg
        subst hnn
        exact List.mem_cons_of_mem _ (mem_listFlatMap.mpr ⟨c, hc, mem_collect_self t fuel c⟩)
      · rcases mem_listFlatMap.mp hx1 with ⟨c0, hc0, hxc0⟩
        rcases mem_of_get_node hInv hg with ⟨hm0, hid0⟩
        have hlt : id0 < c0 := hid0 ▸ child_gt_parent hInv hm0 hc0
        have hlive : id0 ∈ liveIds t := List.mem_map.mpr ⟨n0, hm0, hid0⟩
        have hb2 : (liveIds t).countP (fun y => decide (c0 ≤ y)) ≤ fuel := by
          have := countP_lt_of_mem hlive hlt
          omega
        exact List.mem_cons_of_mem _
          (mem_listFlatMap.mpr ⟨c0, hc0, ih c0 hb2 x hxc0 nx hnx c hc⟩)

theorem lookupA_foldl_eraseA {κ α : Type} [DecidableEq κ] :
    ∀ (R : List κ) (m : List (κ × α)) (k : κ),
      lookupA (R.foldl (fun acc r => eraseA acc r) m) k
        = if k ∈ R then Option.none else lookupA m k := by
  intro R
  induction R with
  | nil =>
    intro m k
    simp
  | cons r R ih =>
    intro m k
    rw [List.foldl_cons, ih]
    by_cases hk : k = r
    · subst hk
      simp [lookupA_eraseA_self]
    · by_cases hkR : k ∈ R
      · simp [hkR]
      · rw [if_neg hkR, lookupA_eraseA_ne _ _ _ hk,
          if_neg (by simp only [List.mem_cons, not_or]; exact ⟨hk, hkR⟩)]

theorem mem_foldl_eraseA {κ α : Type} [DecidableEq κ] :
    ∀ (R : List κ) (m : List (κ × α)) (q : κ × α),
      q ∈ R.foldl (fun acc r => eraseA acc r) m → q ∈ m ∧ q.1 ∉ R := by
  intro R
  induction R with
  | nil =>
    intro m q h
    exact ⟨h, by simp⟩
  | cons r R ih =>
    intro m q h
    rw [List.foldl_cons] at h
    rcases ih (eraseA m r) q h with ⟨h1, h2⟩
    have h3 := List.mem_filter.mp h1
    refine ⟨h3.1, ?_⟩
    simp only [List.mem_cons, not_or]
    exact ⟨by simpa using h3.2, h2⟩

theorem rebuild_mem_sound (ns : List AstNode) :
    ∀ (i : Nat) (m : List (Nat × Nat)) (q : Nat × Nat),
      q ∈ rebuildIndexFrom i ns m →
      q ∈ m ∨ ∃ j nj, ns[j]? = some nj ∧ q.1 = nj.id ∧ q.2 = i + j := by
  induction ns with
  | nil =>
    intro i m q h
    exact Or.inl h
  | cons n ns ih =>
    intro i m q h
    rw [rebuildIndexFrom] at h
    rcases ih (i + 1) _ q h with h1 | ⟨j, nj, hj, hq1, hq2⟩
    · rcases List.mem_cons.mp h1 with rfl | h2
      · exact Or.inr ⟨0, n, by simp, rfl, by omega⟩
      · exact Or.inl (List.mem_filter.mp h2).1
    · exact Or.inr ⟨j + 1, nj, by simpa using hj, hq1, by omega⟩

theorem treeInv_remove_subtree {t : AstTree} (hInv : TreeInv t) {rid : Nat} {nr : AstNode}
    (hr : t.get_node rid = some nr) (hr0 : rid ≠ 0) :
    TreeInv (t.remove_subtree rid) := by
  obtain ⟨hmemr, hidr⟩ := mem_of_get_node hInv hr
  have hpcs : (lookupA t.parent_index rid).isSome = true := by
    have h := hInv.parentComplete nr hmemr (by rw [hidr]; exact hr0)
    rwa [hidr] at h
  obtain ⟨pid, hpid⟩ := Option.isSome_iff_exists.mp hpcs
  have hps := hInv.parentSound (rid, pid) (lookupA_mem hpid)
  dsimp only at hps
  obtain ⟨npid, hmempid, hidpid, hchpid⟩ := hps.2
  have hgetnpid : t.get_node pid = some npid := by
    rw [← hidpid]
    exact get_node_of_mem hInv hmempid
  obtain ⟨pcidx, hlkpid, hgetpid⟩ := get_node_elim hgetnpid
  have hpcidxlt : pcidx < t.nodes.length := getElem?_some_lt hgetpid
  set R : List Nat := t.collect_subtree t.nodes.length rid with hR
  set g : AstNode → AstNode :=
    fun n => { n with children := n.children.filter (fun c => decide (c ≠ rid)) } with hg
  set N1 : List AstNode := modifyIdx t.nodes pcidx g with hN1
  set N1f : List AstNode := N1.filter (fun n => !(R.contains n.id)) with hN1f
  set PI1 : List (Nat × Nat) :=
    R.foldl (fun m r => eraseA m r) t.parent_index with hPI1
  have hRrid : rid ∈ R := mem_collect_self t t.nodes.length rid
  have hRge : ∀ x ∈ R, rid ≤ x := collect_subtree_ge hInv t.nodes.length rid
  have hR0 : 0 ∉ R := fun h => by
    have := hRge 0 h
    omega
  have htop : (liveIds t).countP (fun y => decide (rid ≤ y)) ≤ t.nodes.length := by
    have h1 := List.countP_le_length (l := liveIds t) (p := fun y => decide (rid ≤ y))
    have h2 : (liveIds t).length = t.nodes.length := by simp [liveIds]
    omega
  have hRclosed : ∀ x ∈ R, ∀ nx, t.get_node x = some nx → ∀ c ∈ nx.children, c ∈ R :=
    collect_subtree_closed hInv t.nodes.length rid htop
  have hsurvive : ∀ (a c : Nat), lookupA t.parent_index c = some a → a ∉ R → c ≠ rid →
      c ∉ R := by
    intro a c hlk haR hcrid hcR
    rcases collect_subtree_mem_parent t.nodes.length rid c hcR hcrid with ⟨y, hyR, ny, hny, hcy⟩
    rcases mem_of_get_node hInv hny with ⟨hmy, hidy⟩
    have hcp := hInv.childParent ny hmy c hcy
    rw [hlk] at hcp
    injection hcp with he
    have hay : a = y := by rw [he, hidy]
    exact haR (by rw [hay]; exact hyR)
  have ht' : t.remove_subtree rid =
      { nodes := N1f
        index := rebuildIndexFrom 0 N1f []
        parent_index := PI1
        root_id := t.root_id
        next_id := t.next_id } := by
    unfold AstTree.remove_subtree AstTree.parent_of AstTree.modifyNode
    rw [hpid]
    dsimp only
    rw [hlkpid]
  rw [ht']
  have hmapid1 : N1.map AstNode.id = t.nodes.map AstNode.id :=
    modifyIdx_map_of_preserve AstNode.id g (fun a => rfl) t.nodes pcidx
  have hcases1 : ∀ n ∈ N1, n = g npid ∨ (n ∈ t.nodes ∧ n.id ≠ pid) := by
    intro n hn
    rcases List.mem_iff_getElem?.mp hn with ⟨j, hj⟩
    by_cases hjp : j = pcidx
    · subst hjp
      rw [hN1, modifyIdx_getElem?_self, hgetpid] at hj
      exact Or.inl (by injection hj with h; exact h.symm)
    · rw [hN1, modifyIdx_getElem?_ne _ _ _ _ hjp] at hj
      refine Or.inr ⟨List.getElem?_mem hj, fun hid => hjp ?_⟩
      have h1 : (t.nodes.map AstNode.id)[j]? = some pid := by
        rw [List.getElem?_map, hj]
        simp [hid]
      have h2 : (t.nodes.map AstNode.id)[pcidx]? = some pid := by
        rw [List.getElem?_map, hgetpid]
        simp [hidpid]
      have hlt2 : j < (t.nodes.map AstNode.id).length := by
        simpa using getElem?_some_lt hj
      exact List.getElem?_inj hlt2 (liveIds_nodup hInv) (h1.trans h2.symm)
  have hkeep1 : ∀ m ∈ t.nodes, ∃ m2 ∈ N1, m2.id = m.id ∧ m2.kind = m.kind ∧
      (∀ c ∈ m.children, c ≠ rid → c ∈ m2.children) ∧ m2.children ⊆ m.children := by
    intro m hm
    rcases List.mem_iff_getElem?.mp hm with ⟨j, hj⟩
    by_cases hjp : j = pcidx
    · subst hjp
      have hmnp : m = npid := by
        rw [hj] at hgetpid
        injection hgetpid
      subst hmnp
      have hx : N1[j]? = some (g m) := by
        rw [hN1, modifyIdx_getElem?_self, hj]
        rfl
      refine ⟨g m, List.getElem?_mem hx, rfl, rfl, ?_, ?_⟩
      · intro c hc hcr
        exact List.mem_filter.mpr ⟨hc, by simpa using hcr⟩
      · exact fun x hx => (List.mem_filter.mp hx).1
    · have hx : N1[j]? = some m := by
        rw [hN1, modifyIdx_getElem?_ne _ _ _ _ hjp, hj]
      exact ⟨m, List.getElem?_mem hx, rfl, rfl, fun c hc _ => hc, List.Subset.refl _⟩
  have hcontains : ∀ a : Nat, (!(R.contains a)) = true ↔ a ∉ R := by
    intro a
    simp
  have hmemf : ∀ n : AstNode, n ∈ N1f ↔ n ∈ N1 ∧ n.id ∉ R := by
    intro n
    rw [hN1f, List.mem_filter, hcontains]
  have hnorid : ∀ n ∈ N1, rid ∉ n.children := by
    intro n hn hc
    rcases hcases1 n hn with rfl | ⟨hmem, hne⟩
    · have := List.mem_filter.mp hc
      simp at this
    · have hcp := hInv.childParent n hmem rid hc
      rw [hpid] at hcp
      injection hcp with he
      exact hne he.symm
  have hold1 : ∀ n ∈ N1, ∃ m ∈ t.nodes, n.id = m.id ∧ n.kind = m.kind ∧
      n.children ⊆ m.children := by
    intro n hn
    rcases hcases1 n hn with rfl | ⟨hmem, _⟩
    · exact ⟨npid, hmempid, rfl, rfl, fun x hx => (List.mem_filter.mp hx).1⟩
    · exact ⟨n, hmem, rfl, rfl, List.Subset.refl _⟩
  have hchildout : ∀ n ∈ N1f, ∀ c ∈ n.children, c ∉ R := by
    intro n hn c hc
    rcases (hmemf n).mp hn with ⟨hn1, hnR⟩
    rcases hold1 n hn1 with ⟨m, hm, hid, _, hsub⟩
    have hcp := hInv.childParent m hm c (hsub hc)
    exact hsurvive m.id c hcp (hid ▸ hnR) (fun he => hnorid n hn1 (he ▸ hc))
  have hmapf : N1f.map AstNode.id
      = (t.nodes.map AstNode.id).filter (fun i => !(R.contains i)) := by
    rw [hN1f, ← hmapid1]
    exact (@List.filter_map AstNode Nat (fun i => !(R.contains i)) AstNode.id N1).symm
  have hnodupf : (N1f.map AstNode.id).Nodup := by
    rw [hmapf]
    exact (liveIds_nodup hInv).filter _
  have hlivef : ∀ (a : Nat), a ∉ R → (∃ m ∈ t.nodes, m.id = a) → ∃ m2 ∈ N1f, m2.id = a := by
    rintro a haR ⟨m, hm, rfl⟩
    rcases hkeep1 m hm with ⟨m2, hm2, hid2, _, _, _⟩
    exact ⟨m2, (hmemf m2).mpr ⟨hm2, hid2 ▸ haR⟩, hid2⟩
  refine ⟨hInv.root0, ?_, ?_, ?_, ?_, ?_, ?_, ?_, ?_, ?_, ?_⟩
  · show N1f.countP (fun n => decide (n.id = 0)) = 1
    have h1 : N1f.countP (fun n => decide (n.id = 0))
        = (N1f.map AstNode.id).countP (fun i => decide (i = 0)) := by
      rw [List.countP_map]
      rfl
    have h2 : t.nodes.countP (fun n => decide (n.id = 0))
        = (t.nodes.map AstNode.id).countP (fun i => decide (i = 0)) := by
      rw [List.countP_map]
      rfl
    have hc0 : R.contains 0 = false := by
      simp [hR0]
    have h3 : ∀ a : Nat, (decide (a = 0) && !(R.contains a)) = decide (a = 0) := by
      intro a
      by_cases ha : a = 0
      · subst ha
        rw [hc0]
        rfl
      · simp [ha]
    rw [h1, hmapf, List.countP_filter]
    calc (t.nodes.map AstNode.id).countP (fun a => decide (a = 0) && !(R.contains a))
        = (t.nodes.map AstNode.id).countP (fun a => decide (a = 0)) := by
          apply List.countP_congr
          intro a _
          rw [h3]
      _ = 1 := by rw [← h2, hInv.rootCount]
  · intro n hn hn0
    rcases (hmemf n).mp hn with ⟨hn1, _⟩
    rcases hold1 n hn1 with ⟨m, hm, hid, hk, _⟩
    rw [hk]
    exact hInv.rootKind m hm (hid ▸ hn0)
  · intro q hq
    rcases rebuild_mem_sound N1f 0 [] q hq with h | ⟨j, nj, hj, hq1, hq2⟩
    · cases h
    · rw [hq1, hq2, Nat.zero_add, hj]
      rfl
  · intro i
    have := rebuild_lookup_get N1f 0 [] hnodupf i
    simpa using this
  · intro n hn c hc
    have hcR : c ∉ R := hchildout n hn c hc
    rcases (hmemf n).mp hn with ⟨hn1, _⟩
    rcases hold1 n hn1 with ⟨m, hm, _, _, hsub⟩
    exact hlivef c hcR (hInv.childLive m hm c (hsub hc))
  · intro n hn c hc
    have hcR : c ∉ R := hchildout n hn c hc
    rcases (hmemf n).mp hn with ⟨hn1, _⟩
    rcases hold1 n hn1 with ⟨m, hm, hid, _, hsub⟩
    rw [hPI1, lookupA_foldl_eraseA, if_neg hcR, hid]
    exact hInv.childParent m hm c (hsub hc)
  · intro n hn
    rcases (hmemf n).mp hn with ⟨hn1, _⟩
    rcases hcases1 n hn1 with rfl | ⟨hmem, _⟩
    · exact (hInv.childNodup npid hmempid).filter _
    · exact hInv.childNodup n hmem
  · intro q hq
    rcases mem_foldl_eraseA R t.parent_index q hq with ⟨hq1, hq2⟩
    have hold := hInv.parentSound q hq1
    refine ⟨hold.1, ?_⟩
    rcases hold.2 with ⟨m, hm, hmid, hmc⟩
    have hq2R : q.2 ∉ R := by
      intro hin
      have hgm : t.get_node q.2 = some m := by
        rw [← hmid]
        exact get_node_of_mem hInv hm
      exact hq2 (hRclosed q.2 hin m hgm q.1 hmc)
    rcases hkeep1 m hm with ⟨m2, hm2, hid2, _, hkc, _⟩
    refine ⟨m2, (hmemf m2).mpr ⟨hm2, hid2 ▸ hmid ▸ hq2R⟩, hid2.trans hmid, ?_⟩
    exact hkc q.1 hmc (fun he => hq2 (he ▸ hRrid))
  · intro n hn hn0
    rcases (hmemf n).mp hn with ⟨hn1, hnR⟩
    rcases hold1 n hn1 with ⟨m, hm, hid, _, _⟩
    rw [hPI1, lookupA_foldl_eraseA, if_neg hnR, hid]
    exact hInv.parentComplete m hm (hid ▸ hn0)
  · intro n hn
    rcases (hmemf n).mp hn with ⟨hn1, _⟩
    rcases hold1 n hn1 with ⟨m, hm, hid, _, _⟩
    rw [hid]
    exact hInv.nidBound m hm

/-- The trees reachable from `AstTree::new` by well-targeted editing calls:
`add_node` and `add_node_with_value` under a parent id that resolves to an
existing node, and `remove_subtree` of an id that resolves to an existing
node other than the root. -/
inductive Built : AstTree → Prop
  | new : Built AstTree.new
  | add (t : AstTree) (k : AstNodeKind) (lb : List Nat) (p : Nat) :
      Built t → (t.get_node p).isSome = true → Built (t.add_node k lb p).2
  | addv (t : AstTree) (k : AstNodeKind) (lb : List Nat) (v : NodeValue) (p : Nat) :
      Built t → (t.get_node p).isSome = true → Built (t.add_node_with_value k lb v p).2
  | remove (t : AstTree) (id0 : Nat) :
      Built t → (t.get_node id0).isSome = true → id0 ≠ 0 → Built (t.remove_subtree id0)

/-- Claim C5 (amended): starting from `AstTree::new`, after any sequence of
`add_node`/`add_node_with_value` calls whose parent id resolves to an
existing node and `remove_subtree` calls whose target id resolves to an
existing node other than the root, the invariants I1-I5 hold.  Dropping the
restrictions falsifies the claim: `add_node` under an absent parent creates
an orphan violating I3, and `remove_subtree(0)` deletes the root violating
I1. -/
theorem built_tree_invariants (t : AstTree) (h : Built t) : TreeInv t := by
  induction h with
  | new => exact treeInv_new
  | add t k lb p _ hp ih =>
    obtain ⟨np, hnp⟩ := Option.isSome_iff_exists.mp hp
    exact treeInv_add_node ih k lb hnp
  | addv t k lb v p _ hp ih =>
    obtain ⟨np, hnp⟩ := Option.isSome_iff_exists.mp hp
    exact treeInv_add_node_with_value ih k lb v hnp
  | remove t id0 _ hid hne ih =>
    obtain ⟨nx, hnx⟩ := Option.isSome_iff_exists.mp hid
    exact treeInv_remove_subtree ih hnx hne

/-- Witness for C5: add a primitive under the root, add a parameter with a
value under the primitive, then remove the primitive subtree; the resulting
tree satisfies the invariants. -/
theorem built_tree_invariants_witness :
    TreeInv (((AstTree.new.add_node AstNodeKind.Primitive [115] 0).2.add_node_with_value
        AstNodeKind.Parameter [114] (NodeValue.int 2) 1).2.remove_subtree 1) :=
  built_tree_invariants _
    (Built.remove _ 1
      (Built.addv _ AstNodeKind.Parameter [114] (NodeValue.int 2) 1
        (Built.add _ AstNodeKind.Primitive [115] 0 Built.new (by decide)) (by decide))
      (by decide) (by decide))

/-! ### Claim C7: the garbage-collection postconditions -/

/-- Reachability through the parent DAG as walked by `mark` : a root that is
present in the store is reachable, and a present parent of a reachable hash
is reachable. -/
inductive GcReach (store : SnapshotStore) (roots : List Nat) : Nat → Prop
  | root (h : Nat) : h ∈ roots → store.containsH h = true → GcReach store roots h
  | parent (h p : Nat) (ps : List Nat) : GcReach store roots h →
      store.parentsOf h = some ps → p ∈ ps → store.containsH p = true →
      GcReach store roots p

theorem gcReach_contains {store : SnapshotStore} {roots : List Nat} {x : Nat}
    (h : GcReach store roots x) : store.containsH x = true := by
  cases h with
  | root _ _ hc => exact hc
  | parent _ _ _ _ _ _ hc => exact hc

theorem all_hashes_contains {store : SnapshotStore} {h : Nat}
    (hm : h ∈ store.all_hashes) : store.containsH h = true := by
  rcases List.mem_map.mp hm with ⟨e, he, rfl⟩
  unfold SnapshotStore.containsH lookupA
  rw [Option.isSome_map']
  exact List.find?_isSome.mpr ⟨e, he, by simp⟩

theorem foldl_markStep_spec (store : SnapshotStore) :
    ∀ (ps : List Nat) (rq : List Nat × List Nat),
      (∀ x ∈ rq.2, x ∈ rq.1) →
      (∀ x ∈ rq.1, x ∈ (ps.foldl (markStep store) rq).1)
      ∧ (∀ x ∈ rq.2, x ∈ (ps.foldl (markStep store) rq).2)
      ∧ (∀ x ∈ (ps.foldl (markStep store) rq).2, x ∈ (ps.foldl (markStep store) rq).1)
      ∧ (∀ x ∈ (ps.foldl (markStep store) rq).1,
          x ∈ rq.1 ∨ (x ∈ ps ∧ store.containsH x = true
            ∧ x ∈ (ps.foldl (markStep store) rq).2))
      ∧ (∀ p ∈ ps, store.containsH p = true → p ∈ (ps.foldl (markStep store) rq).1) := by
  intro ps
  induction ps with
  | nil =>
    intro rq hS
    refine ⟨fun x hx => hx, fun x hx => hx, hS, fun x hx => Or.inl hx, ?_⟩
    intro p hp
    cases hp
  | cons p ps ih =>
    intro rq hS
    simp only [List.foldl_cons]
    by_cases hc : store.containsH p = true ∧ p ∉ rq.1
    · have hstep : markStep store rq p = (rq.1 ++ [p], p :: rq.2) := by
        unfold markStep
        rw [if_pos ⟨by rw [hc.1], hc.2⟩]
      rw [hstep]
      have hS2 : ∀ x ∈ ((rq.1 ++ [p], p :: rq.2) : List Nat × List Nat).2,
          x ∈ ((rq.1 ++ [p], p :: rq.2) : List Nat × List Nat).1 := by
        intro x hx
        rcases List.mem_cons.mp hx with rfl | hx1
        · exact List.mem_append.mpr (Or.inr (List.mem_singleton.mpr rfl))
        · exact List.mem_append.mpr (Or.inl (hS x hx1))
      obtain ⟨m1, m2, m3, m4, m5⟩ := ih (rq.1 ++ [p], p :: rq.2) hS2
      refine ⟨?_, ?_, m3, ?_, ?_⟩
      · intro x hx
        exact m1 x (List.mem_append.mpr (Or.inl hx))
      · intro x hx
        exact m2 x (List.mem_cons_of_mem _ hx)
      · intro x hx
        rcases m4 x hx with hx1 | ⟨hxp, hxc, hxq⟩
        · rcases List.mem_append.mp hx1 with hx2 | hx2
          · exact Or.inl hx2
          · have hxep : x = p := List.mem_singleton.mp hx2
            subst hxep
            exact Or.inr ⟨List.mem_cons_self _ _, hc.1,
              m2 x (List.mem_cons_self _ _)⟩
        · exact Or.inr ⟨List.mem_cons_of_mem _ hxp, hxc, hxq⟩
      · intro p0 hp0 hcp0
        rcases List.mem_cons.mp hp0 with rfl | hp1
        · exact m1 p0 (List.mem_append.mpr (Or.inr (List.mem_singleton.mpr rfl)))
        · exact m5 p0 hp1 hcp0
    · have hstep : markStep store rq p = rq := by
        unfold markStep
        rw [if_neg (fun hcon => hc ⟨hcon.1, hcon.2⟩)]
      rw [hstep]
      obtain ⟨m1, m2, m3, m4, m5⟩ := ih rq hS
      refine ⟨m1, m2, m3, ?_, ?_⟩
      · intro x hx
        rcases m4 x hx with hx1 | ⟨hxp, hxc, hxq⟩
        · exact Or.inl hx1
        · exact Or.inr ⟨List.mem_cons_of_mem _ hxp, hxc, hxq⟩
      · intro p0 hp0 hcp0
        rcases List.mem_cons.mp hp0 with rfl | hp1
        · have hpin : p0 ∈ rq.1 := by
            by_contra hno
            exact hc ⟨hcp0, hno⟩
          exact m1 p0 hpin
        · exact m5 p0 hp1 hcp0

theorem markLoop_spec (store : SnapshotStore) (roots : List Nat) :
    ∀ (r q : List Nat),
      ((∀ x ∈ r, GcReach store roots x) ∧
       (∀ x ∈ q, x ∈ r) ∧
       (∀ x ∈ r, x ∉ q → ∀ ps, store.parentsOf x = some ps →
          ∀ p ∈ ps, store.containsH p = true → p ∈ r)) →
      ((∀ x ∈ r, x ∈ markLoop store r q)
       ∧ (∀ x ∈ markLoop store r q, GcReach store roots x)
       ∧ (∀ x ∈ markLoop store r q, ∀ ps, store.parentsOf x = some ps →
            ∀ p ∈ ps, store.containsH p = true → p ∈ markLoop store r q)) := by
  intro r q
  induction r, q using markLoop.induct store with
  | case1 r =>
    intro ⟨hsound, _, hclosed⟩
    rw [markLoop]
    exact ⟨fun x hx => hx, hsound, fun x hx ps hps p hp hcp =>
      hclosed x hx (by simp) ps hps p hp hcp⟩
  | case2 r h rest hnone ih =>
    intro ⟨hsound, hsub, hclosed⟩
    have heq : markLoop store r (h :: rest) = markLoop store r rest := by
      rw [markLoop.eq_def]
      simp only []
      rw [hnone]
    rw [heq]
    apply ih
    refine ⟨hsound, fun x hx => hsub x (List.mem_cons_of_mem _ hx), ?_⟩
    intro x hx hxq ps hps p hp hcp
    by_cases hxh : x = h
    · rw [hxh, hnone] at hps
      cases hps
    · exact hclosed x hx (by
        simp only [List.mem_cons, not_or]
        exact ⟨hxh, hxq⟩) ps hps p hp hcp
  | case3 r h rest ps hsome rq ih =>
    intro ⟨hsound, hsub, hclosed⟩
    have heq : markLoop store r (h :: rest)
        = markLoop store (ps.foldl (markStep store) (r, rest)).1
            (ps.foldl (markStep store) (r, rest)).2 := by
      rw [markLoop.eq_def]
      simp only []
      rw [hsome]
    have hrestr : ∀ x ∈ ((r, rest) : List Nat × List Nat).2,
        x ∈ ((r, rest) : List Nat × List Nat).1 :=
      fun x hx => hsub x (List.mem_cons_of_mem _ hx)
    obtain ⟨m1, m2, m3, m4, m5⟩ := foldl_markStep_spec store ps (r, rest) hrestr
    have hhr : h ∈ r := hsub h (List.mem_cons_self _ _)
    have hreach_h : GcReach store roots h := hsound h hhr
    have hinv2 : (∀ x ∈ (ps.foldl (markStep store) (r, rest)).1, GcReach store roots x) ∧
        (∀ x ∈ (ps.foldl (markStep store) (r, rest)).2,
          x ∈ (ps.foldl (markStep store) (r, rest)).1) ∧
        (∀ x ∈ (ps.foldl (markStep store) (r, rest)).1,
          x ∉ (ps.foldl (markStep store) (r, rest)).2 →
          ∀ ps2, store.parentsOf x = some ps2 →
          ∀ p ∈ ps2, store.containsH p = true →
            p ∈ (ps.foldl (markStep store) (r, rest)).1) := by
      refine ⟨?_, m3, ?_⟩
      · intro x hx
        rcases m4 x hx with hx1 | ⟨hxp, hxc, _⟩
        · exact hsound x hx1
        · exact GcReach.parent h x ps hreach_h hsome hxp hxc
      · intro x hx hxq ps2 hps2 p hp hcp
        rcases m4 x hx with hx1 | ⟨_, _, hxq2⟩
        · by_cases hxh : x = h
          · rw [hxh, hsome] at hps2
            injection hps2 with hpse
            subst hpse
            exact m5 p hp hcp
          · have hxrest : x ∉ rest := fun hr2 => hxq (m2 x hr2)
            exact m1 p (hclosed x hx1 (by
              simp only [List.mem_cons, not_or]
              exact ⟨hxh, hxrest⟩) ps2 hps2 p hp hcp)
        · exact absurd hxq2 hxq
    obtain ⟨c1, c2, c3⟩ := ih hinv2
    rw [heq]
    exact ⟨fun x hx => c1 x (m1 x hx), c2, c3⟩

/-- Soundness and completeness of `mark` : the marked hashes are exactly
those reachable from a present root through present parents. -/
theorem mark_spec (store : SnapshotStore) (roots : List Nat) :
    (∀ x ∈ mark store roots, GcReach store roots x)
    ∧ (∀ x, GcReach store roots x → x ∈ mark store roots) := by
  have hnil : ∀ x ∈ (([], []) : List Nat × List Nat).2,
      x ∈ (([], []) : List Nat × List Nat).1 := by
    intro x hx
    cases hx
  obtain ⟨m1, m2, m3, m4, m5⟩ := foldl_markStep_spec store roots ([], []) hnil
  have hinv : (∀ x ∈ (roots.foldl (markStep store) ([], [])).1, GcReach store roots x) ∧
      (∀ x ∈ (roots.foldl (markStep store) ([], [])).2,
        x ∈ (roots.foldl (markStep store) ([], [])).1) ∧
      (∀ x ∈ (roots.foldl (markStep store) ([], [])).1,
        x ∉ (roots.foldl (markStep store) ([], [])).2 →
        ∀ ps, store.parentsOf x = some ps →
        ∀ p ∈ ps, store.containsH p = true →
          p ∈ (roots.foldl (markStep store) ([], [])).1) := by
    refine ⟨?_, m3, ?_⟩
    · intro x hx
      rcases m4 x hx with hx1 | ⟨hxr, hxc, _⟩
      · cases hx1
      · exact GcReach.root x hxr hxc
    · intro x hx hxq ps hps p hp hcp
      rcases m4 x hx with hx1 | ⟨_, _, hxq2⟩
      · cases hx1
      · exact absurd hxq2 hxq
  obtain ⟨c1, c2, c3⟩ := markLoop_spec store roots _ _ hinv
  constructor
  · exact c2
  · intro x hx
    induction hx with
    | root h hroot hcont => exact c1 h (m5 h hroot hcont)
    | parent h p ps hr hps hp hcp ih => exact c3 h ih ps hps p hp hcp

theorem sweep_lookup (reachable : List Nat) :
    ∀ (hs : List Nat) (acc : SnapshotStore × Nat) (x : Nat),
      lookupA ((hs.foldl (fun acc h =>
          if h ∈ reachable then acc else (acc.1.remove h, acc.2 + 1)) acc).1).snapshots x
        = if x ∈ hs ∧ x ∉ reachable then Option.none else lookupA acc.1.snapshots x := by
  intro hs
  induction hs with
  | nil =>
    intro acc x
    rw [List.foldl_nil, if_neg (fun hcon => by cases hcon.1)]
  | cons h hs ih =>
    intro acc x
    rw [List.foldl_cons, ih]
    by_cases hx : x ∈ hs ∧ x ∉ reachable
    · rw [if_pos hx, if_pos ⟨List.mem_cons_of_mem _ hx.1, hx.2⟩]
    · rw [if_neg hx]
      by_cases hhr : h ∈ reachable
      · rw [if_pos hhr, if_neg (fun hcon => ?_)]
        rcases List.mem_cons.mp hcon.1 with rfl | hx1
        · exact hcon.2 hhr
        · exact hx ⟨hx1, hcon.2⟩
      · rw [if_neg hhr]
        by_cases hxh : x = h
        · subst hxh
          rw [if_pos ⟨List.mem_cons_self _ _, hhr⟩]
          exact lookupA_eraseA_self _ _
        · rw [if_neg (fun hcon => ?_)]
          · exact lookupA_eraseA_ne _ _ _ hxh
          · rcases List.mem_cons.mp hcon.1 with he | hx1
            · exact hxh he
            · exact hx ⟨hx1, hcon.2⟩

theorem sweep_count_le (reachable : List Nat) :
    ∀ (hs : List Nat) (acc : SnapshotStore × Nat),
      (hs.foldl (fun acc h =>
          if h ∈ reachable then acc else (acc.1.remove h, acc.2 + 1)) acc).2
        ≤ acc.2 + hs.length := by
  intro hs
  induction hs with
  | nil =>
    intro acc
    simp
  | cons h hs ih =>
    intro acc
    by_cases hhr : h ∈ reachable
    · rw [List.foldl_cons, if_pos hhr]
      have := ih acc
      simp only [List.length_cons]
      omega
    · rw [List.foldl_cons, if_neg hhr]
      have h2 : (hs.foldl (fun acc h =>
          if h ∈ reachable then acc else (acc.1.remove h, acc.2 + 1))
            (acc.1.remove h, acc.2 + 1)).2 ≤ acc.2 + 1 + hs.length :=
        ih (acc.1.remove h, acc.2 + 1)
      simp only [List.length_cons]
      omega

theorem sweep_count_zero (reachable : List Nat) :
    ∀ (hs : List Nat) (acc : SnapshotStore × Nat), (∀ h ∈ hs, h ∈ reachable) →
      (hs.foldl (fun acc h =>
          if h ∈ reachable then acc else (acc.1.remove h, acc.2 + 1)) acc).2 = acc.2 := by
  intro hs
  induction hs with
  | nil =>
    intro acc _
    rfl
  | cons h hs ih =>
    intro acc hall
    rw [List.foldl_cons, if_pos (hall h (List.mem_cons_self _ _))]
    exact ih acc (fun x hx => hall x (List.mem_cons_of_mem _ hx))

theorem collect_garbage_containsH (store : SnapshotStore) (roots : List Nat) (x : Nat) :
    (collect_garbage store roots).2.containsH x
      = (store.containsH x && decide (x ∈ mark store roots)) := by
  have h1 : (collect_garbage store roots).2 = (store.all_hashes.foldl
      (fun acc h => if h ∈ mark store roots then acc else (acc.1.remove h, acc.2 + 1))
      (store, 0)).1 := rfl
  rw [h1]
  unfold SnapshotStore.containsH
  rw [sweep_lookup]
  by_cases hm : x ∈ mark store roots
  · rw [if_neg (fun hcon => hcon.2 hm), decide_eq_true hm, Bool.and_true]
  · by_cases hx : x ∈ store.all_hashes
    · rw [if_pos ⟨hx, hm⟩, decide_eq_false hm, Bool.and_false]
      rfl
    · rw [if_neg (fun hcon => hx hcon.1)]
      have hcf : (lookupA store.snapshots x).isSome = false := by
        cases hcc : (lookupA store.snapshots x).isSome with
        | false => rfl
        | true => exact absurd (contains_mem_all_hashes hcc) hx
      rw [hcf, Bool.false_and]

theorem collect_garbage_parentsOf (store : SnapshotStore) (roots : List Nat) {x : Nat}
    (hm : x ∈ mark store roots) :
    (collect_garbage store roots).2.parentsOf x = store.parentsOf x := by
  have h1 : (collect_garbage store roots).2 = (store.all_hashes.foldl
      (fun acc h => if h ∈ mark store roots then acc else (acc.1.remove h, acc.2 + 1))
      (store, 0)).1 := rfl
  rw [h1]
  unfold SnapshotStore.parentsOf
  rw [sweep_lookup, if_neg (fun hcon => hcon.2 hm)]

theorem gcReach_transfer (store : SnapshotStore) (roots : List Nat) {x : Nat}
    (h : GcReach store roots x) :
    GcReach (collect_garbage store roots).2 roots x := by
  induction h with
  | root h hroot hcont =>
    refine GcReach.root h hroot ?_
    rw [collect_garbage_containsH, hcont, Bool.true_and]
    exact decide_eq_true ((mark_spec store roots).2 h (GcReach.root h hroot hcont))
  | parent h p ps hr hps hp hcp ih =>
    refine GcReach.parent h p ps ih ?_ hp ?_
    · rw [collect_garbage_parentsOf store roots ((mark_spec store roots).2 h hr)]
      exact hps
    · rw [collect_garbage_containsH, hcp, Bool.true_and]
      exact decide_eq_true
        ((mark_spec store roots).2 p (GcReach.parent h p ps hr hps hp hcp))

theorem collect_garbage_conservation (store : SnapshotStore) (roots : List Nat) :
    (collect_garbage store roots).1.retained + (collect_garbage store roots).1.collected
      = (collect_garbage store roots).1.total_before := by
  have hfold : (store.all_hashes.foldl
      (fun acc h => if h ∈ mark store roots then acc else (acc.1.remove h, acc.2 + 1))
      (store, 0)).2 ≤ 0 + store.all_hashes.length :=
    sweep_count_le (mark store roots) store.all_hashes (store, 0)
  have h1 : (collect_garbage store roots).1.retained
      = store.all_hashes.length - (store.all_hashes.foldl
          (fun acc h => if h ∈ mark store roots then acc else (acc.1.remove h, acc.2 + 1))
          (store, 0)).2 := rfl
  have h2 : (collect_garbage store roots).1.collected
      = (store.all_hashes.foldl
          (fun acc h => if h ∈ mark store roots then acc else (acc.1.remove h, acc.2 + 1))
          (store, 0)).2 := rfl
  have h3 : (collect_garbage store roots).1.total_before = store.all_hashes.length := rfl
  rw [h1, h2, h3]
  omega

theorem collect_garbage_idem (store : SnapshotStore) (roots : List Nat) :
    (collect_garbage (collect_garbage store roots).2 roots).1.collected = 0 := by
  have hall : ∀ h ∈ (collect_garbage store roots).2.all_hashes,
      h ∈ mark (collect_garbage store roots).2 roots := by
    intro h hm
    have hc2 : (collect_garbage store roots).2.containsH h = true := all_hashes_contains hm
    have hreach : GcReach store roots h := by
      by_contra hno
      have hnm : h ∉ mark store roots := fun hmem => hno ((mark_spec store roots).1 h hmem)
      rw [collect_garbage_containsH, decide_eq_false hnm, Bool.and_false] at hc2
      cases hc2
    exact (mark_spec (collect_garbage store roots).2 roots).2 h
      (gcReach_transfer store roots hreach)
  have h1 : (collect_garbage (collect_garbage store roots).2 roots).1.collected
      = ((collect_garbage store roots).2.all_hashes.foldl
          (fun acc h => if h ∈ mark (collect_garbage store roots).2 roots then acc
            else (acc.1.remove h, acc.2 + 1)) ((collect_garbage store roots).2, 0)).2 := rfl
  rw [h1, sweep_count_zero _ _ _ hall]

/-- Claim C7: `collect_garbage` satisfies its postconditions — the counters
are conserved, the hashes reachable from a present root through present
parent links all remain, all other hashes are absent afterwards, and a
second run with the same roots collects nothing. -/
theorem collect_garbage_post (store : SnapshotStore) (roots : List Nat) :
    ((collect_garbage store roots).1.retained + (collect_garbage store roots).1.collected
        = (collect_garbage store roots).1.total_before)
    ∧ (∀ x, GcReach store roots x → (collect_garbage store roots).2.containsH x = true)
    ∧ (∀ x, ¬ GcReach store roots x → (collect_garbage store roots).2.containsH x = false)
    ∧ (collect_garbage (collect_garbage store roots).2 roots).1.collected = 0 := by
  refine ⟨collect_garbage_conservation store roots, ?_, ?_, collect_garbage_idem store roots⟩
  · intro x hx
    rw [collect_garbage_containsH, gcReach_contains hx, Bool.true_and]
    exact decide_eq_true ((mark_spec store roots).2 x hx)
  · intro x hx
    rw [collect_garbage_containsH]
    have hnm : x ∉ mark store roots := fun hm => hx ((mark_spec store roots).1 x hm)
    rw [decide_eq_false hnm, Bool.and_false]

/-! ### Claim C1: weak diff correctness -/

/-- The kind, label and child list of the node an id resolves to — the data
`shapeList` consumes. -/
def nodeCore (t : AstTree) (x : Nat) : Option (AstNodeKind × List Nat × List Nat) :=
  (t.get_node x).map (fun m => (m.kind, m.label, m.children))

theorem shapeList_congr_core {t t2 : AstTree} (X : Nat → Prop)
    (hcore : ∀ x, X x → nodeCore t x = nodeCore t2 x)
    (hclosed : ∀ x, X x → ∀ nx, t.get_node x = some nx → ∀ c ∈ nx.children, X c) :
    ∀ (fuel : Nat) (x : Nat), X x → shapeList t fuel x = shapeList t2 fuel x := by
  intro fuel
  induction fuel with
  | zero => intro x _; rfl
  | succ fuel ih =>
    intro x hx
    rw [shapeList, shapeList]
    have hc := hcore x hx
    unfold nodeCore at hc
    cases hg : t.get_node x with
    | none =>
      rw [hg] at hc
      cases hg2 : t2.get_node x with
      | none => rfl
      | some n2 =>
        rw [hg2] at hc
        cases hc
    | some n =>
      rw [hg] at hc
      cases hg2 : t2.get_node x with
      | none =>
        rw [hg2] at hc
        cases hc
      | some n2 =>
        rw [hg2] at hc
        simp only [Option.map_some'] at hc
        injection hc with hc
        have hk : n.kind = n2.kind := congrArg Prod.fst hc
        have hl : n.label = n2.label := congrArg (fun q => q.2.1) hc
        have hch : n.children = n2.children := congrArg (fun q => q.2.2) hc
        simp only
        rw [hk, hl, ← hch]
        congr 2
        rw [listFlatMap_eq_flatten_map, listFlatMap_eq_flatten_map]
        congr 1
        exact List.map_congr_left fun c hcm => ih c (hclosed x hx n hg c hcm)

/-- Count of live ids at least `x` : a fuel bound for shape extraction. -/
theorem shapeList_stable {t : AstTree} (hInv : TreeInv t) :
    ∀ (fuel x : Nat),
      (liveIds t).countP (fun y => decide (x ≤ y)) ≤ fuel →
      shapeList t fuel x = shapeList t (fuel + 1) x := by
  intro fuel
  induction fuel with
  | zero =>
    intro x hb
    cases hg : t.get_node x with
    | none => simp [shapeList, hg]
    | some n =>
      exfalso
      rcases mem_of_get_node hInv hg with ⟨hm, hid⟩
      have hlive : x ∈ liveIds t := List.mem_map.mpr ⟨n, hm, hid⟩
      have : 0 < (liveIds t).countP (fun y => decide (x ≤ y)) :=
        List.countP_pos_iff.mpr ⟨x, hlive, by simp⟩
      omega
  | succ fuel ih =>
    intro x hb
    rw [shapeList, shapeList]
    cases hg : t.get_node x with
    | none => rfl
    | some n =>
      simp only
      congr 2
      rw [listFlatMap_eq_flatten_map, listFlatMap_eq_flatten_map]
      congr 1
      refine List.map_congr_left fun c hcm => ?_
      rcases mem_of_get_node hInv hg with ⟨hm, hid⟩
      have hlt : x < c := hid ▸ child_gt_parent hInv hm hcm
      have hlive : x ∈ liveIds t := List.mem_map.mpr ⟨n, hm, hid⟩
      have hcb : (liveIds t).countP (fun y => decide (c ≤ y)) ≤ fuel := by
        have := countP_lt_of_mem hlive hlt
        omega
      exact ih c hcb

theorem shapeList_stable_ge {t : AstTree} (hInv : TreeInv t) (x : Nat) :
    ∀ (f1 f2 : Nat), t.nodes.length ≤ f1 → f1 ≤ f2 →
      shapeList t f1 x = shapeList t f2 x := by
  have hbase : ∀ f, t.nodes.length ≤ f →
      (liveIds t).countP (fun y => decide (x ≤ y)) ≤ f := by
    intro f hf
    have h1 := List.countP_le_length (l := liveIds t) (p := fun y => decide (x ≤ y))
    have h2 : (liveIds t).length = t.nodes.length := by simp [liveIds]
    omega
  intro f1 f2 h1 h12
  induction f2 with
  | zero =>
    have : f1 = 0 := by omega
    rw [this]
  | succ f2 ih =>
    by_cases he : f1 = f2 + 1
    · rw [he]
    · have hle : f1 ≤ f2 := by omega
      rw [ih hle]
      exact shapeList_stable hInv f2 x (by
        have := hbase f1 h1
        have h3 := List.countP_le_length (l := liveIds t) (p := fun y => decide (x ≤ y))
        have h4 : (liveIds t).length = t.nodes.length := by simp [liveIds]
        omega)

theorem shapeAt_eq_shapeList {t : AstTree} (hInv : TreeInv t) (x f : Nat)
    (hf : t.nodes.length ≤ f) : shapeAt t x = shapeList t f x := by
  unfold shapeAt
  by_cases hle : t.nodes.length + 1 ≤ f
  · exact shapeList_stable_ge hInv x (t.nodes.length + 1) f (by omega) hle
  · have : f = t.nodes.length := by omega
    rw [this]
    exact (shapeList_stable_ge hInv x t.nodes.length (t.nodes.length + 1) (by omega)
      (by omega)).symm

/-- Child-reachability: the transitive closure that `collect_subtree`
gathers when given enough fuel. -/
inductive ChildReach (t : AstTree) : Nat → Nat → Prop
  | refl (x : Nat) : ChildReach t x x
  | step (x y z : Nat) (ny : AstNode) : ChildReach t x y → t.get_node y = some ny →
      z ∈ ny.children → ChildReach t x z

theorem childReach_trans {t : AstTree} {a b c : Nat} (h1 : ChildReach t a b)
    (h2 : ChildReach t b c) : ChildReach t a c := by
  induction h2 with
  | refl => exact h1
  | step y z ny hr hy hz ih => exact ChildReach.step a y z ny ih hy hz

theorem childReach_le {t : AstTree} (hInv : TreeInv t) {a b : Nat}
    (h : ChildReach t a b) : a ≤ b := by
  induction h with
  | refl => exact Nat.le_refl _
  | step y z ny hr hy hz ih =>
    rcases mem_of_get_node hInv hy with ⟨hm, hid⟩
    have := child_gt_parent hInv hm hz
    omega

theorem collect_mem_childReach {t : AstTree} :
    ∀ (fuel x0 y : Nat), y ∈ t.collect_subtree fuel x0 → ChildReach t x0 y := by
  intro fuel
  induction fuel with
  | zero =>
    intro x0 y hy
    simp only [AstTree.collect_subtree] at hy
    simp at hy
    rw [hy]
    exact ChildReach.refl x0
  | succ fuel ih =>
    intro x0 y hy
    simp only [AstTree.collect_subtree] at hy
    rcases List.mem_cons.mp hy with rfl | hy1
    · exact ChildReach.refl y
    · cases hg : t.get_node x0 with
      | none =>
        rw [hg] at hy1
        cases hy1
      | some n =>
        rw [hg] at hy1
        rcases mem_listFlatMap.mp hy1 with ⟨c, hc, hyc⟩
        exact childReach_trans (ChildReach.step x0 x0 c n (ChildReach.refl x0) hg hc)
          (ih c y hyc)

theorem countP_le_len_live {t : AstTree} (x : Nat) :
    (liveIds t).countP (fun y => decide (x ≤ y)) ≤ t.nodes.length := by
  have h1 := List.countP_le_length (l := liveIds t) (p := fun y => decide (x ≤ y))
  have h2 : (liveIds t).length = t.nodes.length := by simp [liveIds]
  omega

theorem childReach_mem_collect {t : AstTree} (hInv : TreeInv t) {x0 y : Nat}
    (h : ChildReach t x0 y) :
    y ∈ t.collect_subtree t.nodes.length x0 := by
  induction h with
  | refl => exact mem_collect_self t _ _
  | step y z ny hr hy hz ih =>
    exact collect_subtree_closed hInv t.nodes.length _ (countP_le_len_live _) y ih ny hy z hz

theorem childReach_parent_step {t : AstTree} {a x : Nat}
    (h : ChildReach t a x) (hne : x ≠ a) :
    ∃ y ny, ChildReach t a y ∧ t.get_node y = some ny ∧ x ∈ ny.children := by
  cases h with
  | refl => exact absurd rfl hne
  | step y z ny hr hy hz => exact ⟨y, ny, hr, hy, hz⟩

theorem childReach_both {t : AstTree} (hInv : TreeInv t) :
    ∀ (x a b : Nat), ChildReach t a x → ChildReach t b x →
      ChildReach t a b ∨ ChildReach t b a := by
  intro x
  induction x using Nat.strong_induction_on with
  | _ x ih =>
    intro a b ha hb
    by_cases hxa : x = a
    · subst hxa
      exact Or.inr hb
    by_cases hxb : x = b
    · subst hxb
      exact Or.inl ha
    rcases childReach_parent_step ha hxa with ⟨y1, ny1, hr1, hy1, hc1⟩
    rcases childReach_parent_step hb hxb with ⟨y2, ny2, hr2, hy2, hc2⟩
    have he1 := hInv.childParent ny1 (mem_of_get_node hInv hy1).1 x hc1
    have he2 := hInv.childParent ny2 (mem_of_get_node hInv hy2).1 x hc2
    rw [he2] at he1
    injection he1 with he
    have hid1 : ny1.id = y1 := (mem_of_get_node hInv hy1).2
    have hid2 : ny2.id = y2 := (mem_of_get_node hInv hy2).2
    have hyy : y1 = y2 := by rw [← hid1, ← hid2, he]
    subst hyy
    have hylt : y1 < x := by
      have hgt := child_gt_parent hInv (mem_of_get_node hInv hy1).1 hc1
      rw [hid1] at hgt
      exact hgt
    exact ih y1 hylt a b hr1 hr2

theorem childReach_sib_aux {t : AstTree} (hInv : TreeInv t) {m : AstNode}
    (hm : m ∈ t.nodes) {c c2 : Nat} (hc : c ∈ m.children) (hc2 : c2 ∈ m.children)
    (hne : c ≠ c2) (h : ChildReach t c c2) : False := by
  rcases childReach_parent_step h (Ne.symm hne) with ⟨y, ny, hr, hy, hcy⟩
  have hpy := hInv.childParent ny (mem_of_get_node hInv hy).1 c2 hcy
  have hpm := hInv.childParent m hm c2 hc2
  rw [hpm] at hpy
  injection hpy with he
  have hley : c ≤ y := childReach_le hInv hr
  have hidy : ny.id = y := (mem_of_get_node hInv hy).2
  have hlt : m.id < c := child_gt_parent hInv hm hc
  have hme : m.id = y := by rw [he, hidy]
  omega

theorem sibling_desc_disjoint {t : AstTree} (hInv : TreeInv t) {m : AstNode}
    (hm : m ∈ t.nodes) {c c2 : Nat} (hc : c ∈ m.children) (hc2 : c2 ∈ m.children)
    (hne : c ≠ c2) :
    ∀ x, ChildReach t c x → ChildReach t c2 x → False := by
  intro x h1 h2
  rcases childReach_both hInv x c c2 h1 h2 with h | h
  · exact childReach_sib_aux hInv hm hc hc2 hne h
  · exact childReach_sib_aux hInv hm hc2 hc (Ne.symm hne) h

theorem childReach_live {t : AstTree} (hInv : TreeInv t) {o x : Nat} {no : AstNode}
    (ho : t.get_node o = some no) (h : ChildReach t o x) :
    ∃ m ∈ t.nodes, m.id = x := by
  cases h with
  | refl => exact ⟨no, (mem_of_get_node hInv ho).1, (mem_of_get_node hInv ho).2⟩
  | step y z ny hr hy hz =>
    rcases hInv.childLive ny (mem_of_get_node hInv hy).1 x hz with ⟨m2, hm2, hid2⟩
    exact ⟨m2, hm2, hid2⟩

/-- The kept (selected) elements of a child list under a boolean selection. -/
def keptOf : List Nat → List Bool → List Nat
  | c :: cs, true :: bs => c :: keptOf cs bs
  | _ :: cs, false :: bs => keptOf cs bs
  | _, _ => []

/-- The dropped (unselected) elements of a child list under a selection. -/
def dropOf : List Nat → List Bool → List Nat
  | _ :: cs, true :: bs => dropOf cs bs
  | c :: cs, false :: bs => c :: dropOf cs bs
  | _, _ => []

theorem keptOf_sublist : ∀ (cs : List Nat) (sel : List Bool), List.Sublist (keptOf cs sel) cs := by
  intro cs
  induction cs with
  | nil => intro sel; cases sel <;> exact List.Sublist.refl _
  | cons c cs ih =>
    intro sel
    cases sel with
    | nil => exact (List.nil_sublist _).trans (List.sublist_cons_self c cs)
    | cons b bs =>
      cases b with
      | false => exact (ih bs).cons c
      | true => exact (ih bs).cons₂ c

theorem dropOf_sublist : ∀ (cs : List Nat) (sel : List Bool), List.Sublist (dropOf cs sel) cs := by
  intro cs
  induction cs with
  | nil => intro sel; cases sel <;> exact List.Sublist.refl _
  | cons c cs ih =>
    intro sel
    cases sel with
    | nil => exact (List.nil_sublist _).trans (List.sublist_cons_self c cs)
    | cons b bs =>
      cases b with
      | false => exact (ih bs).cons₂ c
      | true => exact (ih bs).cons c

theorem keptOf_subset {cs : List Nat} {sel : List Bool} {a : Nat}
    (h : a ∈ keptOf cs sel) : a ∈ cs := (keptOf_sublist cs sel).subset h

theorem dropOf_subset {cs : List Nat} {sel : List Bool} {a : Nat}
    (h : a ∈ dropOf cs sel) : a ∈ cs := (dropOf_sublist cs sel).subset h

theorem kept_drop_disjoint :
    ∀ (cs : List Nat) (sel : List Bool), cs.Nodup →
      ∀ a ∈ keptOf cs sel, a ∉ dropOf cs sel := by
  intro cs
  induction cs with
  | nil => intro sel _ a ha; cases sel <;> cases ha
  | cons c cs ih =>
    intro sel hnd a ha
    cases sel with
    | nil => cases ha
    | cons b bs =>
      have hcn : c ∉ cs := (List.nodup_cons.mp hnd).1
      have hnd2 : cs.Nodup := (List.nodup_cons.mp hnd).2
      cases b with
      | true =>
        rcases List.mem_cons.mp ha with rfl | ha2
        · exact fun hd => hcn (dropOf_subset hd)
        · exact ih bs hnd2 a ha2
      | false =>
        intro hd
        rcases List.mem_cons.mp hd with rfl | hd2
        · exact hcn (keptOf_subset ha)
        · exact ih bs hnd2 a ha hd2

theorem firstUnmatched_none (new : AstTree) (k : AstNodeKind × List Nat) :
    ∀ (cs : List Nat) (ms : List Bool), (∀ c ∈ cs, keyOf new c ≠ some k) →
      firstUnmatched new cs ms k = Option.none := by
  intro cs
  induction cs with
  | nil => intro ms h; cases ms <;> rfl
  | cons c cs ih =>
    intro ms h
    cases ms with
    | nil => rfl
    | cons m ms =>
      rw [firstUnmatched]
      rw [show decide (keyOf new c = some k) = false from
        decide_eq_false (h c (List.mem_cons_self c cs))]
      rw [show (!m && false) = false from Bool.and_false _]
      rw [if_neg (by decide : ¬ (false = true))]
      rw [ih ms (fun c2 hc2 => h c2 (List.mem_cons_of_mem c hc2))]
      rfl

/-- The order-compatible skeleton premise of the amended weak-correctness
claim: both ids resolve, the kinds agree, and for some selection of the old
children the kept old children match the leading new children one-to-one in
order with equal `(kind, label)` keys, every dropped old child's key occurs
nowhere among the new children, and every trailing new child is a leaf of
the new tree. -/
def WeakOK (t1 t2 : AstTree) : Nat → Nat → Nat → Prop
  | 0, _, _ => False
  | fuel + 1, o, n =>
    match t1.get_node o, t2.get_node n with
    | some no, some nn =>
      no.kind = nn.kind ∧
      ∃ sel : List Bool,
        sel.length = no.children.length ∧
        (keptOf no.children sel).length ≤ nn.children.length ∧
        (∀ p ∈ (keptOf no.children sel).zip nn.children,
          keyOf t1 p.1 = keyOf t2 p.2 ∧ WeakOK t1 t2 fuel p.1 p.2) ∧
        (∀ d ∈ dropOf no.children sel, ∀ c ∈ nn.children, keyOf t1 d ≠ keyOf t2 c) ∧
        (∀ c ∈ nn.children.drop (keptOf no.children sel).length,
          match t2.get_node c with
          | some nc => nc.children = []
          | Option.none => False)
    | _, _ => False

theorem zip_take_len {α β : Type} :
    ∀ (l1 : List α) (l2 : List β), l1.zip (l2.take l1.length) = l1.zip l2 := by
  intro l1
  induction l1 with
  | nil => intro l2; rfl
  | cons a l1 ih =>
    intro l2
    cases l2 with
    | nil => rfl
    | cons b l2 =>
      simp only [List.length_cons, List.take_succ_cons, List.zip_cons_cons]
      rw [ih l2]

theorem matchLoop_diag_aux (t1 t2 : AstTree) (rec : Nat → Nat → List DiffOp) :
    ∀ (suf1 suf2 pre tail : List Nat),
      suf1.length = suf2.length →
      (∀ p ∈ suf1.zip suf2, ∃ k, keyOf t1 p.1 = some k ∧ keyOf t2 p.2 = some k) →
      matchLoop t1 t2 rec (pre ++ (suf2 ++ tail)) suf1
          (List.replicate pre.length true ++ List.replicate (suf2 ++ tail).length false)
        = (List.replicate suf1.length true,
           List.replicate (pre.length + suf2.length) true ++ List.replicate tail.length false,
           listFlatMap (fun p => rec p.1 p.2) (suf1.zip suf2)) := by
  intro suf1
  induction suf1 with
  | nil =>
    intro suf2 pre tail hlen hkeys
    have hs2 : suf2 = [] := List.eq_nil_of_length_eq_zero hlen.symm
    subst hs2
    simp [matchLoop, listFlatMap]
  | cons o1 suf1 ih =>
    intro suf2 pre tail hlen hkeys
    cases suf2 with
    | nil => simp at hlen
    | cons c2 suf2 =>
      obtain ⟨k, hk1, hk2⟩ := hkeys (o1, c2) (by simp)
      rw [matchLoop]
      rw [hk1]
      simp only []
      rw [show ((c2 :: suf2) ++ tail : List Nat) = c2 :: (suf2 ++ tail) from rfl]
      rw [show (c2 :: (suf2 ++ tail) : List Nat).length = (suf2 ++ tail).length + 1 from by
        simp]
      rw [List.replicate_succ]
      rw [firstUnmatched_mid t2 c2 k hk2 pre (suf2 ++ tail)]
      simp only []
      have hset : setTrue (List.replicate pre.length true
            ++ false :: List.replicate (suf2 ++ tail).length false) pre.length
          = List.replicate (pre.length + 1) true
            ++ List.replicate (suf2 ++ tail).length false := by
        rw [setTrue]
        have hm := modifyIdx_append_cons (List.replicate pre.length true) false
          (List.replicate (suf2 ++ tail).length false) (fun _ => true)
        rw [List.length_replicate] at hm
        rw [hm, List.replicate_succ']
        simp [List.append_assoc]
      rw [hset]
      rw [getD_append_cons pre c2 (suf2 ++ tail)]
      rw [show pre ++ c2 :: (suf2 ++ tail) = (pre ++ [c2]) ++ (suf2 ++ tail) from by simp]
      have hih := ih suf2 (pre ++ [c2]) tail (by simpa using hlen)
        (fun p hp => hkeys p (List.mem_cons_of_mem _ hp))
      rw [show (pre ++ [c2] : List Nat).length = pre.length + 1 from by simp] at hih
      rw [hih]
      rw [show pre.length + 1 + suf2.length = pre.length + (suf2.length + 1) from by omega]
      simp only [List.length_cons, List.replicate_succ, List.zip_cons_cons, listFlatMap]
      rfl

theorem insertsOf_skip_matched (t2 : AstTree) (parent : Nat) :
    ∀ (front tail : List Nat) (i : Nat),
      insertsOf t2 parent (front ++ tail)
          (List.replicate front.length true ++ List.replicate tail.length false) i
        = insertsOf t2 parent tail (List.replicate tail.length false) (i + front.length) := by
  intro front
  induction front with
  | nil =>
    intro tail i
    simp
  | cons c front ih =>
    intro tail i
    simp only [List.cons_append, List.length_cons, List.replicate_succ]
    rw [insertsOf]
    simp only [Bool.not_true, Bool.false_eq_true, if_false, List.nil_append]
    rw [ih tail (i + 1)]
    congr 1
    omega

theorem diff_subtree_script (t1 t2 : AstTree) (fuel o n : Nat)
    {no nn : AstNode} (hgo : t1.get_node o = some no) (hgn : t2.get_node n = some nn)
    (hlen : no.children.length ≤ nn.children.length)
    (hkeys : ∀ p ∈ no.children.zip nn.children,
      ∃ k, keyOf t1 p.1 = some k ∧ keyOf t2 p.2 = some k) :
    diff_subtree t1 t2 (fuel + 1) o n
      = (if no.label ≠ nn.label then [DiffOp.relabel o no.label nn.label] else [])
        ++ (if !nvEq no.value nn.value then [DiffOp.update o no.value nn.value] else [])
        ++ listFlatMap (fun p => diff_subtree t1 t2 fuel p.1 p.2)
            (no.children.zip nn.children)
        ++ insertsOf t2 o (nn.children.drop no.children.length)
            (List.replicate (nn.children.drop no.children.length).length false)
            no.children.length := by
  set td : List Nat := nn.children.take no.children.length with htdDef
  set dd : List Nat := nn.children.drop no.children.length with hddDef
  have hsplit : nn.children = td ++ dd := by
    rw [htdDef, hddDef, List.take_append_drop]
  have htklen : td.length = no.children.length := by
    rw [htdDef, List.length_take]
    omega
  have hzipfull : no.children.zip nn.children = no.children.zip td := by
    rw [← zip_take_len no.children nn.children, ← htdDef]
  have hml := matchLoop_diag_aux t1 t2 (fun a b => diff_subtree t1 t2 fuel a b)
    no.children td [] dd htklen.symm
    (by
      intro p hp
      rw [← hzipfull] at hp
      exact hkeys p hp)
  simp only [List.nil_append, List.length_nil, Nat.zero_add, List.replicate_zero] at hml
  rw [diff_subtree]
  rw [hgo, hgn]
  simp only []
  rw [hsplit, hml]
  simp only []
  rw [zip_replicate_true_filterMap]
  rw [insertsOf_skip_matched t2 o td dd 0]
  rw [htklen, Nat.zero_add]
  have hzip2 : no.children.zip (td ++ dd) = no.children.zip td := by
    rw [← hsplit]
    exact hzipfull
  rw [hzip2]
  simp

/-- The first pass of `diff_subtree` under a kept/dropped selection of the
old children: kept children match the leading new children positionally,
dropped children (whose keys occur nowhere among the new children) match
nothing, so the loop returns the selection as the per-old-child flags, a
fully-matched prefix of the new flags, and the kept pairs' scripts. -/
theorem matchLoop_sel_aux (t1 t2 : AstTree) (rec : Nat → Nat → List DiffOp) :
    ∀ (olds : List Nat) (sel : List Bool) (suf2 pre tail : List Nat),
      sel.length = olds.length →
      (keptOf olds sel).length = suf2.length →
      (∀ p ∈ (keptOf olds sel).zip suf2, ∃ k, keyOf t1 p.1 = some k ∧ keyOf t2 p.2 = some k) →
      (∀ d ∈ dropOf olds sel, ∀ c ∈ pre ++ (suf2 ++ tail), keyOf t1 d ≠ keyOf t2 c) →
      matchLoop t1 t2 rec (pre ++ (suf2 ++ tail)) olds
          (List.replicate pre.length true ++ List.replicate (suf2 ++ tail).length false)
        = (sel,
           List.replicate (pre.length + suf2.length) true ++ List.replicate tail.length false,
           listFlatMap (fun p => rec p.1 p.2) ((keptOf olds sel).zip suf2)) := by
  intro olds
  induction olds with
  | nil =>
    intro sel suf2 pre tail hsl hkl hkeys hdrop
    have hsel : sel = [] := List.eq_nil_of_length_eq_zero hsl
    subst hsel
    have hs2 : suf2 = [] := List.eq_nil_of_length_eq_zero hkl.symm
    subst hs2
    simp [matchLoop, listFlatMap]
  | cons oc olds ih =>
    intro sel suf2 pre tail hsl hkl hkeys hdrop
    cases sel with
    | nil => simp at hsl
    | cons b bs =>
      have hbl : bs.length = olds.length := by simpa using hsl
      cases b with
      | true =>
        cases suf2 with
        | nil => simp [keptOf] at hkl
        | cons c2 suf2 =>
          obtain ⟨k, hk1, hk2⟩ := hkeys (oc, c2) (by simp [keptOf])
          rw [matchLoop]
          rw [hk1]
          simp only []
          rw [show ((c2 :: suf2) ++ tail : List Nat) = c2 :: (suf2 ++ tail) from rfl]
          rw [show (c2 :: (suf2 ++ tail) : List Nat).length = (suf2 ++ tail).length + 1 from by
            simp]
          rw [List.replicate_succ]
          rw [firstUnmatched_mid t2 c2 k hk2 pre (suf2 ++ tail)]
          simp only []
          have hset : setTrue (List.replicate pre.length true
                ++ false :: List.replicate (suf2 ++ tail).length false) pre.length
              = List.replicate (pre.length + 1) true
                ++ List.replicate (suf2 ++ tail).length false := by
            rw [setTrue]
            have hm := modifyIdx_append_cons (List.replicate pre.length true) false
              (List.replicate (suf2 ++ tail).length false) (fun _ => true)
            rw [List.length_replicate] at hm
            rw [hm, List.replicate_succ']
            simp [List.append_assoc]
          rw [hset]
          rw [getD_append_cons pre c2 (suf2 ++ tail)]
          rw [show pre ++ c2 :: (suf2 ++ tail) = (pre ++ [c2]) ++ (suf2 ++ tail) from by simp]
          have hih := ih bs suf2 (pre ++ [c2]) tail hbl
            (by simpa [keptOf] using hkl)
            (fun p hp => hkeys p (List.mem_cons_of_mem (oc, c2) hp))
            (fun d hd c hc => hdrop d hd c (by
              rw [List.append_assoc] at hc
              exact hc))
          rw [show (pre ++ [c2] : List Nat).length = pre.length + 1 from by simp] at hih
          rw [hih]
          rw [show pre.length + 1 + suf2.length = pre.length + (suf2.length + 1) from by omega]
          simp only [List.length_cons, List.replicate_succ, List.zip_cons_cons, listFlatMap]
          rfl
      | false =>
        have hdoc := hdrop oc (by simp [dropOf])
        have hih := ih bs suf2 pre tail hbl hkl
          (fun p hp => hkeys p hp)
          (fun d hd c hc => hdrop d (List.mem_cons_of_mem oc hd) c hc)
        rw [matchLoop]
        cases hko : keyOf t1 oc with
        | none =>
          simp only []
          rw [hih]
          rfl
        | some k =>
          simp only []
          rw [firstUnmatched_none t2 k (pre ++ (suf2 ++ tail)) _
            (fun c hc he => hdoc c hc (by rw [hko, he]))]
          simp only []
          rw [hih]
          rfl

theorem zip_sel_filterMap_delete :
    ∀ (cs : List Nat) (sel : List Bool), sel.length = cs.length →
      (cs.zip sel).filterMap
          (fun cm => if cm.2 then Option.none else some (DiffOp.delete cm.1))
        = (dropOf cs sel).map DiffOp.delete := by
  intro cs
  induction cs with
  | nil =>
    intro sel h
    have hsel : sel = [] := List.eq_nil_of_length_eq_zero h
    subst hsel
    rfl
  | cons c cs ih =>
    intro sel h
    cases sel with
    | nil => simp at h
    | cons b bs =>
      have hbl : bs.length = cs.length := by simpa using h
      cases b with
      | true => simpa [List.zip_cons_cons, List.filterMap_cons] using ih bs hbl
      | false =>
        show DiffOp.delete c :: (cs.zip bs).filterMap
            (fun cm => if cm.2 then Option.none else some (DiffOp.delete cm.1))
          = DiffOp.delete c :: (dropOf cs bs).map DiffOp.delete
        exact congrArg (List.cons (DiffOp.delete c)) (ih bs hbl)

/-- The script of `diff_subtree` under a kept/dropped selection: the
relabel and update of the matched pair, the kept pairs' recursive scripts
in order, one `Delete` per dropped old child in order, and one `Insert`
per trailing new child. -/
theorem diff_subtree_script_sel (t1 t2 : AstTree) (fuel o n : Nat)
    {no nn : AstNode} (hgo : t1.get_node o = some no) (hgn : t2.get_node n = some nn)
    (sel : List Bool) (hsel : sel.length = no.children.length)
    (hlen : (keptOf no.children sel).length ≤ nn.children.length)
    (hkeys : ∀ p ∈ (keptOf no.children sel).zip nn.children,
      ∃ k, keyOf t1 p.1 = some k ∧ keyOf t2 p.2 = some k)
    (hdrop : ∀ d ∈ dropOf no.children sel, ∀ c ∈ nn.children, keyOf t1 d ≠ keyOf t2 c) :
    diff_subtree t1 t2 (fuel + 1) o n
      = (if no.label ≠ nn.label then [DiffOp.relabel o no.label nn.label] else [])
        ++ (if !nvEq no.value nn.value then [DiffOp.update o no.value nn.value] else [])
        ++ listFlatMap (fun p => diff_subtree t1 t2 fuel p.1 p.2)
            ((keptOf no.children sel).zip nn.children)
        ++ (dropOf no.children sel).map DiffOp.delete
        ++ insertsOf t2 o (nn.children.drop (keptOf no.children sel).length)
            (List.replicate (nn.children.drop (keptOf no.children sel).length).length false)
            (keptOf no.children sel).length := by
  set td : List Nat := nn.children.take (keptOf no.children sel).length with htdDef
  set dd : List Nat := nn.children.drop (keptOf no.children sel).length with hddDef
  have hsplit : nn.children = td ++ dd := by
    rw [htdDef, hddDef, List.take_append_drop]
  have htklen : td.length = (keptOf no.children sel).length := by
    rw [htdDef, List.length_take]
    omega
  have hzipfull : (keptOf no.children sel).zip nn.children = (keptOf no.children sel).zip td := by
    rw [← zip_take_len (keptOf no.children sel) nn.children, ← htdDef]
  have hml := matchLoop_sel_aux t1 t2 (fun a b => diff_subtree t1 t2 fuel a b)
    no.children sel td [] dd hsel htklen.symm
    (by
      intro p hp
      rw [← hzipfull] at hp
      exact hkeys p hp)
    (by
      intro d hd c hc
      refine hdrop d hd c ?_
      rw [hsplit]
      simpa using hc)
  simp only [List.nil_append, List.length_nil, Nat.zero_add, List.replicate_zero] at hml
  rw [diff_subtree]
  rw [hgo, hgn]
  simp only []
  rw [hsplit, hml]
  simp only []
  rw [zip_sel_filterMap_delete no.children sel hsel]
  rw [insertsOf_skip_matched t2 o td dd 0]
  rw [htklen, Nat.zero_add]
  have hzip2 : (keptOf no.children sel).zip (td ++ dd) = (keptOf no.children sel).zip td := by
    rw [← hsplit]
    exact hzipfull
  rw [hzip2]

theorem modifyNode_root (t : AstTree) (i : Nat) (f : AstNode → AstNode) :
    (t.modifyNode i f).root_id = t.root_id := by
  unfold AstTree.modifyNode
  split <;> rfl

theorem modifyNode_next (t : AstTree) (i : Nat) (f : AstNode → AstNode) :
    (t.modifyNode i f).next_id = t.next_id := by
  unfold AstTree.modifyNode
  split <;> rfl

theorem get_node_modifyNode_ne {t : AstTree} (hInv : TreeInv t) (i : Nat)
    (f : AstNode → AstNode) (x : Nat) (hne : x ≠ i) :
    (t.modifyNode i f).get_node x = t.get_node x := by
  unfold AstTree.modifyNode
  cases hl : lookupA t.index i with
  | none => rfl
  | some idx =>
    unfold AstTree.get_node
    simp only
    cases hx : lookupA t.index x with
    | none => rfl
    | some idx2 =>
      simp only []
      have hs1 := hInv.idxSound (i, idx) (lookupA_mem hl)
      have hs2 := hInv.idxSound (x, idx2) (lookupA_mem hx)
      dsimp only at hs1 hs2
      have hneidx : idx2 ≠ idx := by
        intro he
        rw [he] at hs2
        rw [hs2] at hs1
        injection hs1 with h
        exact hne h
      rw [modifyIdx_getElem?_ne _ _ _ _ hneidx]

theorem get_node_modifyNode_self {t : AstTree} (i : Nat)
    (f : AstNode → AstNode) {ni : AstNode} (hi : t.get_node i = some ni) :
    (t.modifyNode i f).get_node i = some (f ni) := by
  obtain ⟨idx, hl, hg⟩ := get_node_elim hi
  unfold AstTree.modifyNode
  rw [hl]
  unfold AstTree.get_node
  simp only
  rw [hl]
  simp only []
  rw [modifyIdx_getElem?_self, hg]
  rfl

theorem add_node_effect {t : AstTree} (hInv : TreeInv t) {p : Nat} {np : AstNode}
    (hp : t.get_node p = some np) (k : AstNodeKind) (lb : List Nat) :
    (t.add_node k lb p).1 = t.next_id
    ∧ (t.add_node k lb p).2.next_id = t.next_id + 1
    ∧ (t.add_node k lb p).2.root_id = t.root_id
    ∧ (t.add_node k lb p).2.get_node p
        = some { np with children := np.children ++ [t.next_id] }
    ∧ (t.add_node k lb p).2.get_node t.next_id
        = some ⟨t.next_id, k, lb, NodeValue.none, []⟩
    ∧ (∀ x, x ≠ p → x ≠ t.next_id → (t.add_node k lb p).2.get_node x = t.get_node x) := by
  obtain ⟨pidx, hlkp, hgetp⟩ := get_node_elim hp
  obtain ⟨hmemnp, hidnp⟩ := mem_of_get_node hInv hp
  have hpidxlt : pidx < t.nodes.length := getElem?_some_lt hgetp
  have hplt : p < t.next_id := hidnp ▸ hInv.nidBound np hmemnp
  have hpne : p ≠ t.next_id := Nat.ne_of_lt hplt
  have ht2 : (t.add_node k lb p).2 =
      { nodes := modifyIdx (t.nodes ++ [⟨t.next_id, k, lb, NodeValue.none, []⟩]) pidx
          (fun n => { n with children := n.children ++ [t.next_id] })
        index := insertA t.index t.next_id t.nodes.length
        parent_index := insertA t.parent_index t.next_id p
        root_id := t.root_id
        next_id := t.next_id + 1 } := by
    unfold AstTree.add_node AstTree.modifyNode
    dsimp only
    rw [lookupA_insertA_ne _ _ _ _ hpne, hlkp]
  have h1 : (t.add_node k lb p).1 = t.next_id := by
    unfold AstTree.add_node
    dsimp only
  refine ⟨h1, by rw [ht2], by rw [ht2], ?_, ?_, ?_⟩
  · rw [ht2]
    unfold AstTree.get_node
    simp only
    rw [lookupA_insertA_ne _ _ _ _ hpne, hlkp]
    simp only
    rw [modifyIdx_getElem?_self, List.getElem?_append_left hpidxlt, hgetp]
    rfl
  · rw [ht2]
    unfold AstTree.get_node
    simp only
    rw [lookupA_insertA_self]
    simp only
    rw [modifyIdx_getElem?_ne _ _ _ _ (Ne.symm (Nat.ne_of_lt hpidxlt)),
      List.getElem?_concat_length]
  · intro x hxp hxn
    rw [ht2]
    unfold AstTree.get_node
    simp only
    rw [lookupA_insertA_ne _ _ _ _ hxn]
    cases hx : lookupA t.index x with
    | none => rfl
    | some idx2 =>
      simp only
      have hs2 := hInv.idxSound (x, idx2) (lookupA_mem hx)
      have hs1 := hInv.idxSound (p, pidx) (lookupA_mem hlkp)
      have hneidx : idx2 ≠ pidx := by
        intro he
        rw [he] at hs2
        rw [hs2] at hs1
        injection hs1 with h
        exact hxp h
      have hlt2 : idx2 < t.nodes.length := by
        cases hxx : t.nodes[idx2]? with
        | none => rw [hxx] at hs2; cases hs2
        | some m => exact getElem?_some_lt hxx
      rw [modifyIdx_getElem?_ne _ _ _ _ hneidx, List.getElem?_append_left hlt2]

theorem insert_effect {t : AstTree} (hInv : TreeInv t) {p : Nat} {np : AstNode}
    (hp : t.get_node p = some np) (k : AstNodeKind) (lb : List Nat) (v : NodeValue) :
    TreeInv (t.add_node_with_value k lb v p).2
    ∧ (t.add_node_with_value k lb v p).2.next_id = t.next_id + 1
    ∧ (t.add_node_with_value k lb v p).2.root_id = t.root_id
    ∧ (t.add_node_with_value k lb v p).2.get_node p
        = some { np with children := np.children ++ [t.next_id] }
    ∧ (t.add_node_with_value k lb v p).2.get_node t.next_id
        = some ⟨t.next_id, k, lb, v, []⟩
    ∧ (∀ x, x ≠ p → x ≠ t.next_id →
        (t.add_node_with_value k lb v p).2.get_node x = t.get_node x) := by
  obtain ⟨h1, h2, h3, h4, h5, h6⟩ := add_node_effect hInv hp k lb
  have hpne : p ≠ t.next_id :=
    Nat.ne_of_lt ((mem_of_get_node hInv hp).2 ▸ hInv.nidBound np (mem_of_get_node hInv hp).1)
  have hInv2 : TreeInv (t.add_node k lb p).2 := treeInv_add_node hInv k lb hp
  have heq : (t.add_node_with_value k lb v p).2
      = (t.add_node k lb p).2.modifyNode (t.add_node k lb p).1
          (fun n => { n with value := v }) := rfl
  rw [heq, h1]
  refine ⟨treeInv_modifyNode_value hInv2 _ v, ?_, ?_, ?_, ?_, ?_⟩
  · rw [modifyNode_next, h2]
  · rw [modifyNode_root, h3]
  · rw [get_node_modifyNode_ne hInv2 _ _ _ hpne, h4]
  · rw [get_node_modifyNode_self _ _ h5]
  · intro x hxp hxn
    rw [get_node_modifyNode_ne hInv2 _ _ _ hxn, h6 x hxp hxn]

theorem apply_patch_append (t : AstTree) (a b : List DiffOp) :
    apply_patch t (a ++ b) = apply_patch (apply_patch t a) b := by
  unfold apply_patch
  rw [List.foldl_append]

theorem remove_subtree_root (t : AstTree) (i : Nat) :
    (t.remove_subtree i).root_id = t.root_id := by
  unfold AstTree.remove_subtree
  dsimp only
  cases hp : t.parent_of i
  · rfl
  · rw [modifyNode_root]

theorem remove_subtree_next (t : AstTree) (i : Nat) :
    (t.remove_subtree i).next_id = t.next_id := by
  unfold AstTree.remove_subtree
  dsimp only
  cases hp : t.parent_of i
  · rfl
  · rw [modifyNode_next]

theorem add_node_root_any (t : AstTree) (k : AstNodeKind) (lb : List Nat) (p : Nat) :
    (t.add_node k lb p).2.root_id = t.root_id := by
  unfold AstTree.add_node
  dsimp only
  rw [modifyNode_root]

theorem add_node_next_any (t : AstTree) (k : AstNodeKind) (lb : List Nat) (p : Nat) :
    (t.add_node k lb p).2.next_id = t.next_id + 1 := by
  unfold AstTree.add_node
  dsimp only
  rw [modifyNode_next]

theorem applyOne_root (t : AstTree) (op : DiffOp) : (applyOne t op).root_id = t.root_id := by
  cases op with
  | insert p i k lb v =>
    show ((t.add_node k lb p).2.modifyNode (t.add_node k lb p).1
      (fun n => { n with value := v })).root_id = t.root_id
    rw [modifyNode_root, add_node_root_any]
  | delete i => exact remove_subtree_root t i
  | update i o v => exact modifyNode_root t i _
  | relabel i o lb => exact modifyNode_root t i _
  | move i np ni =>
    show ((match t.parent_of i with
      | some op2 => t.modifyNode op2 (fun n =>
          { n with children := n.children.filter (fun c => decide (c ≠ i)) })
      | Option.none => t).modifyNode np
        (fun n => { n with children := n.children ++ [i] })).root_id = t.root_id
    rw [modifyNode_root]
    cases hp : t.parent_of i
    · rfl
    · rw [modifyNode_root]

theorem apply_patch_root (t : AstTree) (ops : List DiffOp) :
    (apply_patch t ops).root_id = t.root_id := by
  induction ops generalizing t with
  | nil => rfl
  | cons op ops ih =>
    show (apply_patch (applyOne t op) ops).root_id = t.root_id
    rw [ih (applyOne t op), applyOne_root]

/-! ### C1 : core-extraction and shape-transfer helpers -/

theorem core_some_elim {t : AstTree} {x : Nat} {k : AstNodeKind} {lb ch : List Nat}
    (h : nodeCore t x = some (k, lb, ch)) :
    ∃ m, t.get_node x = some m ∧ m.kind = k ∧ m.label = lb ∧ m.children = ch := by
  unfold nodeCore at h
  cases hg : t.get_node x with
  | none => rw [hg] at h; cases h
  | some m =>
    rw [hg] at h
    simp only [Option.map_some'] at h
    injection h with h
    injection h with h1 h2
    injection h2 with h2 h3
    exact ⟨m, rfl, h1, h2, h3⟩

theorem core_resolve {t t' : AstTree} {x : Nat} {m : AstNode}
    (hc : nodeCore t x = nodeCore t' x) (hm : t'.get_node x = some m) :
    ∃ m2, t.get_node x = some m2 ∧ m2.kind = m.kind ∧ m2.label = m.label
      ∧ m2.children = m.children := by
  apply core_some_elim
  rw [hc]
  unfold nodeCore
  rw [hm]
  rfl

theorem modifyNode_of_get_none {t : AstTree} (hInv : TreeInv t) {i : Nat}
    (hg : t.get_node i = Option.none) (f : AstNode → AstNode) :
    t.modifyNode i f = t := by
  unfold AstTree.modifyNode
  cases hl : lookupA t.index i with
  | none => rfl
  | some idx =>
    have hs := hInv.idxSound (i, idx) (lookupA_mem hl)
    dsimp only at hs
    unfold AstTree.get_node at hg
    rw [hl] at hg
    simp only [] at hg
    rw [hg] at hs
    simp at hs

theorem shapeList_of_core_leaf {t : AstTree} {x : Nat} {k : AstNodeKind} {lb : List Nat}
    (h : nodeCore t x = some (k, lb, [])) (f : Nat) :
    shapeList t (f + 1) x = [Shape.node k lb []] := by
  obtain ⟨m, hm, hk, hl, hc⟩ := core_some_elim h
  rw [shapeList, hm]
  simp only []
  rw [hk, hl, hc]
  rfl

theorem shapeList_zero_flat (t : AstTree) (l : List Nat) :
    listFlatMap (shapeList t 0) l = [] := by
  induction l with
  | nil => rfl
  | cons a l ih => simp only [listFlatMap, shapeList, List.nil_append]; exact ih

theorem listFlatMap_append {α β : Type} (f : α → List β) (a b : List α) :
    listFlatMap f (a ++ b) = listFlatMap f a ++ listFlatMap f b := by
  induction a with
  | nil => rfl
  | cons x a ih =>
    simp only [List.cons_append, listFlatMap]
    rw [List.append_assoc]
    exact congrArg (f x ++ .) ih

theorem flatMap_zip_congr {α β γ : Type} (f : α → List γ) (g : β → List γ) :
    ∀ (ps : List (α × β)), (∀ p ∈ ps, f p.1 = g p.2) →
    listFlatMap f (ps.map Prod.fst) = listFlatMap g (ps.map Prod.snd) := by
  intro ps
  induction ps with
  | nil => intro h; rfl
  | cons p rest ih =>
    intro h
    simp only [List.map_cons, listFlatMap]
    rw [h p (List.mem_cons_self p rest), ih (fun q hq => h q (List.mem_cons_of_mem p hq))]

theorem zip_map_snd {α β : Type} :
    ∀ (l1 : List α) (l2 : List β), (l1.zip l2).map Prod.snd = l2.take l1.length := by
  intro l1
  induction l1 with
  | nil => intro l2; rfl
  | cons a l1 ih =>
    intro l2
    cases l2 with
    | nil => rfl
    | cons b l2 =>
      simp only [List.zip_cons_cons, List.map_cons, List.length_cons, List.take_succ_cons]
      rw [ih l2]

theorem weakOK_resolve {t1 t2 : AstTree} {f o n : Nat} (h : WeakOK t1 t2 f o n) :
    ∃ no nn, t1.get_node o = some no ∧ t2.get_node n = some nn := by
  cases f with
  | zero => rw [WeakOK] at h; exact h.elim
  | succ f =>
    rw [WeakOK] at h
    cases hgo : t1.get_node o with
    | none => rw [hgo] at h; exact h.elim
    | some no =>
      cases hgn : t2.get_node n with
      | none => rw [hgo, hgn] at h; exact h.elim
      | some nn => exact ⟨no, nn, rfl, rfl⟩

theorem shapeAt_transfer {ti tf : AstTree} (hi : TreeInv ti) (hf : TreeInv tf) (a : Nat)
    (hcore : ∀ x, ChildReach ti a x → nodeCore tf x = nodeCore ti x) :
    shapeAt tf a = shapeAt ti a := by
  have hcongr := @shapeList_congr_core tf ti (ChildReach ti a) hcore
    (by
      intro x hx nx hnx c hc
      obtain ⟨mx, hmx, hk, hl, hch⟩ := core_resolve (hcore x hx).symm hnx
      exact ChildReach.step a x c mx hx hmx (hch ▸ hc))
  have h1 := shapeAt_eq_shapeList hf a (tf.nodes.length + ti.nodes.length) (by omega)
  have h2 := shapeAt_eq_shapeList hi a (tf.nodes.length + ti.nodes.length) (by omega)
  rw [h1, h2]
  exact hcongr (tf.nodes.length + ti.nodes.length) a (ChildReach.refl a)

/-- A reach path in a tree whose cores agree with `u` on the subtree of
`a` is a reach path in `u`. -/
theorem childReach_core_transfer {u u1 : AstTree} {a : Nat}
    (hcore : ∀ x, ChildReach u a x → nodeCore u1 x = nodeCore u x) :
    ∀ x, ChildReach u1 a x → ChildReach u a x := by
  intro x hx
  induction hx with
  | refl => exact ChildReach.refl a
  | step y z ny hr hy hz ih =>
    obtain ⟨my, hmy, hk, hl, hch⟩ := core_resolve (hcore y ih).symm hy
    exact ChildReach.step a y z my ih hmy (by rw [hch]; exact hz)

/-- Effect of `remove_subtree` on a resolvable non-root id: the invariants
are preserved, `next_id` is unchanged, the parent loses the id from its
children, and every id outside the removed subtree (other than the parent)
resolves exactly as before. -/
theorem remove_subtree_effect {t : AstTree} (hInv : TreeInv t) {d : Nat} {nd : AstNode}
    (hd : t.get_node d = some nd) (hd0 : d ≠ 0) {pid : Nat} {np : AstNode}
    (hpar : t.parent_of d = some pid) (hgp : t.get_node pid = some np) :
    TreeInv (t.remove_subtree d)
    ∧ (t.remove_subtree d).next_id = t.next_id
    ∧ (t.remove_subtree d).get_node pid
        = some { np with children := np.children.filter (fun c => decide (c ≠ d)) }
    ∧ (∀ x, ¬ ChildReach t d x → x ≠ pid →
        (t.remove_subtree d).get_node x = t.get_node x) := by
  have hInv2 : TreeInv (t.remove_subtree d) := treeInv_remove_subtree hInv hd hd0
  have hpd : pid < d := (hInv.parentSound (d, pid) (lookupA_mem hpar)).1
  have hRlow : ∀ r ∈ t.collect_subtree t.nodes.length d, d ≤ r :=
    fun r hr => collect_subtree_ge hInv t.nodes.length d r hr
  have hnodes : (t.remove_subtree d).nodes
      = (t.modifyNode pid (fun n2 =>
          { n2 with children := n2.children.filter (fun c => decide (c ≠ d)) })).nodes.filter
          (fun n2 => !((t.collect_subtree t.nodes.length d).contains n2.id)) := by
    unfold AstTree.remove_subtree
    rw [hpar]
  have hnpid : np.id = pid := (mem_of_get_node hInv hgp).2
  have hg1 : (t.modifyNode pid (fun n2 =>
        { n2 with children := n2.children.filter (fun c => decide (c ≠ d)) })).get_node pid
      = some { np with children := np.children.filter (fun c => decide (c ≠ d)) } :=
    get_node_modifyNode_self pid _ hgp
  obtain ⟨idx1, hlk1, hge1⟩ := get_node_elim hg1
  have hmem1 : { np with children := np.children.filter (fun c => decide (c ≠ d)) }
      ∈ (t.modifyNode pid (fun n2 =>
        { n2 with children := n2.children.filter (fun c => decide (c ≠ d)) })).nodes :=
    List.getElem?_mem hge1
  have hpidnot : pid ∉ t.collect_subtree t.nodes.length d :=
    fun hmem => absurd (hRlow pid hmem) (by omega)
  have hmemf : { np with children := np.children.filter (fun c => decide (c ≠ d)) }
      ∈ (t.remove_subtree d).nodes := by
    rw [hnodes]
    refine List.mem_filter.mpr ⟨hmem1, ?_⟩
    cases hcont : (t.collect_subtree t.nodes.length d).contains
        ({ np with children := np.children.filter (fun c => decide (c ≠ d)) } : AstNode).id with
    | false => rfl
    | true =>
      have hmem : pid ∈ t.collect_subtree t.nodes.length d := by
        have h2 : (t.collect_subtree t.nodes.length d).contains np.id = true := hcont
        rw [hnpid] at h2
        simpa using h2
      exact absurd hmem hpidnot
  have hc3 : (t.remove_subtree d).get_node pid
      = some { np with children := np.children.filter (fun c => decide (c ≠ d)) } := by
    have h := get_node_of_mem hInv2 hmemf
    rw [← hnpid]
    exact h
  refine ⟨hInv2, remove_subtree_next t d, hc3, ?_⟩
  intro x hnr hxpid
  have hxd : x ∉ t.collect_subtree t.nodes.length d :=
    fun hmem => hnr (collect_mem_childReach t.nodes.length d x hmem)
  have hlive1 : ((t.modifyNode pid (fun n2 =>
      { n2 with children := n2.children.filter (fun c => decide (c ≠ d)) })).nodes).map
        AstNode.id = t.nodes.map AstNode.id := by
    unfold AstTree.modifyNode
    cases hl : lookupA t.index pid with
    | none => rfl
    | some idx2 =>
      simp only []
      exact modifyIdx_map_of_preserve AstNode.id (fun n2 =>
        { n2 with children := n2.children.filter (fun c => decide (c ≠ d)) }) (fun a => rfl)
        t.nodes idx2
  cases hgx : t.get_node x with
  | none =>
    cases hgx2 : (t.remove_subtree d).get_node x with
    | none => rfl
    | some m =>
      obtain ⟨hm2, hid2⟩ := mem_of_get_node hInv2 hgx2
      rw [hnodes] at hm2
      have hm3 := (List.mem_filter.mp hm2).1
      have hmid : m.id ∈ t.nodes.map AstNode.id := by
        rw [← hlive1]
        exact List.mem_map_of_mem AstNode.id hm3
      rw [hid2] at hmid
      exact absurd hmid ((get_node_eq_none_iff hInv).mp hgx)
  | some m =>
    obtain ⟨idx, hlk, hge⟩ := get_node_elim hgx
    obtain ⟨pidx, hlkp, hgep⟩ := get_node_elim hgp
    have hmx : m.id = x := by
      have hs := hInv.idxSound (x, idx) (lookupA_mem hlk)
      dsimp only at hs
      rw [hge] at hs
      simp only [Option.map_some'] at hs
      injection hs
    have hne : idx ≠ pidx := by
      intro he
      rw [he, hgep] at hge
      injection hge with hge
      refine hxpid ?_
      rw [← hmx, ← hge, hnpid]
    have hm1 : m ∈ (t.modifyNode pid (fun n2 =>
        { n2 with children := n2.children.filter (fun c => decide (c ≠ d)) })).nodes := by
      unfold AstTree.modifyNode
      rw [hlkp]
      simp only []
      have h := modifyIdx_getElem?_ne t.nodes pidx idx (fun n2 =>
        { n2 with children := n2.children.filter (fun c => decide (c ≠ d)) }) hne
      rw [hge] at h
      exact List.getElem?_mem h
    have hmf : m ∈ (t.remove_subtree d).nodes := by
      rw [hnodes]
      refine List.mem_filter.mpr ⟨hm1, ?_⟩
      cases hcont : (t.collect_subtree t.nodes.length d).contains m.id with
      | false => rfl
      | true =>
        have hmem : x ∈ t.collect_subtree t.nodes.length d := by
          have h2 := hcont
          rw [hmx] at h2
          simpa using h2
        exact absurd hmem hxd
    have h := get_node_of_mem hInv2 hmf
    rw [hmx] at h
    exact h

theorem not_contains_of_not_mem {a : Nat} {l : List Nat} (h : a ∉ l) :
    (!(l.contains a)) = true := by simp [h]

theorem filter_ne_filter_contains (L : List Nat) (d : Nat) (ds : List Nat) :
    (L.filter (fun c => decide (c ≠ d))).filter (fun c => !(ds.contains c))
      = L.filter (fun c => !((d :: ds).contains c)) := by
  rw [List.filter_filter]
  refine List.filter_congr ?_
  intro a _
  rw [List.contains_cons]
  cases hds : ds.contains a <;> by_cases had : a = d <;> simp [had, hds]

theorem filter_not_drop_aux :
    ∀ (cs : List Nat) (sel : List Bool) (ds : List Nat), cs.Nodup → sel.length = cs.length →
      (∀ a ∈ cs, (a ∈ ds ↔ a ∈ dropOf cs sel)) →
      cs.filter (fun c => !(ds.contains c)) = keptOf cs sel := by
  intro cs
  induction cs with
  | nil =>
    intro sel ds _ hl _
    have hsel : sel = [] := List.eq_nil_of_length_eq_zero hl
    subst hsel
    rfl
  | cons c cs ih =>
    intro sel ds hnd hl hiff
    cases sel with
    | nil => simp at hl
    | cons b bs =>
      have hcn : c ∉ cs := (List.nodup_cons.mp hnd).1
      have hnd2 : cs.Nodup := (List.nodup_cons.mp hnd).2
      have hbl : bs.length = cs.length := by simpa using hl
      rw [List.filter_cons]
      cases b with
      | true =>
        have hcd : c ∉ ds := fun h =>
          hcn (dropOf_subset ((hiff c (List.mem_cons_self c cs)).mp h))
        rw [if_pos (not_contains_of_not_mem hcd)]
        show c :: cs.filter (fun c2 => !(ds.contains c2)) = c :: keptOf cs bs
        refine congrArg (List.cons c) (ih bs ds hnd2 hbl ?_)
        intro a ha
        exact hiff a (List.mem_cons_of_mem c ha)
      | false =>
        have hcd : c ∈ ds := (hiff c (List.mem_cons_self c cs)).mpr
          (List.mem_cons_self c (dropOf cs bs))
        rw [if_neg (by simp [hcd])]
        show cs.filter (fun c2 => !(ds.contains c2)) = keptOf cs bs
        refine ih bs ds hnd2 hbl ?_
        intro a ha
        have hac : a ≠ c := fun he => hcn (he ▸ ha)
        rw [hiff a (List.mem_cons_of_mem c ha)]
        show a ∈ c :: dropOf cs bs ↔ a ∈ dropOf cs bs
        simp [hac]

theorem filter_not_drop (cs : List Nat) (sel : List Bool) (hnd : cs.Nodup)
    (hl : sel.length = cs.length) :
    cs.filter (fun c => !((dropOf cs sel).contains c)) = keptOf cs sel :=
  filter_not_drop_aux cs sel (dropOf cs sel) hnd hl (fun a _ => Iff.rfl)

/-- The delete phase: removing a duplicate-free batch of children of `o`
(in subtree order) preserves the invariants and `next_id`, leaves every id
outside the removed subtrees (other than `o`) intact, and filters the
removed ids out of `o`'s children. -/
theorem delete_fold (o : Nat) :
    ∀ (ds : List Nat) (u : AstTree) (mo : AstNode),
    TreeInv u → u.get_node o = some mo →
    (∀ d ∈ ds, d ∈ mo.children) → ds.Nodup →
    TreeInv (apply_patch u (ds.map DiffOp.delete))
    ∧ (apply_patch u (ds.map DiffOp.delete)).next_id = u.next_id
    ∧ (∀ x, (∀ d ∈ ds, ¬ ChildReach u d x) → x ≠ o →
        nodeCore (apply_patch u (ds.map DiffOp.delete)) x = nodeCore u x)
    ∧ (apply_patch u (ds.map DiffOp.delete)).get_node o
        = some { mo with children := mo.children.filter (fun c => !(ds.contains c)) } := by
  intro ds
  induction ds with
  | nil =>
    intro u mo hu hmo hmem hnd
    refine ⟨hu, rfl, fun x _ _ => rfl, ?_⟩
    rw [show mo.children.filter (fun c => !(([] : List Nat).contains c)) = mo.children from
      List.filter_eq_self.mpr (fun a _ => rfl)]
    exact hmo
  | cons d ds ih =>
    intro u mo hu hmo hmem hnd
    have hdmem : d ∈ mo.children := hmem d (List.mem_cons_self d ds)
    have hmoMem : mo ∈ u.nodes := (mem_of_get_node hu hmo).1
    have hmoId : mo.id = o := (mem_of_get_node hu hmo).2
    have hod : o < d := by
      have h := child_gt_parent hu hmoMem hdmem
      rw [hmoId] at h
      exact h
    have hd0 : d ≠ 0 := by omega
    obtain ⟨nd2, hnd2, hid2⟩ := hu.childLive mo hmoMem d hdmem
    have hgd : u.get_node d = some nd2 := by
      have h := get_node_of_mem hu hnd2
      rw [hid2] at h
      exact h
    have hpar : u.parent_of d = some o := by
      have h := hu.childParent mo hmoMem d hdmem
      rw [hmoId] at h
      exact h
    obtain ⟨hu1, hnext1, hgo1, hpres1⟩ := remove_subtree_effect hu hgd hd0 hpar hmo
    have hstep : apply_patch u ((d :: ds).map DiffOp.delete)
        = apply_patch (u.remove_subtree d) (ds.map DiffOp.delete) :=
      apply_patch_append u [DiffOp.delete d] (ds.map DiffOp.delete)
    rw [hstep]
    have hdisj : ∀ d2 ∈ ds, ∀ x, ChildReach u d2 x → ¬ ChildReach u d x := by
      intro d2 hd2 x hx2 hxd
      have hne : d2 ≠ d := fun he => (List.nodup_cons.mp hnd).1 (he ▸ hd2)
      exact sibling_desc_disjoint hu hmoMem (hmem d2 (List.mem_cons_of_mem d hd2)) hdmem
        hne x hx2 hxd
    have hcore1 : ∀ d2 ∈ ds, ∀ x, ChildReach u d2 x →
        nodeCore (u.remove_subtree d) x = nodeCore u x := by
      intro d2 hd2 x hx
      have hxo : x ≠ o := by
        have h1 := childReach_le hu hx
        have h2 : o < d2 := by
          have h := child_gt_parent hu hmoMem (hmem d2 (List.mem_cons_of_mem d hd2))
          rw [hmoId] at h
          exact h
        omega
      unfold nodeCore
      rw [hpres1 x (hdisj d2 hd2 x hx) hxo]
    have hreach1 : ∀ d2 ∈ ds, ∀ x, ChildReach (u.remove_subtree d) d2 x → ChildReach u d2 x :=
      fun d2 hd2 => childReach_core_transfer (hcore1 d2 hd2)
    have hmem1 : ∀ d2 ∈ ds, d2 ∈ ({ mo with
        children := mo.children.filter (fun c => decide (c ≠ d)) } : AstNode).children := by
      intro d2 hd2
      have hne : d2 ≠ d := fun he => (List.nodup_cons.mp hnd).1 (he ▸ hd2)
      show d2 ∈ mo.children.filter (fun c => decide (c ≠ d))
      exact List.mem_filter.mpr ⟨hmem d2 (List.mem_cons_of_mem d hd2), by simpa using hne⟩
    obtain ⟨huf, hnextf, hpresf, hgof⟩ :=
      ih (u.remove_subtree d)
        { mo with children := mo.children.filter (fun c => decide (c ≠ d)) }
        hu1 hgo1 hmem1 (List.nodup_cons.mp hnd).2
    refine ⟨huf, by rw [hnextf, hnext1], ?_, ?_⟩
    · intro x hall hxo
      rw [hpresf x
        (fun d2 hd2 hr => hall d2 (List.mem_cons_of_mem d hd2) (hreach1 d2 hd2 x hr)) hxo]
      unfold nodeCore
      rw [hpres1 x (hall d (List.mem_cons_self d ds)) hxo]
    · rw [← filter_ne_filter_contains mo.children d ds]
      exact hgof

/-- Protection of a processed child subtree: once pair `a` under parent `o`
has been processed, nothing reachable from `a` in the current tree lies in
the `t1`-subtree of any still-unprocessed sibling `b`. -/
theorem done_protect {t1 ti : AstTree} (hInv1 : TreeInv t1) (hInvi : TreeInv ti)
    {o a : Nat} {no mo : AstNode}
    (ho1 : t1.get_node o = some no) (hoi : ti.get_node o = some mo)
    (hch : mo.children = no.children) (ha : a ∈ no.children)
    (B : List Nat)
    (hB : ∀ b ∈ B, b ∈ no.children ∧ b ≠ a)
    (hprist : ∀ b ∈ B, ∀ x, ChildReach t1 b x → nodeCore ti x = nodeCore t1 x) :
    ∀ x, ChildReach ti a x → ∀ b ∈ B, ¬ ChildReach t1 b x := by
  intro x hx
  induction hx with
  | refl =>
    intro b hbB hba
    exact childReach_sib_aux hInv1 (mem_of_get_node hInv1 ho1).1 (hB b hbB).1 ha
      (hB b hbB).2 hba
  | step y z ny hr hy hz ih =>
    intro b hbB hbz
    by_cases hzb : z = b
    · subst hzb
      have hpy := hInvi.childParent ny (mem_of_get_node hInvi hy).1 z hz
      have hbo : z ∈ mo.children := by rw [hch]; exact (hB z hbB).1
      have hpo := hInvi.childParent mo (mem_of_get_node hInvi hoi).1 z hbo
      rw [hpo] at hpy
      injection hpy with he
      have hidy : ny.id = y := (mem_of_get_node hInvi hy).2
      have hido : mo.id = o := (mem_of_get_node hInvi hoi).2
      have hyo : y = o := by rw [← hidy, ← he, hido]
      have h1 : a ≤ y := childReach_le hInvi hr
      have hao : a ∈ mo.children := by rw [hch]; exact ha
      have h2 : mo.id < a := child_gt_parent hInvi (mem_of_get_node hInvi hoi).1 hao
      rw [hido] at h2
      rw [hyo] at h1
      omega
    · rcases childReach_parent_step hbz hzb with ⟨q, nq, hrq, hq1, hzq⟩
      have hcq := hprist b hbB q hrq
      obtain ⟨mq, hmq, hk2, hl2, hchq⟩ := core_resolve hcq hq1
      have hzmq : z ∈ mq.children := by rw [hchq]; exact hzq
      have hp1 := hInvi.childParent ny (mem_of_get_node hInvi hy).1 z hz
      have hp2 := hInvi.childParent mq (mem_of_get_node hInvi hmq).1 z hzmq
      rw [hp2] at hp1
      injection hp1 with he
      have hidy : ny.id = y := (mem_of_get_node hInvi hy).2
      have hidq : mq.id = q := (mem_of_get_node hInvi hmq).2
      have hqy : q = y := by rw [← hidq, he, hidy]
      exact ih b hbB (hqy ▸ hrq)

/-- Effect of the (possibly absent) relabel phase of `diff_subtree`. -/
theorem relabel_phase {t : AstTree} (hInv : TreeInv t) {o : Nat} {mo : AstNode}
    (hm : t.get_node o = some mo) (lold lnew : List Nat) (A : List DiffOp)
    (hA : A = [] ∧ mo.label = lnew ∨ A = [DiffOp.relabel o lold lnew]) :
    TreeInv (apply_patch t A) ∧ (apply_patch t A).next_id = t.next_id
    ∧ (apply_patch t A).get_node o = some { mo with label := lnew }
    ∧ ∀ x, x ≠ o → (apply_patch t A).get_node x = t.get_node x := by
  rcases hA with ⟨rfl, hl⟩ | rfl
  · refine ⟨hInv, rfl, ?_, fun x _ => rfl⟩
    rw [← hl]
    exact hm
  · refine ⟨?_, ?_, ?_, ?_⟩
    · exact treeInv_modifyNode_pres hInv o (fun n2 => { n2 with label := lnew })
        (fun a => ⟨rfl, rfl, rfl⟩)
    · exact modifyNode_next t o (fun n2 => { n2 with label := lnew })
    · exact get_node_modifyNode_self o (fun n2 => { n2 with label := lnew }) hm
    · intro x hx
      exact get_node_modifyNode_ne hInv o (fun n2 => { n2 with label := lnew }) x hx

/-- Effect of the (possibly absent) value-update phase: values are not part
of `nodeCore`, so every core is preserved. -/
theorem update_phase {t : AstTree} (hInv : TreeInv t) (o : Nat) (vold vnew : NodeValue)
    (B : List DiffOp) (hB : B = [] ∨ B = [DiffOp.update o vold vnew]) :
    TreeInv (apply_patch t B) ∧ (apply_patch t B).next_id = t.next_id
    ∧ (∀ x, nodeCore (apply_patch t B) x = nodeCore t x) := by
  rcases hB with rfl | rfl
  · exact ⟨hInv, rfl, fun x => rfl⟩
  · refine ⟨treeInv_modifyNode_value hInv o vnew, modifyNode_next t o _, ?_⟩
    intro x
    by_cases hx : x = o
    · subst hx
      cases hg : t.get_node x with
      | none =>
        show nodeCore (t.modifyNode x (fun n2 => { n2 with value := vnew })) x = nodeCore t x
        rw [modifyNode_of_get_none hInv hg]
      | some m =>
        show nodeCore (t.modifyNode x (fun n2 => { n2 with value := vnew })) x = nodeCore t x
        unfold nodeCore
        rw [get_node_modifyNode_self x (fun n2 => { n2 with value := vnew }) hg, hg]
        rfl
    · show nodeCore (t.modifyNode o (fun n2 => { n2 with value := vnew })) x = nodeCore t x
      unfold nodeCore
      rw [get_node_modifyNode_ne hInv o (fun n2 => { n2 with value := vnew }) x hx]

/-- Effect of the trailing-insert phase: each unmatched new child is a leaf
of `t2`, so the inserts append fresh leaf nodes under `o` whose shapes are
exactly the shapes of the unmatched new children. -/
theorem insert_fold (t2 : AstTree) (o : Nat) :
    ∀ (dd : List Nat) (u : AstTree) (i : Nat) (mo : AstNode),
    TreeInv u → u.get_node o = some mo →
    (∀ c ∈ dd, ∃ nc, t2.get_node c = some nc ∧ nc.children = []) →
    TreeInv (apply_patch u (insertsOf t2 o dd (List.replicate dd.length false) i))
    ∧ u.next_id ≤ (apply_patch u (insertsOf t2 o dd (List.replicate dd.length false) i)).next_id
    ∧ (∀ x, x < u.next_id → x ≠ o →
        nodeCore (apply_patch u (insertsOf t2 o dd (List.replicate dd.length false) i)) x
          = nodeCore u x)
    ∧ ∃ fresh : List Nat,
        (apply_patch u (insertsOf t2 o dd (List.replicate dd.length false) i)).get_node o
          = some { mo with children := mo.children ++ fresh }
        ∧ ∀ f, listFlatMap
            (shapeList (apply_patch u (insertsOf t2 o dd (List.replicate dd.length false) i)) f)
            fresh
          = listFlatMap (shapeList t2 f) dd := by
  intro dd
  induction dd with
  | nil =>
    intro u i mo hu hmo hleaf
    refine ⟨hu, Nat.le_refl _, fun x hx hxo => rfl, [], ?_, fun f => rfl⟩
    rw [List.append_nil]
    exact hmo
  | cons c cs ih =>
    intro u i mo hu hmo hleaf
    obtain ⟨nc, hnc, hncch⟩ := hleaf c (List.mem_cons_self c cs)
    have hsc : insertsOf t2 o (c :: cs) (List.replicate (c :: cs).length false) i
        = [DiffOp.insert o i nc.kind nc.label nc.value]
            ++ insertsOf t2 o cs (List.replicate cs.length false) (i + 1) := by
      simp only [List.length_cons, List.replicate_succ]
      rw [insertsOf]
      rw [hnc]
      simp only [Bool.not_false, if_true]
    obtain ⟨hu1, hnext1, hroot1, hgo1, hgnew1, hother1⟩ :=
      insert_effect hu hmo nc.kind nc.label nc.value
    have holt : o < u.next_id := by
      have hm := mem_of_get_node hu hmo
      have hb := hu.nidBound mo hm.1
      rw [hm.2] at hb
      exact hb
    have happ : apply_patch u ([DiffOp.insert o i nc.kind nc.label nc.value]
          ++ insertsOf t2 o cs (List.replicate cs.length false) (i + 1))
        = apply_patch (u.add_node_with_value nc.kind nc.label nc.value o).2
            (insertsOf t2 o cs (List.replicate cs.length false) (i + 1)) :=
      apply_patch_append u [DiffOp.insert o i nc.kind nc.label nc.value] _
    obtain ⟨hufInv, hufnext, hufpres, fresh1, hufo, hufsh⟩ :=
      ih (u.add_node_with_value nc.kind nc.label nc.value o).2 (i + 1)
        { mo with children := mo.children ++ [u.next_id] } hu1 hgo1
        (fun c2 hc2 => hleaf c2 (List.mem_cons_of_mem c hc2))
    rw [hsc, happ]
    refine ⟨hufInv, ?_, ?_, u.next_id :: fresh1, ?_, ?_⟩
    · rw [hnext1] at hufnext
      omega
    · intro x hx hxo
      rw [hufpres x (by rw [hnext1]; omega) hxo]
      unfold nodeCore
      rw [hother1 x hxo (by omega)]
    · rw [show mo.children ++ u.next_id :: fresh1 = (mo.children ++ [u.next_id]) ++ fresh1 from
        (List.append_assoc mo.children [u.next_id] fresh1).symm]
      exact hufo
    · intro f
      cases f with
      | zero =>
        rw [shapeList_zero_flat, shapeList_zero_flat]
      | succ f =>
        simp only [listFlatMap]
        have hc1 : nodeCore (apply_patch (u.add_node_with_value nc.kind nc.label nc.value o).2
            (insertsOf t2 o cs (List.replicate cs.length false) (i + 1))) u.next_id
            = some (nc.kind, nc.label, []) := by
          rw [hufpres u.next_id (by rw [hnext1]; omega) (Ne.symm (Nat.ne_of_lt holt))]
          unfold nodeCore
          rw [hgnew1]
          rfl
        have hc2 : nodeCore t2 c = some (nc.kind, nc.label, []) := by
          unfold nodeCore
          rw [hnc]
          simp only [Option.map_some']
          rw [hncch]
        rw [shapeList_of_core_leaf hc1 f, shapeList_of_core_leaf hc2 f, hufsh (f + 1)]

/-- The matched-children fold of `diff_subtree`, applied under `apply_patch`:
processing the key-matched pairs in order preserves the invariants, never
shrinks `next_id`, leaves every id outside the processed subtrees intact,
and brings each processed old child to the shape of its new counterpart. -/
theorem child_fold {t1 t2 : AstTree} (hInv1 : TreeInv t1) (hInv2 : TreeInv t2)
    (fuel : Nat)
    (IH : ∀ (o2 n2 : Nat) (t : AstTree), TreeInv t → WeakOK t1 t2 fuel o2 n2 →
      t1.next_id ≤ t.next_id →
      (∀ x, ChildReach t1 o2 x → nodeCore t x = nodeCore t1 x) →
      TreeInv (apply_patch t (diff_subtree t1 t2 fuel o2 n2))
      ∧ t.next_id ≤ (apply_patch t (diff_subtree t1 t2 fuel o2 n2)).next_id
      ∧ (∀ x, x < t.next_id → ¬ ChildReach t1 o2 x →
          nodeCore (apply_patch t (diff_subtree t1 t2 fuel o2 n2)) x = nodeCore t x)
      ∧ shapeAt (apply_patch t (diff_subtree t1 t2 fuel o2 n2)) o2 = shapeAt t2 n2)
    {o : Nat} {no : AstNode} (ho1 : t1.get_node o = some no) :
    ∀ (todo : List (Nat × Nat)) (u : AstTree), TreeInv u →
    t1.next_id ≤ u.next_id →
    (∀ p ∈ todo, p.1 ∈ no.children) →
    (todo.map Prod.fst).Nodup →
    (∀ p ∈ todo, WeakOK t1 t2 fuel p.1 p.2) →
    (∀ p ∈ todo, ∀ x, ChildReach t1 p.1 x → nodeCore u x = nodeCore t1 x) →
    (∃ mo, u.get_node o = some mo ∧ mo.children = no.children) →
    TreeInv (apply_patch u (listFlatMap (fun p2 => diff_subtree t1 t2 fuel p2.1 p2.2) todo))
    ∧ u.next_id ≤
        (apply_patch u (listFlatMap (fun p2 => diff_subtree t1 t2 fuel p2.1 p2.2) todo)).next_id
    ∧ (∀ x, x < u.next_id → (∀ p ∈ todo, ¬ ChildReach t1 p.1 x) →
        nodeCore (apply_patch u (listFlatMap (fun p2 => diff_subtree t1 t2 fuel p2.1 p2.2) todo)) x
          = nodeCore u x)
    ∧ (∀ p ∈ todo,
        shapeAt (apply_patch u (listFlatMap (fun p2 => diff_subtree t1 t2 fuel p2.1 p2.2) todo)) p.1
          = shapeAt t2 p.2) := by
  intro todo
  induction todo with
  | nil =>
    intro u hu hnx hmem hnod hok hprist hou
    exact ⟨hu, Nat.le_refl _, fun x hx h2 => rfl, fun p hp => absurd hp (List.not_mem_nil p)⟩
  | cons p rest ih =>
    intro u hu hnx hmem hnod hok hprist hou
    obtain ⟨mo, hgu, hchu⟩ := hou
    have hp1mem : p.1 ∈ no.children := hmem p (List.mem_cons_self p rest)
    have hop : o < p.1 := by
      have h := child_gt_parent hInv1 (mem_of_get_node hInv1 ho1).1 hp1mem
      rw [(mem_of_get_node hInv1 ho1).2] at h
      exact h
    have hot1 : o < t1.next_id := by
      have h := hInv1.nidBound no (mem_of_get_node hInv1 ho1).1
      rw [(mem_of_get_node hInv1 ho1).2] at h
      exact h
    have hnoreach_o : ¬ ChildReach t1 p.1 o := by
      intro h
      have := childReach_le hInv1 h
      omega
    rw [List.map_cons] at hnod
    have hnotin : p.1 ∉ rest.map Prod.fst := (List.nodup_cons.mp hnod).1
    have hnodr : (rest.map Prod.fst).Nodup := (List.nodup_cons.mp hnod).2
    obtain ⟨hu1, hnext1, hpres1, hshape1⟩ :=
      IH p.1 p.2 u hu (hok p (List.mem_cons_self p rest)) hnx
        (hprist p (List.mem_cons_self p rest))
    have hcoreo1 : nodeCore (apply_patch u (diff_subtree t1 t2 fuel p.1 p.2)) o
        = nodeCore u o := hpres1 o (by omega) hnoreach_o
    have hou1 : ∃ mo1, (apply_patch u (diff_subtree t1 t2 fuel p.1 p.2)).get_node o = some mo1
        ∧ mo1.children = no.children := by
      obtain ⟨mo1, hg1, hk1, hl1, hc1⟩ := core_resolve hcoreo1 hgu
      exact ⟨mo1, hg1, by rw [hc1, hchu]⟩
    have hlive : ∀ q ∈ rest, ∀ x, ChildReach t1 q.1 x → x < t1.next_id := by
      intro q hq x hx
      obtain ⟨nq1, nq2, hq1, hq2⟩ := weakOK_resolve (hok q (List.mem_cons_of_mem p hq))
      obtain ⟨m, hm, hid⟩ := childReach_live hInv1 hq1 hx
      have h2 := hInv1.nidBound m hm
      omega
    have hqnep : ∀ q ∈ rest, q.1 ≠ p.1 := by
      intro q hq h
      exact hnotin (h ▸ List.mem_map_of_mem Prod.fst hq)
    have hprist1 : ∀ q ∈ rest, ∀ x, ChildReach t1 q.1 x →
        nodeCore (apply_patch u (diff_subtree t1 t2 fuel p.1 p.2)) x = nodeCore t1 x := by
      intro q hq x hx
      have hxlt : x < u.next_id := by
        have := hlive q hq x hx
        omega
      have hnr : ¬ ChildReach t1 p.1 x := by
        intro h2
        exact sibling_desc_disjoint hInv1 (mem_of_get_node hInv1 ho1).1
          (hmem q (List.mem_cons_of_mem p hq)) hp1mem (hqnep q hq) x hx h2
      rw [hpres1 x hxlt hnr]
      exact hprist q (List.mem_cons_of_mem p hq) x hx
    obtain ⟨hufInv, hufnext, hufpres, hufshape⟩ :=
      ih (apply_patch u (diff_subtree t1 t2 fuel p.1 p.2)) hu1 (hnx.trans hnext1)
        (fun q hq => hmem q (List.mem_cons_of_mem p hq)) hnodr
        (fun q hq => hok q (List.mem_cons_of_mem p hq)) hprist1 hou1
    have happ : apply_patch u (listFlatMap (fun p2 => diff_subtree t1 t2 fuel p2.1 p2.2) (p :: rest))
        = apply_patch (apply_patch u (diff_subtree t1 t2 fuel p.1 p.2))
            (listFlatMap (fun p2 => diff_subtree t1 t2 fuel p2.1 p2.2) rest) :=
      apply_patch_append u (diff_subtree t1 t2 fuel p.1 p.2) _
    rw [happ]
    refine ⟨hufInv, hnext1.trans hufnext, ?_, ?_⟩
    · intro x hx hall
      rw [hufpres x (by omega) (fun q hq => hall q (List.mem_cons_of_mem p hq))]
      exact hpres1 x hx (hall p (List.mem_cons_self p rest))
    · intro q hq
      rcases List.mem_cons.mp hq with rfl | hqr
      · obtain ⟨mo1, hg1, hc1⟩ := hou1
        have hp1mem1 : q.1 ∈ mo1.children := by rw [hc1]; exact hp1mem
        obtain ⟨mp, hmp, hmpid⟩ := hu1.childLive mo1 (mem_of_get_node hu1 hg1).1 q.1 hp1mem1
        have hgp1 : (apply_patch u (diff_subtree t1 t2 fuel q.1 q.2)).get_node q.1 = some mp := by
          have hgp0 := get_node_of_mem hu1 hmp
          rw [hmpid] at hgp0
          exact hgp0
        have hcore : ∀ x, ChildReach (apply_patch u (diff_subtree t1 t2 fuel q.1 q.2)) q.1 x →
            nodeCore (apply_patch (apply_patch u (diff_subtree t1 t2 fuel q.1 q.2))
                (listFlatMap (fun p2 => diff_subtree t1 t2 fuel p2.1 p2.2) rest)) x
              = nodeCore (apply_patch u (diff_subtree t1 t2 fuel q.1 q.2)) x := by
          intro x hx
          have hxlt : x < (apply_patch u (diff_subtree t1 t2 fuel q.1 q.2)).next_id := by
            obtain ⟨m, hm, hid⟩ := childReach_live hu1 hgp1 hx
            have h2 := hu1.nidBound m hm
            omega
          have hprot := done_protect hInv1 hu1 ho1 hg1 hc1 hp1mem
            (rest.map Prod.fst)
            (by
              intro b hb
              obtain ⟨q2, hq2, rfl⟩ := List.mem_map.mp hb
              exact ⟨hmem q2 (List.mem_cons_of_mem q hq2), hqnep q2 hq2⟩)
            (by
              intro b hb x2 hx2
              obtain ⟨q2, hq2, rfl⟩ := List.mem_map.mp hb
              exact hprist1 q2 hq2 x2 hx2)
          exact hufpres x hxlt (fun q2 hq2 =>
            hprot x hx q2.1 (List.mem_map_of_mem Prod.fst hq2))
        have htr := shapeAt_transfer hu1 hufInv q.1 hcore
        rw [htr]
        exact hshape1
      · exact hufshape q hqr

/-- Assembling the final shape of the processed parent: its matched children
carry the shapes of their new counterparts and the appended fresh leaves
carry the shapes of the unmatched new children, so the parent's subtree
shape equals the new parent's subtree shape. -/
theorem final_shape_assembly {t2 tC tf : AstTree} (hInvC : TreeInv tC) (hInvF : TreeInv tf)
    (hInv2 : TreeInv t2) {o n : Nat} {mC nn : AstNode} {fresh : List Nat}
    (hgn2 : t2.get_node n = some nn)
    (hgC : tC.get_node o = some mC)
    (hkC : mC.kind = nn.kind) (hlC : mC.label = nn.label)
    (hlen : mC.children.length ≤ nn.children.length)
    (hgF : tf.get_node o = some { mC with children := mC.children ++ fresh })
    (hshapeC : ∀ p ∈ mC.children.zip nn.children, shapeAt tC p.1 = shapeAt t2 p.2)
    (hpresD : ∀ x, x < tC.next_id → x ≠ o → nodeCore tf x = nodeCore tC x)
    (hfreshsh : ∀ f, listFlatMap (shapeList tf f) fresh
        = listFlatMap (shapeList t2 f) (nn.children.drop mC.children.length)) :
    shapeAt tf o = shapeAt t2 n := by
  have hoC : mC.id = o := (mem_of_get_node hInvC hgC).2
  have hmCmem : mC ∈ tC.nodes := (mem_of_get_node hInvC hgC).1
  have hshapeF : ∀ p ∈ mC.children.zip nn.children, shapeAt tf p.1 = shapeAt t2 p.2 := by
    intro p hp
    obtain ⟨a, b⟩ := p
    have hamem : a ∈ mC.children := (List.of_mem_zip hp).1
    have hoa : o < a := by
      have h := child_gt_parent hInvC hmCmem hamem
      rw [hoC] at h
      exact h
    obtain ⟨ma, hma, hmaid⟩ := hInvC.childLive mC hmCmem a hamem
    have hga : tC.get_node a = some ma := by
      have h := get_node_of_mem hInvC hma
      rw [hmaid] at h
      exact h
    have hcore : ∀ x, ChildReach tC a x → nodeCore tf x = nodeCore tC x := by
      intro x hx
      have hle := childReach_le hInvC hx
      have hxlt : x < tC.next_id := by
        obtain ⟨m, hm, hid⟩ := childReach_live hInvC hga hx
        have h2 := hInvC.nidBound m hm
        omega
      exact hpresD x hxlt (by omega)
    rw [shapeAt_transfer hInvC hInvF a hcore]
    exact hshapeC (a, b) hp
  have hm2 := flatMap_zip_congr (shapeList tf (tf.nodes.length + t2.nodes.length))
    (shapeList t2 (tf.nodes.length + t2.nodes.length)) (mC.children.zip nn.children)
    (fun p hp => by
      have h := hshapeF p hp
      rw [shapeAt_eq_shapeList hInvF p.1 (tf.nodes.length + t2.nodes.length) (by omega)] at h
      rw [shapeAt_eq_shapeList hInv2 p.2 (tf.nodes.length + t2.nodes.length) (by omega)] at h
      exact h)
  rw [List.map_fst_zip mC.children nn.children hlen, zip_map_snd] at hm2
  have hF1 : shapeAt tf o = shapeList tf (tf.nodes.length + t2.nodes.length + 1) o :=
    shapeAt_eq_shapeList hInvF o (tf.nodes.length + t2.nodes.length + 1) (by omega)
  have hF2 : shapeAt t2 n = shapeList t2 (tf.nodes.length + t2.nodes.length + 1) n :=
    shapeAt_eq_shapeList hInv2 n (tf.nodes.length + t2.nodes.length + 1) (by omega)
  rw [hF1, hF2, shapeList, shapeList, hgF, hgn2]
  simp only []
  show [Shape.node mC.kind mC.label (listFlatMap
      (shapeList tf (tf.nodes.length + t2.nodes.length)) (mC.children ++ fresh))]
    = [Shape.node nn.kind nn.label (listFlatMap
      (shapeList t2 (tf.nodes.length + t2.nodes.length)) nn.children)]
  have hchildren : listFlatMap (shapeList tf (tf.nodes.length + t2.nodes.length))
        (mC.children ++ fresh)
      = listFlatMap (shapeList t2 (tf.nodes.length + t2.nodes.length)) nn.children := by
    rw [listFlatMap_append, hfreshsh (tf.nodes.length + t2.nodes.length), hm2,
      ← listFlatMap_append, List.take_append_drop]
  rw [hkC, hlC, hchildren]

/-- Main weak-correctness induction: applying the script of
`diff_subtree t1 t2 fuel o n` to any tree agreeing with `t1` on the
subtree of `o` preserves the invariants, never shrinks `next_id`, leaves
ids outside the subtree of `o` intact, and brings the subtree of `o` to
the shape of the subtree of `n` in `t2` — provided the `WeakOK` skeleton
premise holds at that fuel. -/
theorem diff_apply_main {t1 t2 : AstTree} (hInv1 : TreeInv t1) (hInv2 : TreeInv t2) :
    ∀ (fuel o n : Nat) (t : AstTree), TreeInv t → WeakOK t1 t2 fuel o n →
      t1.next_id ≤ t.next_id →
      (∀ x, ChildReach t1 o x → nodeCore t x = nodeCore t1 x) →
      TreeInv (apply_patch t (diff_subtree t1 t2 fuel o n))
      ∧ t.next_id ≤ (apply_patch t (diff_subtree t1 t2 fuel o n)).next_id
      ∧ (∀ x, x < t.next_id → ¬ ChildReach t1 o x →
          nodeCore (apply_patch t (diff_subtree t1 t2 fuel o n)) x = nodeCore t x)
      ∧ shapeAt (apply_patch t (diff_subtree t1 t2 fuel o n)) o = shapeAt t2 n := by
  intro fuel
  induction fuel with
  | zero =>
    intro o n t hInvT hok hnx hpre
    rw [WeakOK] at hok
    exact hok.elim
  | succ fuel ih =>
    intro o n t hInvT hok hnx hpre
    obtain ⟨no, nn, hgo1, hgn2⟩ := weakOK_resolve hok
    rw [WeakOK] at hok
    rw [hgo1, hgn2] at hok
    obtain ⟨hkind, sel, hsel, hlen, hpairs, hdropk, hleaf⟩ := hok
    have hnoMem : no ∈ t1.nodes := (mem_of_get_node hInv1 hgo1).1
    have hnoId : no.id = o := (mem_of_get_node hInv1 hgo1).2
    have hndch : no.children.Nodup := hInv1.childNodup no hnoMem
    have hchmem : ∀ p ∈ (keptOf no.children sel).zip nn.children, p.1 ∈ no.children := by
      intro p hp
      obtain ⟨a, b⟩ := p
      exact keptOf_subset (List.of_mem_zip hp).1
    have hkmem : ∀ p ∈ (keptOf no.children sel).zip nn.children,
        p.1 ∈ keptOf no.children sel := by
      intro p hp
      obtain ⟨a, b⟩ := p
      exact (List.of_mem_zip hp).1
    have hkne : ∀ p ∈ (keptOf no.children sel).zip nn.children,
        ∀ d ∈ dropOf no.children sel, p.1 ≠ d := by
      intro p hp d hd he
      rw [← he] at hd
      exact kept_drop_disjoint no.children sel hndch p.1 (hkmem p hp) hd
    have hogt : ∀ p ∈ (keptOf no.children sel).zip nn.children, o < p.1 := by
      intro p hp
      have h := child_gt_parent hInv1 hnoMem (hchmem p hp)
      rw [hnoId] at h
      exact h
    have hot1 : o < t1.next_id := by
      have h := hInv1.nidBound no hnoMem
      rw [hnoId] at h
      exact h
    have hdgt : ∀ d ∈ dropOf no.children sel, o < d := by
      intro d hd
      have h := child_gt_parent hInv1 hnoMem (dropOf_subset hd)
      rw [hnoId] at h
      exact h
    have hkeys : ∀ p ∈ (keptOf no.children sel).zip nn.children,
        ∃ k, keyOf t1 p.1 = some k ∧ keyOf t2 p.2 = some k := by
      intro p hp
      obtain ⟨hkeq, hwk⟩ := hpairs p hp
      obtain ⟨np, np2, hnp, hnp2⟩ := weakOK_resolve hwk
      refine ⟨(np.kind, np.label), ?_, ?_⟩
      · unfold keyOf
        rw [hnp]
        rfl
      · rw [← hkeq]
        unfold keyOf
        rw [hnp]
        rfl
    have hscript := diff_subtree_script_sel t1 t2 fuel o n hgo1 hgn2 sel hsel hlen hkeys hdropk
    rw [hscript, apply_patch_append, apply_patch_append, apply_patch_append,
      apply_patch_append]
    obtain ⟨moT, hgT, hkT, hlT, hcT⟩ := core_resolve (hpre o (ChildReach.refl o)) hgo1
    have hAcase : (if no.label ≠ nn.label then [DiffOp.relabel o no.label nn.label] else []) = []
          ∧ moT.label = nn.label
        ∨ (if no.label ≠ nn.label then [DiffOp.relabel o no.label nn.label] else [])
          = [DiffOp.relabel o no.label nn.label] := by
      by_cases hlbl : no.label ≠ nn.label
      · rw [if_pos hlbl]
        exact Or.inr rfl
      · rw [if_neg hlbl]
        refine Or.inl ⟨rfl, ?_⟩
        rw [hlT]
        exact not_not.mp hlbl
    obtain ⟨hInvA, hnextA, hgA, hotherA⟩ := relabel_phase hInvT hgT no.label nn.label _ hAcase
    have hBcase : (if !nvEq no.value nn.value then [DiffOp.update o no.value nn.value] else []) = []
        ∨ (if !nvEq no.value nn.value then [DiffOp.update o no.value nn.value] else [])
          = [DiffOp.update o no.value nn.value] := by
      by_cases hval : (!nvEq no.value nn.value) = true
      · rw [if_pos hval]
        exact Or.inr rfl
      · rw [if_neg hval]
        exact Or.inl rfl
    obtain ⟨hInvB, hnextB, hcoreB⟩ := update_phase hInvA o no.value nn.value _ hBcase
    have hnextB2 : (apply_patch (apply_patch t
        (if no.label ≠ nn.label then [DiffOp.relabel o no.label nn.label] else []))
        (if !nvEq no.value nn.value then [DiffOp.update o no.value nn.value] else [])).next_id
        = t.next_id := by
      rw [hnextB, hnextA]
    have hcoreBo : nodeCore (apply_patch (apply_patch t
        (if no.label ≠ nn.label then [DiffOp.relabel o no.label nn.label] else []))
        (if !nvEq no.value nn.value then [DiffOp.update o no.value nn.value] else [])) o
        = some (no.kind, nn.label, no.children) := by
      rw [hcoreB o]
      unfold nodeCore
      rw [hgA]
      simp only [Option.map_some']
      show some (moT.kind, nn.label, moT.children) = some (no.kind, nn.label, no.children)
      rw [hkT, hcT]
    have hchnod : (((keptOf no.children sel).zip nn.children).map Prod.fst).Nodup := by
      rw [List.map_fst_zip (keptOf no.children sel) nn.children hlen]
      exact List.Nodup.sublist (keptOf_sublist no.children sel) hndch
    have hprB : ∀ p ∈ (keptOf no.children sel).zip nn.children, ∀ x, ChildReach t1 p.1 x →
        nodeCore (apply_patch (apply_patch t
          (if no.label ≠ nn.label then [DiffOp.relabel o no.label nn.label] else []))
          (if !nvEq no.value nn.value then [DiffOp.update o no.value nn.value] else [])) x
        = nodeCore t1 x := by
      intro p hp x hx
      have hople := hogt p hp
      have hxo : x ≠ o := by
        have := childReach_le hInv1 hx
        omega
      rw [hcoreB x]
      unfold nodeCore
      rw [hotherA x hxo]
      have hreach : ChildReach t1 o x :=
        childReach_trans (ChildReach.step o o p.1 no (ChildReach.refl o) hgo1 (hchmem p hp)) hx
      exact hpre x hreach
    obtain ⟨hInvC, hnextC, hpresC, hshapeC⟩ :=
      child_fold hInv1 hInv2 fuel ih hgo1 ((keptOf no.children sel).zip nn.children) _ hInvB
        (by rw [hnextB2]; exact hnx) hchmem hchnod
        (fun p hp => (hpairs p hp).2) hprB
        (by
          obtain ⟨mB, hmB, hk2, hl2, hc2⟩ := core_some_elim hcoreBo
          exact ⟨mB, hmB, hc2⟩)
    have hnoreachC : ∀ p ∈ (keptOf no.children sel).zip nn.children,
        ¬ ChildReach t1 p.1 o := by
      intro p hp h
      have h1 := childReach_le hInv1 h
      have h2 := hogt p hp
      omega
    have hcoreCo := hpresC o (by rw [hnextB2]; omega) (hnoreachC)
    rw [hcoreBo] at hcoreCo
    obtain ⟨mC, hgC, hkC, hlC, hcC⟩ := core_some_elim hcoreCo
    have hmCMem : mC ∈ (apply_patch (apply_patch (apply_patch t
        (if no.label ≠ nn.label then [DiffOp.relabel o no.label nn.label] else []))
        (if !nvEq no.value nn.value then [DiffOp.update o no.value nn.value] else []))
        (listFlatMap (fun p2 => diff_subtree t1 t2 fuel p2.1 p2.2)
          ((keptOf no.children sel).zip nn.children))).nodes := (mem_of_get_node hInvC hgC).1
    have hdsmem : ∀ d ∈ dropOf no.children sel, d ∈ mC.children := by
      intro d hd
      rw [hcC]
      exact dropOf_subset hd
    have hdsnd : (dropOf no.children sel).Nodup :=
      List.Nodup.sublist (dropOf_sublist no.children sel) hndch
    obtain ⟨hInvDel, hnextDel, hpresDel, hgoDel⟩ :=
      delete_fold o (dropOf no.children sel) _ mC hInvC hgC hdsmem hdsnd
    have hchDel : mC.children.filter (fun c => !((dropOf no.children sel).contains c))
        = keptOf no.children sel := by
      rw [hcC]
      exact filter_not_drop no.children sel hndch hsel
    rw [hchDel] at hgoDel
    have hleafr : ∀ c ∈ nn.children.drop (keptOf no.children sel).length,
        ∃ nc, t2.get_node c = some nc ∧ nc.children = [] := by
      intro c hc
      have h := hleaf c hc
      cases hg : t2.get_node c with
      | none =>
        rw [hg] at h
        exact h.elim
      | some nc =>
        rw [hg] at h
        exact ⟨nc, rfl, h⟩
    obtain ⟨hInvD, hnextD, hpresD, fresh, hgF, hshF⟩ :=
      insert_fold t2 o (nn.children.drop (keptOf no.children sel).length) _
        (keptOf no.children sel).length
        { mC with children := keptOf no.children sel } hInvDel hgoDel hleafr
    have hshapeDel : ∀ p ∈ (keptOf no.children sel).zip nn.children,
        shapeAt (apply_patch (apply_patch (apply_patch (apply_patch t
          (if no.label ≠ nn.label then [DiffOp.relabel o no.label nn.label] else []))
          (if !nvEq no.value nn.value then [DiffOp.update o no.value nn.value] else []))
          (listFlatMap (fun p2 => diff_subtree t1 t2 fuel p2.1 p2.2)
            ((keptOf no.children sel).zip nn.children)))
          ((dropOf no.children sel).map DiffOp.delete)) p.1 = shapeAt t2 p.2 := by
      intro p hp
      have hp1C : p.1 ∈ mC.children := by
        rw [hcC]
        exact hchmem p hp
      obtain ⟨mp, hmp, hmpid⟩ := hInvC.childLive mC hmCMem p.1 hp1C
      have hgp1 := get_node_of_mem hInvC hmp
      rw [hmpid] at hgp1
      have hcore : ∀ x, ChildReach (apply_patch (apply_patch (apply_patch t
            (if no.label ≠ nn.label then [DiffOp.relabel o no.label nn.label] else []))
            (if !nvEq no.value nn.value then [DiffOp.update o no.value nn.value] else []))
            (listFlatMap (fun p2 => diff_subtree t1 t2 fuel p2.1 p2.2)
              ((keptOf no.children sel).zip nn.children))) p.1 x →
          nodeCore (apply_patch (apply_patch (apply_patch (apply_patch t
            (if no.label ≠ nn.label then [DiffOp.relabel o no.label nn.label] else []))
            (if !nvEq no.value nn.value then [DiffOp.update o no.value nn.value] else []))
            (listFlatMap (fun p2 => diff_subtree t1 t2 fuel p2.1 p2.2)
              ((keptOf no.children sel).zip nn.children)))
            ((dropOf no.children sel).map DiffOp.delete)) x
          = nodeCore (apply_patch (apply_patch (apply_patch t
            (if no.label ≠ nn.label then [DiffOp.relabel o no.label nn.label] else []))
            (if !nvEq no.value nn.value then [DiffOp.update o no.value nn.value] else []))
            (listFlatMap (fun p2 => diff_subtree t1 t2 fuel p2.1 p2.2)
              ((keptOf no.children sel).zip nn.children))) x := by
        intro x hx
        have hxo : x ≠ o := by
          have h1 := childReach_le hInvC hx
          have h2 := hogt p hp
          omega
        refine hpresDel x ?_ hxo
        intro d hd hdx
        exact sibling_desc_disjoint hInvC hmCMem hp1C (hdsmem d hd) (hkne p hp d hd) x hx hdx
      rw [shapeAt_transfer hInvC hInvDel p.1 hcore]
      exact hshapeC p hp
    refine ⟨hInvD, by omega, ?_, ?_⟩
    · intro x hx hnr
      have hxo : x ≠ o := by
        intro h
        rw [h] at hnr
        exact hnr (ChildReach.refl o)
      have hnp : ∀ p ∈ (keptOf no.children sel).zip nn.children,
          ¬ ChildReach t1 p.1 x := by
        intro p hp h
        exact hnr (childReach_trans
          (ChildReach.step o o p.1 no (ChildReach.refl o) hgo1 (hchmem p hp)) h)
      have hdrop_prist : ∀ d ∈ dropOf no.children sel, ∀ y, ChildReach t1 d y →
          nodeCore (apply_patch (apply_patch (apply_patch t
            (if no.label ≠ nn.label then [DiffOp.relabel o no.label nn.label] else []))
            (if !nvEq no.value nn.value then [DiffOp.update o no.value nn.value] else []))
            (listFlatMap (fun p2 => diff_subtree t1 t2 fuel p2.1 p2.2)
              ((keptOf no.children sel).zip nn.children))) y = nodeCore t1 y := by
        intro d hd y hy
        have hdmem1 : d ∈ no.children := dropOf_subset hd
        have hod := hdgt d hd
        have hyo : y ≠ o := by
          have := childReach_le hInv1 hy
          omega
        have hylt : y < t1.next_id := by
          obtain ⟨ndd, hndd, hidd⟩ := hInv1.childLive no hnoMem d hdmem1
          have hgdd := get_node_of_mem hInv1 hndd
          rw [hidd] at hgdd
          obtain ⟨m, hm, hid⟩ := childReach_live hInv1 hgdd hy
          have := hInv1.nidBound m hm
          omega
        have h1 := hpresC y (by omega)
          (fun p hp hr => sibling_desc_disjoint hInv1 hnoMem (hchmem p hp) hdmem1
            (hkne p hp d hd) y hr hy)
        rw [h1, hcoreB y]
        unfold nodeCore
        rw [hotherA y hyo]
        exact hpre y (childReach_trans
          (ChildReach.step o o d no (ChildReach.refl o) hgo1 hdmem1) hy)
      have hnd2 : ∀ d ∈ dropOf no.children sel, ¬ ChildReach (apply_patch (apply_patch
          (apply_patch t
            (if no.label ≠ nn.label then [DiffOp.relabel o no.label nn.label] else []))
            (if !nvEq no.value nn.value then [DiffOp.update o no.value nn.value] else []))
            (listFlatMap (fun p2 => diff_subtree t1 t2 fuel p2.1 p2.2)
              ((keptOf no.children sel).zip nn.children))) d x := by
        intro d hd hr
        have h2 := childReach_core_transfer (hdrop_prist d hd) x hr
        exact hnr (childReach_trans
          (ChildReach.step o o d no (ChildReach.refl o) hgo1 (dropOf_subset hd)) h2)
      rw [hpresD x (by omega) hxo, hpresDel x hnd2 hxo, hpresC x (by omega) hnp, hcoreB x]
      unfold nodeCore
      rw [hotherA x hxo]
    · have hkC2 : mC.kind = nn.kind := by rw [hkC, hkind]
      exact final_shape_assembly hInvDel hInvD hInv2 hgn2 hgoDel hkC2 hlC hlen hgF
        hshapeDel hpresD hshF

/-- C1: Weak diff correctness. For every pair of trees satisfying the
representation invariants whose key-matched skeletons are order-compatible
(the `WeakOK` premise: at every matched pair, for some selection of the old
children, the kept old children match the leading new children one-to-one
in order with equal (kind, label) keys, every dropped old child's key
occurs nowhere among the new children, and every trailing new child is a
leaf of the new tree), applying the script produced by `diff_trees t1 t2`
to `t1` with `apply_patch` yields a tree whose root subtree hash equals
`t2`'s root subtree hash.  (As the spec states it — conditioned only on the
produced script having no Delete+Insert pair that replaces a subtree with a
different child shape — the claim is false: see the counterexample, whose
diff is empty.) -/
theorem diff_weak_correct (t1 t2 : AstTree) (hInv1 : TreeInv t1) (hInv2 : TreeInv t2)
    (hok : WeakOK t1 t2 (t1.nodes.length + 1) t1.root_id t2.root_id) :
    (apply_patch t1 (diff_trees t1 t2)).subtree_hash
        (apply_patch t1 (diff_trees t1 t2)).root_id
      = t2.subtree_hash t2.root_id := by
  obtain ⟨hInvF, hnext, hpres, hshape⟩ :=
    diff_apply_main hInv1 hInv2 (t1.nodes.length + 1) t1.root_id t2.root_id t1 hInv1 hok
      (Nat.le_refl _) (fun x h => rfl)
  unfold diff_trees
  unfold AstTree.subtree_hash
  rw [hash_node_eq_shape, hash_node_eq_shape, apply_patch_root]
  show hashShapes (shapeAt (apply_patch t1
      (diff_subtree t1 t2 (t1.nodes.length + 1) t1.root_id t2.root_id)) t1.root_id)
      14695981039346656037
    = hashShapes (shapeAt t2 t2.root_id) 14695981039346656037
  rw [hshape]

/-- The witness old tree: a root with one Primitive child. -/
def c1t1 : AstTree := (AstTree.new.add_node AstNodeKind.Primitive [115] 0).2

/-- The witness new tree: the old tree extended by one trailing Parameter
leaf under the root. -/
def c1t2 : AstTree :=
  ((AstTree.new.add_node AstNodeKind.Primitive [115] 0).2.add_node
    AstNodeKind.Parameter [116] 0).2

theorem c1_weakok : WeakOK c1t1 c1t2 3 0 0 := by
  rw [WeakOK]
  rw [show c1t1.get_node 0
    = some ⟨0, AstNodeKind.Root, [114, 111, 111, 116], NodeValue.none, [1]⟩ by decide]
  rw [show c1t2.get_node 0
    = some ⟨0, AstNodeKind.Root, [114, 111, 111, 116], NodeValue.none, [1, 2]⟩ by decide]
  refine ⟨rfl, [true], by decide, by decide, ?_, ?_, ?_⟩
  · intro p hp
    have hp1 : p = (1, 1) := List.mem_singleton.mp hp
    subst hp1
    refine ⟨rfl, ?_⟩
    rw [WeakOK]
    rw [show c1t1.get_node 1
      = some ⟨1, AstNodeKind.Primitive, [115], NodeValue.none, []⟩ by decide]
    rw [show c1t2.get_node 1
      = some ⟨1, AstNodeKind.Primitive, [115], NodeValue.none, []⟩ by decide]
    exact ⟨rfl, [], rfl, Nat.le_refl 0, fun q hq => absurd hq (List.not_mem_nil q),
      fun d hd => absurd hd (List.not_mem_nil d), fun c hc => absurd hc (List.not_mem_nil c)⟩
  · intro d hd
    exact absurd hd (List.not_mem_nil d)
  · intro c hc
    have hc1 : c = 2 := List.mem_singleton.mp hc
    subst hc1
    exact rfl

/-- Two sibling leaves under the root, labels "a" then "b". -/
def reordA : AstTree :=
  ((AstTree.new.add_node AstNodeKind.Primitive [97] 0).2.add_node
    AstNodeKind.Primitive [98] 0).2

/-- The same two leaves in the opposite order: labels "b" then "a". -/
def reordB : AstTree :=
  ((AstTree.new.add_node AstNodeKind.Primitive [98] 0).2.add_node
    AstNodeKind.Primitive [97] 0).2

/-- The delete-witness new tree: only the "a" leaf remains under the root,
so the diff of `reordA` against it carries a `Delete` of the "b" leaf. -/
def c1delT2 : AstTree := (AstTree.new.add_node AstNodeKind.Primitive [97] 0).2

theorem c1_weakok_del : WeakOK reordA c1delT2 4 0 0 := by
  rw [WeakOK]
  rw [show reordA.get_node 0
    = some ⟨0, AstNodeKind.Root, [114, 111, 111, 116], NodeValue.none, [1, 2]⟩ by decide]
  rw [show c1delT2.get_node 0
    = some ⟨0, AstNodeKind.Root, [114, 111, 111, 116], NodeValue.none, [1]⟩ by decide]
  refine ⟨rfl, [true, false], by decide, by decide, ?_, ?_, ?_⟩
  · intro p hp
    have hp1 : p = (1, 1) := List.mem_singleton.mp hp
    subst hp1
    refine ⟨by decide, ?_⟩
    rw [WeakOK]
    rw [show reordA.get_node 1
      = some ⟨1, AstNodeKind.Primitive, [97], NodeValue.none, []⟩ by decide]
    rw [show c1delT2.get_node 1
      = some ⟨1, AstNodeKind.Primitive, [97], NodeValue.none, []⟩ by decide]
    exact ⟨rfl, [], rfl, Nat.le_refl 0, fun q hq => absurd hq (List.not_mem_nil q),
      fun d hd => absurd hd (List.not_mem_nil d), fun c hc => absurd hc (List.not_mem_nil c)⟩
  · intro d hd
    have hd1 : d = 2 := List.mem_singleton.mp hd
    subst hd1
    intro c hc
    have hc1 : c = 1 := List.mem_singleton.mp hc
    subst hc1
    decide
  · intro c hc
    exact absurd hc (List.not_mem_nil c)

/-- Witness for C1 at two concrete instances: a trailing-leaf insertion and
a pure child deletion (`diff_trees reordA c1delT2` carries `Delete 2`). -/
theorem diff_weak_correct_witness :
    ((apply_patch c1t1 (diff_trees c1t1 c1t2)).subtree_hash
        (apply_patch c1t1 (diff_trees c1t1 c1t2)).root_id
      = c1t2.subtree_hash c1t2.root_id)
    ∧ ((apply_patch reordA (diff_trees reordA c1delT2)).subtree_hash
        (apply_patch reordA (diff_trees reordA c1delT2)).root_id
      = c1delT2.subtree_hash c1delT2.root_id) :=
  ⟨diff_weak_correct c1t1 c1t2
    ⟨by decide, by decide, by decide, by decide, by decide, by decide, by decide, by decide,
      by decide, by decide, by decide⟩
    ⟨by decide, by decide, by decide, by decide, by decide, by decide, by decide, by decide,
      by decide, by decide, by decide⟩
    c1_weakok,
   diff_weak_correct reordA c1delT2
    ⟨by decide, by decide, by decide, by decide, by decide, by decide, by decide, by decide,
      by decide, by decide, by decide⟩
    ⟨by decide, by decide, by decide, by decide, by decide, by decide, by decide, by decide,
      by decide, by decide, by decide⟩
    c1_weakok_del⟩

/-- C1 counterexample to the claim as stated: when the root's children are
the same keyed leaves in a different order, the diff is empty — so the
spec's precondition (no Delete+Insert pair replacing a subtree with a
different child shape) holds vacuously — yet applying it leaves the old
tree's root hash, which differs from the new tree's, because FNV-1a folds
the children in order. -/
theorem diff_weak_counterexample :
    diff_trees reordA reordB = []
    ∧ ¬ ((apply_patch reordA (diff_trees reordA reordB)).subtree_hash
          (apply_patch reordA (diff_trees reordA reordB)).root_id
        = reordB.subtree_hash reordB.root_id) := by
  decide
end AliceVCS
